import Mathlib

/-!
# go-tumblr: request construction and response dispatch

A shallow embedding of `tumblr.go` (package `tumblr`): the constants, the
`Client`, `Response` and `ResponseMeta` types, `NewClient`, `Client.NewRequest`
and `Client.Do`.

`NewRequest` is a thin layer over Go's `net/url` and `net/http`; what it builds is
decided by `url.Parse`, `URL.ResolveReference`, `URL.Query`, `Values.Get`,
`Values.Set`, `Values.Encode`, `URL.String` and `http.NewRequest`.  Those library
functions are embedded here from the Go standard library (release 1.22), function
by function and under their Go names, in the namespaces `strings`, `url` and
`http`.  Go strings are byte sequences, so a string is a list of bytes.

`Do` is a thin layer over the HTTP transport (`http.Client.Do`) and the JSON
decoder (`json.Decoder.Decode`).  Both are collaborators that the code does not
control: the transport is a field of the client, the decoder an argument of `Do`,
and every theorem about `Do` holds for all transports and all decoders.  `Do`
hands the decoder the response envelope itself, so the decoder settles what the
envelope holds afterwards.

The namespace `rfc3986` holds the path algorithms of RFC 3986 §5.2.3 and §5.2.4,
written from the text of the RFC, against which `resolvePath` is compared.
-/

set_option autoImplicit false
set_option linter.dupNamespace false
set_option linter.unusedVariables false

namespace tumblr

/-! ## Go strings -/

/-- A Go `byte`. -/
abbrev Byte := Fin 256

/-- A Go `string`: a finite sequence of bytes. -/
abbrev GoString := List Byte

/-- The byte of an ASCII character (a Go character constant such as `'/'`). -/
def ch (c : Char) : Byte := Fin.ofNat c.toNat

/-- UTF-8 encoding of one character, as Go stores string constants. -/
def utf8 (c : Char) : GoString :=
  let n := c.toNat
  if n < 0x80 then [Fin.ofNat n]
  else if n < 0x800 then [Fin.ofNat (0xC0 + n / 64), Fin.ofNat (0x80 + n % 64)]
  else if n < 0x10000 then
    [Fin.ofNat (0xE0 + n / 4096), Fin.ofNat (0x80 + n / 64 % 64), Fin.ofNat (0x80 + n % 64)]
  else
    [Fin.ofNat (0xF0 + n / 262144), Fin.ofNat (0x80 + n / 4096 % 64),
     Fin.ofNat (0x80 + n / 64 % 64), Fin.ofNat (0x80 + n % 64)]

/-- A Go string constant. -/
def str (s : String) : GoString := s.data.flatMap utf8

instance instDecidableEqExcept {ε α : Type} [DecidableEq ε] [DecidableEq α] :
    DecidableEq (Except ε α)
  | .ok a, .ok b =>
    if h : a = b then isTrue (congrArg Except.ok h) else isFalse fun h2 => h (Except.ok.inj h2)
  | .error a, .error b =>
    if h : a = b then isTrue (congrArg Except.error h)
    else isFalse fun h2 => h (Except.error.inj h2)
  | .ok _, .error _ => isFalse fun h => Except.noConfusion h
  | .error _, .ok _ => isFalse fun h => Except.noConfusion h

namespace strings

/-- Go `strings.Cut(s, sep)` for a one-byte separator: the text before the first
`sep`, the text after it, and whether `sep` was found. -/
def Cut (sep : Byte) : GoString → GoString × GoString × Bool
  | [] => ([], [], false)
  | c :: cs =>
    if c = sep then ([], cs, true)
    else
      let r := Cut sep cs
      (c :: r.1, r.2.1, r.2.2)

/-- The pieces of `s` between occurrences of `sep`: what successive calls
`piece, s, found = strings.Cut(s, sep)` yield until `found` is false. -/
def pieces (sep : Byte) : GoString → List GoString
  | [] => [[]]
  | c :: cs =>
    if c = sep then [] :: pieces sep cs
    else
      match pieces sep cs with
      | [] => [[c]]
      | p :: ps => (c :: p) :: ps

/-- Go `strings.Contains(s, string(c))`. -/
def ContainsByte (s : GoString) (c : Byte) : Bool := s.contains c

/-- Go `strings.Count(s, string(c))`. -/
def CountByte (s : GoString) (c : Byte) : Nat := s.count c

/-- Go `strings.HasPrefix`. -/
def HasPrefix (s p : GoString) : Bool := p.isPrefixOf s

/-- Go `strings.HasSuffix`. -/
def HasSuffix (s p : GoString) : Bool := p.isSuffixOf s

/-- Go `strings.IndexByte`: position of the first `c`, if any. -/
def IndexByte : GoString → Byte → Option Nat
  | [], _ => none
  | x :: xs, c => if x = c then some 0 else (IndexByte xs c).map (· + 1)

/-- Go `strings.LastIndexByte`: position of the last `c`, if any. -/
def LastIndexByte : GoString → Byte → Option Nat
  | [], _ => none
  | x :: xs, c =>
    match LastIndexByte xs c with
    | some i => some (i + 1)
    | none => if x = c then some 0 else none

/-- Go `strings.Index(s, sub)`: position of the first occurrence of `sub`. -/
def Index : GoString → GoString → Option Nat
  | [], sub => if sub = [] then some 0 else none
  | x :: xs, sub =>
    if sub.isPrefixOf (x :: xs) then some 0 else (Index xs sub).map (· + 1)

/-- Go `a < b` on strings: bytewise lexicographic order. -/
def Less : GoString → GoString → Bool
  | [], [] => false
  | [], _ :: _ => true
  | _ :: _, [] => false
  | a :: as, b :: bs => a < b || (a == b && Less as bs)

/-- Go `strings.Join(elems, sep)`. -/
def Join : List GoString → GoString → GoString
  | [], _ => []
  | p :: ps, sep => p ++ ps.flatMap fun x => sep ++ x

/-- Go `strings.ToLower` on ASCII letters (the only bytes a scheme can hold). -/
def ToLower (s : GoString) : GoString :=
  s.map fun c => if ch 'A' ≤ c ∧ c ≤ ch 'Z' then c + 32 else c

end strings

/-! ## net/url: escaping -/

namespace url

/-- Go `net/url`: the `encoding` modes of `escape` and `unescape`. -/
inductive encoding where
  | encodePath
  | encodePathSegment
  | encodeHost
  | encodeZone
  | encodeUserPassword
  | encodeQueryComponent
  | encodeFragment
  deriving DecidableEq, Repr

open encoding

/-- The errors of `net/url` and `net/http` that request construction can return. -/
inductive Error where
  | invalidControlCharacter
  | emptyURL
  | missingProtocolScheme
  | invalidURIForRequest
  | firstPathSegmentColon
  | escapeError (s : GoString)
  | invalidHost (s : GoString)
  | missingBracket
  | invalidPort (s : GoString)
  | invalidUserinfo
  | invalidSemicolon
  | invalidMethod (m : GoString)
  deriving DecidableEq, Repr

/-- Go `ishex`. -/
def ishex (c : Byte) : Bool :=
  (ch '0' ≤ c && c ≤ ch '9') || (ch 'a' ≤ c && c ≤ ch 'f') || (ch 'A' ≤ c && c ≤ ch 'F')

/-- Go `unhex`. -/
def unhex (c : Byte) : Byte :=
  if ch '0' ≤ c ∧ c ≤ ch '9' then c - ch '0'
  else if ch 'a' ≤ c ∧ c ≤ ch 'f' then c - ch 'a' + 10
  else if ch 'A' ≤ c ∧ c ≤ ch 'F' then c - ch 'A' + 10
  else 0

/-- Go `upperhex[i]` for `upperhex = "0123456789ABCDEF"`. -/
def upperhex (i : Nat) : Byte := (str "0123456789ABCDEF").getD i 0

/-- The byte `unhex(a)<<4 | unhex(b)`. -/
def hexByte (a b : Byte) : Byte := Fin.ofNat ((unhex a).val * 16 % 256 ||| (unhex b).val)

/-- Go `shouldEscape`: whether byte `c` is written as `%XX` in the given part of a
URL. -/
def shouldEscape (c : Byte) (mode : encoding) : Bool :=
  -- §2.3 Unreserved characters (alphanum)
  if (ch 'a' ≤ c ∧ c ≤ ch 'z') ∨ (ch 'A' ≤ c ∧ c ≤ ch 'Z') ∨ (ch '0' ≤ c ∧ c ≤ ch '9') then false
  else if (mode = encodeHost ∨ mode = encodeZone) ∧
      c ∈ [ch '!', ch '$', ch '&', ch '\'', ch '(', ch ')', ch '*', ch '+', ch ',', ch ';',
           ch '=', ch ':', ch '[', ch ']', ch '<', ch '>', ch '"'] then false
  -- §2.3 Unreserved characters (mark)
  else if c ∈ [ch '-', ch '_', ch '.', ch '~'] then false
  -- §2.2 Reserved characters (reserved)
  else if c ∈ [ch '$', ch '&', ch '+', ch ',', ch '/', ch ':', ch ';', ch '=', ch '?', ch '@'] then
    match mode with
    | encodePath => c = ch '?'
    | encodePathSegment => c = ch '/' ∨ c = ch ';' ∨ c = ch ',' ∨ c = ch '?'
    | encodeUserPassword => c = ch '@' ∨ c = ch '/' ∨ c = ch '?' ∨ c = ch ':'
    | encodeQueryComponent => true
    | encodeFragment => false
    -- encodeHost, encodeZone: no case of the inner switch, so "everything else"
    | _ => true
  else if mode = encodeFragment ∧ c ∈ [ch '!', ch '(', ch ')', ch '*'] then false
  -- Everything else must be escaped.
  else true

/-- Go `unescape(s, mode)`: percent-decoding, with the checks of the given mode.
Go validates the whole string in a first pass and decodes in a second one; the
result is the same as this single pass, except that of several errors Go reports
the first in the string (which error is reported plays no role below). -/
def unescape : GoString → encoding → Except Error GoString
  | [], _ => .ok []
  | c :: rest, mode =>
    if c = ch '%' then
      match rest with
      | a :: b :: rest2 =>
        if !ishex a || !ishex b then .error (.escapeError [c, a, b])
        else if mode = encodeHost ∧ (unhex a).val < 8 ∧ [c, a, b] ≠ str "%25" then
          .error (.escapeError [c, a, b])
        else if mode = encodeZone ∧ [c, a, b] ≠ str "%25" ∧ hexByte a b ≠ ch ' ' ∧
            shouldEscape (hexByte a b) encodeHost then
          .error (.escapeError [c, a, b])
        else
          match unescape rest2 mode with
          | .ok t => .ok (hexByte a b :: t)
          | .error e => .error e
      | _ => .error (.escapeError (c :: rest))
    else if c = ch '+' then
      match unescape rest mode with
      | .ok t => .ok ((if mode = encodeQueryComponent then ch ' ' else ch '+') :: t)
      | .error e => .error e
    else if (mode = encodeHost ∨ mode = encodeZone) ∧ c.val < 0x80 ∧
        shouldEscape c encodeHost then
      .error (.invalidHost [c])
    else
      match unescape rest mode with
      | .ok t => .ok (c :: t)
      | .error e => .error e

/-- Whether `unescape` accepts `s` as an encoded path. -/
def wellEscaped (s : GoString) : Bool := (unescape s encodePath).isOk

/-- The bytes `escape` writes for one byte. -/
def escapeByte (c : Byte) (mode : encoding) : GoString :=
  if c = ch ' ' ∧ mode = encodeQueryComponent then [ch '+']
  else if shouldEscape c mode then [ch '%', upperhex (c.val / 16), upperhex (c.val % 16)]
  else [c]

/-- Go `escape(s, mode)`: percent-encoding. -/
def escape (s : GoString) (mode : encoding) : GoString :=
  s.flatMap fun c => escapeByte c mode

/-- Go `url.QueryEscape`. -/
def QueryEscape (s : GoString) : GoString := escape s encodeQueryComponent

/-- Go `url.QueryUnescape`. -/
def QueryUnescape (s : GoString) : Except Error GoString := unescape s encodeQueryComponent

/-- Go `validEncoded`: whether `s` is a valid encoded path or fragment. -/
def validEncoded (s : GoString) (mode : encoding) : Bool :=
  s.all fun c =>
    if c ∈ [ch '!', ch '$', ch '&', ch '\'', ch '(', ch ')', ch '*', ch '+', ch ',', ch ';',
            ch '=', ch ':', ch '@'] then true
    else if c = ch '[' ∨ c = ch ']' then true
    else if c = ch '%' then true
    else !shouldEscape c mode

/-! ## net/url: the URL type, parsing and printing -/

/-- Go `url.Userinfo`. -/
structure Userinfo where
  username : GoString
  password : GoString
  passwordSet : Bool
  deriving DecidableEq, Repr

/-- Go `url.URL`. -/
structure URL where
  Scheme : GoString := []
  Opaque : GoString := []
  User : Option Userinfo := none
  Host : GoString := []
  Path : GoString := []
  RawPath : GoString := []
  OmitHost : Bool := false
  ForceQuery : Bool := false
  RawQuery : GoString := []
  Fragment : GoString := []
  RawFragment : GoString := []
  deriving DecidableEq, Repr

/-- Go `stringContainsCTLByte`. -/
def stringContainsCTLByte (s : GoString) : Bool :=
  s.any fun b => b < ch ' ' || b == 0x7f

/-- The loop of Go `getScheme`, at index `i` with `rest = rawURL[i:]`. -/
def getSchemeLoop (rawURL : GoString) : Nat → GoString → Except Error (GoString × GoString)
  | _, [] => .ok ([], rawURL)
  | i, c :: rest =>
    if (ch 'a' ≤ c ∧ c ≤ ch 'z') ∨ (ch 'A' ≤ c ∧ c ≤ ch 'Z') then
      getSchemeLoop rawURL (i + 1) rest
    else if (ch '0' ≤ c ∧ c ≤ ch '9') ∨ c = ch '+' ∨ c = ch '-' ∨ c = ch '.' then
      if i = 0 then .ok ([], rawURL) else getSchemeLoop rawURL (i + 1) rest
    else if c = ch ':' then
      if i = 0 then .error .missingProtocolScheme
      else .ok (rawURL.take i, rawURL.drop (i + 1))
    else
      -- an invalid character, so there is no valid scheme
      .ok ([], rawURL)

/-- Go `getScheme`: splits `scheme:rest`; the scheme is empty when there is none. -/
def getScheme (rawURL : GoString) : Except Error (GoString × GoString) :=
  getSchemeLoop rawURL 0 rawURL

/-- Go `validOptionalPort`: `port` is empty or `:` followed by digits. -/
def validOptionalPort (port : GoString) : Bool :=
  match port with
  | [] => true
  | c :: digits => c == ch ':' && digits.all fun b => ch '0' ≤ b && b ≤ ch '9'

/-- Go `validUserinfo`. -/
def validUserinfo (s : GoString) : Bool :=
  s.all fun r =>
    (ch 'A' ≤ r && r ≤ ch 'Z') || (ch 'a' ≤ r && r ≤ ch 'z') || (ch '0' ≤ r && r ≤ ch '9') ||
    [ch '-', ch '.', ch '_', ch ':', ch '~', ch '!', ch '$', ch '&', ch '\'', ch '(', ch ')',
     ch '*', ch '+', ch ',', ch ';', ch '=', ch '%', ch '@'].contains r

/-- Go `parseHost`: `host[:port]`, with an IP literal in brackets. -/
def parseHost (host : GoString) : Except Error GoString :=
  let plain : Except Error GoString := unescape host encodeHost
  if strings.HasPrefix host (str "[") then
    match strings.LastIndexByte host (ch ']') with
    | none => .error .missingBracket
    | some i =>
      let colonPort := host.drop (i + 1)
      if !validOptionalPort colonPort then .error (.invalidPort colonPort)
      else
        match strings.Index (host.take i) (str "%25") with
        | some zone =>
          match unescape (host.take zone) encodeHost with
          | .error e => .error e
          | .ok host1 =>
            match unescape ((host.take i).drop zone) encodeZone with
            | .error e => .error e
            | .ok host2 =>
              match unescape (host.drop i) encodeHost with
              | .error e => .error e
              | .ok host3 => .ok (host1 ++ host2 ++ host3)
        | none => plain
  else
    match strings.LastIndexByte host (ch ':') with
    | some i =>
      let colonPort := host.drop i
      if !validOptionalPort colonPort then .error (.invalidPort colonPort) else plain
    | none => plain

/-- Go `parseAuthority`: `[userinfo@]host`. -/
def parseAuthority (authority : GoString) : Except Error (Option Userinfo × GoString) :=
  match strings.LastIndexByte authority (ch '@') with
  | none =>
    match parseHost authority with
    | .error e => .error e
    | .ok host => .ok (none, host)
  | some i =>
    match parseHost (authority.drop (i + 1)) with
    | .error e => .error e
    | .ok host =>
      let userinfo := authority.take i
      if !validUserinfo userinfo then .error .invalidUserinfo
      else if !strings.ContainsByte userinfo (ch ':') then
        match unescape userinfo encodeUserPassword with
        | .error e => .error e
        | .ok name => .ok (some ⟨name, [], false⟩, host)
      else
        let r := strings.Cut (ch ':') userinfo
        match unescape r.1 encodeUserPassword with
        | .error e => .error e
        | .ok username =>
          match unescape r.2.1 encodeUserPassword with
          | .error e => .error e
          | .ok password => .ok (some ⟨username, password, true⟩, host)

/-- Go `(*URL).setPath`: sets `Path` and `RawPath` from an encoded path.  `RawPath`
is kept only when it differs from the default encoding of `Path`. -/
def URL.setPath (u : URL) (p : GoString) : Except Error URL :=
  match unescape p encodePath with
  | .error e => .error e
  | .ok path =>
    if p = escape path encodePath then .ok { u with Path := path, RawPath := [] }
    else .ok { u with Path := path, RawPath := p }

/-- Go `(*URL).setFragment`. -/
def URL.setFragment (u : URL) (f : GoString) : Except Error URL :=
  match unescape f encodeFragment with
  | .error e => .error e
  | .ok frag =>
    if f = escape frag encodeFragment then .ok { u with Fragment := frag, RawFragment := [] }
    else .ok { u with Fragment := frag, RawFragment := f }

/-- Go `parse(rawURL, viaRequest)`: a URL without fragment. -/
def parse (rawURL : GoString) (viaRequest : Bool) : Except Error URL :=
  if stringContainsCTLByte rawURL then .error .invalidControlCharacter
  else if rawURL = [] ∧ viaRequest then .error .emptyURL
  else if rawURL = str "*" then .ok { Path := str "*" }
  else
    -- Split off possible leading "http:", "mailto:", etc.
    match getScheme rawURL with
    | .error e => .error e
    | .ok (scheme, rest0) =>
      let url : URL := { Scheme := strings.ToLower scheme }
      let cut := strings.Cut (ch '?') rest0
      let forced : Bool :=
        strings.HasSuffix rest0 (str "?") && strings.CountByte rest0 (ch '?') == 1
      let rest : GoString := if forced then rest0.take (rest0.length - 1) else cut.1
      let url : URL :=
        if forced then { url with ForceQuery := true } else { url with RawQuery := cut.2.1 }
      if !strings.HasPrefix rest (str "/") ∧ url.Scheme ≠ [] then
        -- We consider rootless paths per RFC 3986 as opaque.
        .ok { url with Opaque := rest }
      else if !strings.HasPrefix rest (str "/") ∧ viaRequest then
        .error .invalidURIForRequest
      else if !strings.HasPrefix rest (str "/") ∧
          strings.ContainsByte (strings.Cut (ch '/') rest).1 (ch ':') then
        -- First path segment has colon. Not allowed in relative URL.
        .error .firstPathSegmentColon
      else if (url.Scheme ≠ [] ∨ (!viaRequest ∧ !strings.HasPrefix rest (str "///"))) ∧
          strings.HasPrefix rest (str "//") then
        let authority0 := rest.drop 2
        let authority :=
          match strings.IndexByte authority0 (ch '/') with
          | some i => authority0.take i
          | none => authority0
        let rest :=
          match strings.IndexByte authority0 (ch '/') with
          | some i => authority0.drop i
          | none => []
        match parseAuthority authority with
        | .error e => .error e
        | .ok (user, host) => URL.setPath { url with User := user, Host := host } rest
      else if url.Scheme ≠ [] ∧ strings.HasPrefix rest (str "/") then
        -- OmitHost is set to true when rawURL has an empty host (authority).
        URL.setPath { url with OmitHost := true } rest
      else
        URL.setPath url rest

/-- Go `url.Parse`: parses a raw URL (absolute or relative) into a `URL`. -/
def Parse (rawURL : GoString) : Except Error URL :=
  -- Cut off #frag
  let cut := strings.Cut (ch '#') rawURL
  match parse cut.1 false with
  | .error e => .error e
  | .ok url => if cut.2.1 = [] then .ok url else URL.setFragment url cut.2.1

/-- Go `(*URL).EscapedPath`. -/
def URL.EscapedPath (u : URL) : GoString :=
  if u.RawPath ≠ [] ∧ validEncoded u.RawPath encodePath ∧
      unescape u.RawPath encodePath = .ok u.Path then u.RawPath
  else if u.Path = str "*" then str "*" -- don't escape (Issue 11202)
  else escape u.Path encodePath

/-- Go `(*URL).EscapedFragment`. -/
def URL.EscapedFragment (u : URL) : GoString :=
  if u.RawFragment ≠ [] ∧ validEncoded u.RawFragment encodeFragment ∧
      unescape u.RawFragment encodeFragment = .ok u.Fragment then u.RawFragment
  else escape u.Fragment encodeFragment

/-- Go `(*Userinfo).String`. -/
def Userinfo.String (u : Userinfo) : GoString :=
  escape u.username encodeUserPassword ++
    (if u.passwordSet then ch ':' :: escape u.password encodeUserPassword else [])

/-- Whether `s` holds neither of the delimiters `?` and `#`, which end the part of
a URL before the query. -/
def noDelim (s : GoString) : Prop := ch '?' ∉ s ∧ ch '#' ∉ s

/-- Whether `s` is a scheme as `url.Parse` returns one: a lower-case letter followed
by lower-case letters, digits, `+`, `-` and `.`. -/
def lowerScheme : GoString → Bool
  | [] => false
  | c :: rest =>
    (ch 'a' ≤ c && c ≤ ch 'z') &&
      rest.all fun b =>
        (ch 'a' ≤ b && b ≤ ch 'z') || (ch '0' ≤ b && b ≤ ch '9') || b == ch '+' ||
          b == ch '-' || b == ch '.'

/-- The first part of Go `(*URL).String`: the text it writes before the query,
that is the scheme and the opaque part, or the scheme, the authority and the
path. -/
def URL.stringHead (u : URL) : GoString :=
  let buf : GoString := if u.Scheme ≠ [] then u.Scheme ++ [ch ':'] else []
  if u.Opaque ≠ [] then buf ++ u.Opaque
  else
    let buf : GoString :=
      if u.Scheme ≠ [] ∨ u.Host ≠ [] ∨ u.User ≠ none then
        if u.OmitHost ∧ u.Host = [] ∧ u.User = none then buf -- omit empty host
        else
          let buf := if u.Host ≠ [] ∨ u.Path ≠ [] ∨ u.User ≠ none then buf ++ str "//" else buf
          let buf :=
            match u.User with
            | some ui => buf ++ ui.String ++ [ch '@']
            | none => buf
          if u.Host ≠ [] then buf ++ escape u.Host encodeHost else buf
      else buf
    let path := u.EscapedPath
    let buf : GoString :=
      if path ≠ [] ∧ path.head? ≠ some (ch '/') ∧ u.Host ≠ [] then buf ++ [ch '/'] else buf
    let buf : GoString :=
      if buf.length = 0 ∧ strings.ContainsByte (strings.Cut (ch '/') path).1 (ch ':') then
        buf ++ str "./"
      else buf
    buf ++ path

/-- Go `(*URL).String`: reassembles the URL into a valid URL string,
`scheme://userinfo@host/path?query#fragment` or `scheme:opaque?query#fragment`. -/
def URL.String (u : URL) : GoString :=
  let buf : GoString := u.stringHead
  let buf : GoString :=
    if u.ForceQuery ∨ u.RawQuery ≠ [] then buf ++ [ch '?'] ++ u.RawQuery else buf
  if u.Fragment ≠ [] then buf ++ [ch '#'] ++ u.EscapedFragment else buf

/-! ## net/url: reference resolution -/

/-- The body of the loop of Go `resolvePath` for one path element: `dst` is the
text written so far, `first` the loop's flag. -/
def resolvePathStep (st : GoString × Bool) (elem : GoString) : GoString × Bool :=
  if elem = str "." then
    -- drop
    (st.1, false)
  else if elem = str ".." then
    -- Ignore the leading '/' we already wrote.
    let s := st.1.drop 1
    match strings.LastIndexByte s (ch '/') with
    | none => ([ch '/'], true)
    | some index => (ch '/' :: s.take index, st.2)
  else
    ((if !st.2 then st.1 ++ [ch '/'] else st.1) ++ elem, false)

/-- The text of `base` up to and including its last `/` (empty when it has none):
Go `base[:strings.LastIndex(base, "/")+1]`. -/
def dirOf (base : GoString) : GoString :=
  match strings.LastIndexByte base (ch '/') with
  | some i => base.take (i + 1)
  | none => []

/-- Go `resolvePath`: applies the algorithm of RFC 3986 §5.2.2–5.2.4 to the
encoded paths `base` and `ref`: merge, then remove the `.` and `..` elements. -/
def resolvePath (base ref : GoString) : GoString :=
  let full : GoString :=
    if ref = [] then base
    else if ref.head? ≠ some (ch '/') then dirOf base ++ ref
    else ref
  if full = [] then []
  else
    let elems := strings.pieces (ch '/') full
    -- We want to return a leading '/', so write it now.
    let st := elems.foldl resolvePathStep ([ch '/'], true)
    let dst : GoString :=
      if elems.getLast? = some (str ".") ∨ elems.getLast? = some (str "..") then
        st.1 ++ [ch '/']
      else st.1
    -- We wrote an initial '/', but we don't want two.
    if dst.length > 1 ∧ dst.get? 1 = some (ch '/') then dst.drop 1 else dst

/-- The relation between the state `(dst, first)` of the loop of `resolvePath` and
the output buffer `out` of the loop of RFC 3986 §5.2.4 after the same path
segments: `dst` is `out`, or `out` after one more `/`. -/
def resolveInv (st : GoString × Bool) (out : GoString) : Prop :=
  (st = (ch '/' :: out, false) ∧ (out = [] ∨ out.head? = some (ch '/'))) ∨
  (st = ([ch '/'], true) ∧ out = []) ∨
  (st = (out, false) ∧ ∃ x, out = ch '/' :: x ∧ x ≠ [] ∧ x.head? ≠ some (ch '/'))

/-- The statement `url.setPath(p)` with its error ignored, as `ResolveReference`
writes it: on error the URL is left as it was. -/
def URL.setPathIgnoringError (u : URL) (p : GoString) : URL :=
  match u.setPath p with
  | .ok u2 => u2
  | .error _ => u

/-- Go `(*URL).ResolveReference`: resolves the reference `ref` against the base
`u` per RFC 3986 §5.2. -/
def URL.ResolveReference (u ref : URL) : URL :=
  let url : URL := if ref.Scheme = [] then { ref with Scheme := u.Scheme } else ref
  if ref.Scheme ≠ [] ∨ ref.Host ≠ [] ∨ ref.User ≠ none then
    -- The "absoluteURI" or "net_path" cases.
    url.setPathIgnoringError (resolvePath ref.EscapedPath [])
  else if ref.Opaque ≠ [] then
    { url with User := none, Host := [], Path := [] }
  else
    let url : URL :=
      if ref.Path = [] ∧ ref.ForceQuery = false ∧ ref.RawQuery = [] then
        if ref.Fragment = [] then
          { url with RawQuery := u.RawQuery, Fragment := u.Fragment,
                     RawFragment := u.RawFragment }
        else { url with RawQuery := u.RawQuery }
      else url
    if ref.Path = [] ∧ u.Opaque ≠ [] then
      { url with Opaque := u.Opaque, User := none, Host := [], Path := [] }
    else
      -- The "abs_path" or "rel_path" cases.
      URL.setPathIgnoringError { url with Host := u.Host, User := u.User }
        (resolvePath u.EscapedPath ref.EscapedPath)

/-! ## net/url: query values -/

/-- Go `url.Values`, a `map[string][]string`: the entries of the map, each key
once.  (Go's iteration order is unspecified; `Encode` sorts the keys.) -/
abbrev Values := List (GoString × List GoString)

/-- The map read `v[key]`: `nil` for a key that is not in the map. -/
def Values.lookup : Values → GoString → List GoString
  | [], _ => []
  | (k, vs) :: rest, key => if k = key then vs else Values.lookup rest key

/-- The map write `v[key] = vs`. -/
def Values.assign : Values → GoString → List GoString → Values
  | [], key, vs => [(key, vs)]
  | (k, old) :: rest, key, vs =>
    if k = key then (k, vs) :: rest else (k, old) :: Values.assign rest key vs

/-- Go `Values.Get`: the first value of `key`, or `""`. -/
def Values.Get (v : Values) (key : GoString) : GoString :=
  match Values.lookup v key with
  | [] => []
  | x :: _ => x

/-- Go `Values.Set`: replaces any existing values of `key` by `value`. -/
def Values.Set (v : Values) (key value : GoString) : Values :=
  Values.assign v key [value]

/-- Go `Values.Add`: `v[key] = append(v[key], value)`. -/
def Values.Add (v : Values) (key value : GoString) : Values :=
  Values.assign v key (Values.lookup v key ++ [value])

/-- The body of the loop of Go `parseQuery` for one `&`-separated piece. -/
def parseQueryStep (st : Values × Option Error) (piece : GoString) : Values × Option Error :=
  if strings.ContainsByte piece (ch ';') then (st.1, some .invalidSemicolon)
  else if piece = [] then st
  else
    let cut := strings.Cut (ch '=') piece
    match QueryUnescape cut.1 with
    | .error e1 => (st.1, if st.2 = none then some e1 else st.2)
    | .ok key =>
      match QueryUnescape cut.2.1 with
      | .error e1 => (st.1, if st.2 = none then some e1 else st.2)
      | .ok value => (Values.Add st.1 key value, st.2)

/-- Go `url.ParseQuery`: the values of the well-formed `key=value` pieces of
`query`, and the first error met.  A malformed piece is skipped. -/
def ParseQuery (query : GoString) : Values × Option Error :=
  (strings.pieces (ch '&') query).foldl parseQueryStep ([], none)

/-- Go `(*URL).Query`: parses `RawQuery`, silently discarding malformed pieces. -/
def URL.Query (u : URL) : Values := (ParseQuery u.RawQuery).1

/-- The `(key, value)` pairs of `v` in the order in which `Encode` writes them:
keys in sorted order, the values of a key in their order. -/
def Values.pairs (v : Values) : List (GoString × GoString) :=
  ((v.map Prod.fst).insertionSort fun a b => strings.Less b a = false).flatMap fun k =>
    (Values.lookup v k).map fun val => (k, val)

/-- Go `Values.Encode`: `key=value` pairs joined by `&`, sorted by key, keys and
values query-escaped. -/
def Values.Encode (v : Values) : GoString :=
  let keys := (v.map Prod.fst).insertionSort fun a b => strings.Less b a = false
  keys.foldl
    (fun buf k =>
      (Values.lookup v k).foldl
        (fun buf val =>
          (if buf.length > 0 then buf ++ [ch '&'] else buf) ++
            QueryEscape k ++ [ch '='] ++ QueryEscape val)
        buf)
    []

end url

/-! ## RFC 3986: merging paths and removing dot segments

The two path algorithms of reference resolution, as RFC 3986 words them. -/

namespace rfc3986

/-- RFC 3986 §5.2.3, "Merge Paths": if the base URI has a defined authority
component and an empty path, then a string consisting of `/` concatenated with the
reference's path; otherwise the reference's path appended to all but the last
segment of the base URI's path (that is, excluding any characters after the
right-most `/` in the base URI path, or excluding the entire base URI path if it
does not contain any `/` characters). -/
def merge (baseHasAuthority : Bool) (basePath refPath : GoString) : GoString :=
  if baseHasAuthority ∧ basePath = [] then ch '/' :: refPath
  else (basePath.reverse.dropWhile fun c => c ≠ ch '/').reverse ++ refPath

/-- Step 2C of §5.2.4 on the output buffer: removing the last segment and its
preceding `/` (if any). -/
def removeLastSegment (output : GoString) : GoString :=
  ((output.reverse.dropWhile fun c => c ≠ ch '/').drop 1).reverse

/-- Step 2E of §5.2.4: the first path segment in the input buffer, including the
initial `/` character (if any) and any subsequent characters up to, but not
including, the next `/` character or the end of the input buffer. -/
def firstSegment : GoString → GoString
  | [] => []
  | c :: rest => c :: rest.takeWhile fun x => x ≠ ch '/'

/-- Step 2 of §5.2.4: the loop over the input buffer, with the steps A to E tried
in this order.  Every step shortens the input buffer, so `fuel` above its length
lets the loop run to its end. -/
def removeDotSegmentsLoop : Nat → GoString → GoString → GoString
  | 0, _, output => output
  | fuel + 1, input, output =>
    if input = [] then output
    -- A. the input buffer begins with a prefix of "../" or "./": remove that prefix
    else if strings.HasPrefix input (str "../") then
      removeDotSegmentsLoop fuel (input.drop 3) output
    else if strings.HasPrefix input (str "./") then
      removeDotSegmentsLoop fuel (input.drop 2) output
    -- B. it begins with a prefix of "/./" or "/.", where "." is a complete path
    -- segment: replace that prefix with "/"
    else if strings.HasPrefix input (str "/./") then
      removeDotSegmentsLoop fuel (input.drop 2) output
    else if input = str "/." then removeDotSegmentsLoop fuel (str "/") output
    -- C. it begins with a prefix of "/../" or "/..", where ".." is a complete path
    -- segment: replace that prefix with "/" and remove the last segment and its
    -- preceding "/" (if any) from the output buffer
    else if strings.HasPrefix input (str "/../") then
      removeDotSegmentsLoop fuel (input.drop 3) (removeLastSegment output)
    else if input = str "/.." then removeDotSegmentsLoop fuel (str "/") (removeLastSegment output)
    -- D. it consists only of "." or "..": remove that
    else if input = str "." ∨ input = str ".." then removeDotSegmentsLoop fuel [] output
    -- E. move the first path segment to the end of the output buffer
    else
      removeDotSegmentsLoop fuel (input.drop (firstSegment input).length)
        (output ++ firstSegment input)

/-- RFC 3986 §5.2.4, "Remove Dot Segments": the input buffer starts as the path,
the output buffer as the empty string, and the output buffer is returned when the
input buffer is empty. -/
def removeDotSegments (path : GoString) : GoString :=
  removeDotSegmentsLoop (path.length + 1) path []

end rfc3986

/-- Go's `error` values met here: the errors of `net/url` and `net/http`. -/
abbrev Error := url.Error

/-! ## net/http: requests, responses, headers -/

namespace http

/-- Go `http.Header`, a `map[string][]string`. -/
abbrev Header := List (GoString × List GoString)

/-- Go `httpguts.IsTokenRune` on a byte: the `token` characters of RFC 7230. -/
def isToken (c : Byte) : Bool :=
  (ch 'a' ≤ c && c ≤ ch 'z') || (ch 'A' ≤ c && c ≤ ch 'Z') || (ch '0' ≤ c && c ≤ ch '9') ||
  [ch '!', ch '#', ch '$', ch '%', ch '&', ch '\'', ch '*', ch '+', ch '-', ch '.', ch '^',
   ch '_', 0x60, ch '|', ch '~'].contains c

/-- Go `validMethod`: a non-empty token. -/
def validMethod (method : GoString) : Bool :=
  method.length > 0 && method.all isToken

/-- The second loop of Go `canonicalMIMEHeaderKey`: upper case for the first letter
and after each dash, lower case elsewhere. -/
def canonicalLoop : Bool → GoString → GoString
  | _, [] => []
  | upper, c :: rest =>
    let c2 : Byte :=
      if upper ∧ ch 'a' ≤ c ∧ c ≤ ch 'z' then c - 32
      else if !upper ∧ ch 'A' ≤ c ∧ c ≤ ch 'Z' then c + 32
      else c
    c2 :: canonicalLoop (c2 == ch '-') rest

/-- Go `textproto.CanonicalMIMEHeaderKey`: a key with a byte that is not a token
byte is returned unchanged. -/
def CanonicalMIMEHeaderKey (s : GoString) : GoString :=
  if s.all isToken then canonicalLoop true s else s

/-- Go `Header.Add`: appends `value` to the values of the canonical form of `key`. -/
def Header.Add (h : Header) (key value : GoString) : Header :=
  url.Values.Add h (CanonicalMIMEHeaderKey key) value

/-- Go `Header.Values`: the values of the canonical form of `key`. -/
def Header.Values (h : Header) (key : GoString) : List GoString :=
  url.Values.lookup h (CanonicalMIMEHeaderKey key)

/-- Go `http.Request`, the fields that `http.NewRequest` fills. -/
structure Request where
  Method : GoString
  URL : url.URL
  Header : Header
  Body : GoString
  ContentLength : Nat
  Host : GoString
  deriving DecidableEq, Repr

/-- Go `http.Response`, the fields read here.  `Body` is the content of the body
stream. -/
structure Response where
  StatusCode : Int
  Header : Header
  Body : GoString
  deriving DecidableEq, Repr

/-- Go `removeEmptyPort`: strips the empty port in `:port`. -/
def removeEmptyPort (host : GoString) : GoString :=
  let hasPort : Bool :=
    match strings.LastIndexByte host (ch ':'), strings.LastIndexByte host (ch ']') with
    | some i, some j => i > j
    | some _, none => true
    | none, _ => false
  if hasPort ∧ strings.HasSuffix host (str ":") then host.take (host.length - 1) else host

/-- Go `http.NewRequest(method, url, body)` for a `*bytes.Buffer` body. -/
def NewRequest (method urlStr body : GoString) : Except Error Request :=
  let method := if method = [] then str "GET" else method
  if !validMethod method then .error (.invalidMethod method)
  else
    match url.Parse urlStr with
    | .error e => .error e
    | .ok u =>
      -- The host's colon:port should be normalized.
      let u := { u with Host := removeEmptyPort u.Host }
      .ok { Method := method, URL := u, Header := [], Body := body,
            ContentLength := body.length, Host := u.Host }

end http

/-! ## tumblr.go -/

/-- Version is the current version of this lib. -/
def Version : GoString := str "0.0.1"

/-- BaseURL is the shared path to the tumblr api. -/
def BaseURL : GoString := str "http://api.tumblr.com/v2/"

/-- UserAgent is the user agent when making requests. -/
def UserAgent : GoString := str "github.com/lestopher/tumblr v" ++ Version

/-- The HTTP transport of a client, Go `(*http.Client).Do`: a round trip gives a
response or an error. -/
abbrev Transport (Err : Type) := http.Request → Except Err http.Response

/-- ResponseMeta the meta response for requests. -/
structure ResponseMeta where
  Status : Int
  Msg : GoString
  deriving DecidableEq, Repr

/-- Response the main response from tumblr api.  `HTTPResponse` and `Meta` are
pointers, `Response` is an `interface{}`; each is `nil` (`none`) or holds a value.
A pointer to the response of a round trip is given by that response as the
transport delivered it; the value that `Do` puts into `Response` is its target. -/
structure Response (Ptr : Type) where
  HTTPResponse : Option http.Response
  Meta : Option ResponseMeta
  Response : Option Ptr
  deriving DecidableEq

/-- Client manages communication with Tumblr.  The service handles `Blog`, `Users`
and `Tagged` hold only a pointer back to the client and are left out. -/
structure Client (Err Ptr : Type) where
  /-- HTTP client to communicate with api. -/
  client : Transport Err
  /-- URL used to communicate with api. -/
  BaseURL : url.URL
  /-- Agent used with the api. -/
  UserAgent : GoString
  /-- The id of your oauth application. -/
  ClientID : GoString
  /-- The secret of your oauth application. -/
  ClientSecret : GoString
  /-- Token used when user is authenticated through oauth. -/
  AccessToken : GoString
  /-- The envelope of the last decoded response (`nil` at first). -/
  Response : Option (Response Ptr)

/-- NewClient returns an initialized client.  `DefaultClient` is Go's
`http.DefaultClient`, used when `httpClient` is `nil`. -/
def NewClient {Err Ptr : Type} (DefaultClient : Transport Err)
    (httpClient : Option (Transport Err)) : Client Err Ptr :=
  let httpClient := match httpClient with
    | none => DefaultClient
    | some t => t
  -- baseURL, _ := url.Parse(BaseURL)
  let baseURL : url.URL := match url.Parse BaseURL with
    | .ok u => u
    | .error _ => {}
  { client := httpClient, BaseURL := baseURL, UserAgent := UserAgent,
    ClientID := [], ClientSecret := [], AccessToken := [], Response := none }

/-- Lines 115–126 of `NewRequest`: the URL that `NewRequest` builds from the
parsed relative reference `rel`.  It is resolved against `BaseURL`, and each
credential of the client that is non-empty is set in the query when `Get` of its
key is empty. -/
def Client.requestURL {Err Ptr : Type} (c : Client Err Ptr) (rel : url.URL) : url.URL :=
  let u := c.BaseURL.ResolveReference rel
  let q := u.Query
  let q := if c.AccessToken ≠ [] ∧ url.Values.Get q (str "access_token") = [] then
      url.Values.Set q (str "access_token") c.AccessToken else q
  let q := if c.ClientID ≠ [] ∧ url.Values.Get q (str "client_id") = [] then
      url.Values.Set q (str "client_id") c.ClientID else q
  let q := if c.ClientSecret ≠ [] ∧ url.Values.Get q (str "client_secret") = [] then
      url.Values.Set q (str "client_secret") c.ClientSecret else q
  { u with RawQuery := url.Values.Encode q }

/-- NewRequest creates an API request. A relative URL can be provided in urlStr,
in which case it is resolved relative to the BaseURL of the Client. -/
def Client.NewRequest {Err Ptr : Type} (c : Client Err Ptr) (method urlStr body : GoString) :
    Except Error http.Request :=
  match url.Parse urlStr with
  | .error err => .error err
  | .ok rel =>
    let u := c.requestURL rel
    match http.NewRequest method u.String body with
    | .error err => .error err
    | .ok req =>
      let req : http.Request :=
        if method = str "POST" then
          { req with Header :=
              (http.Header.Add req.Header (str "Content-Type")
                (str "application/x-www-form-urlencoded")) }
        else req
      .ok { req with Header := (http.Header.Add req.Header (str "User-Agent") c.UserAgent) }

/-- What `json.NewDecoder(body).Decode(r)` does when `Do` calls it.  `Do` hands it
the envelope `r` itself, with `r.HTTPResponse` pointing to the response of the
round trip, `r.Meta` `nil` and `r.Response` holding the target, so the decoder
settles what each member of `r` holds afterwards, and it writes to what the
members point to.  All of this it does from the bytes of the body and the value
behind the target pointer. -/
structure Decoded (Err Ptr Value : Type) where
  /-- The member `r.HTTPResponse` afterwards, from the response it pointed to: that
  response again unless the body has a member `HTTPResponse`, `nil` when that is
  `null`. -/
  HTTPResponse : http.Response → Option http.Response
  /-- The member `r.Meta` afterwards. -/
  Meta : Option ResponseMeta
  /-- The member `r.Response` afterwards, from the target it held: that target
  again unless the body has `null` for `response`, and then `nil`. -/
  Response : Ptr → Option Ptr
  /-- The value behind the target pointer afterwards. -/
  value : Value
  /-- The response of the round trip afterwards: the decoder writes into it, through
  `r.HTTPResponse`, when the body has an object for `HTTPResponse`. -/
  written : http.Response → http.Response
  /-- The error that `Decode` returns (`none` for `nil`). -/
  err : Option Err

/-- The JSON decoder, `json.Decoder.Decode` on an envelope. -/
abbrev Decoder (Err Ptr Value : Type) := GoString → Value → Decoded Err Ptr Value

/-- The results and effects of one call of `Do`: the two return values (`resp` is
`nil` or the pointer to the response of the round trip, given as the transport
delivered it), that response as it is after the call, the client after the call,
the memory behind the target pointers after the call, and whether the deferred
`resp.Body.Close()` ran. -/
structure DoResult (Err Ptr Value : Type) where
  resp : Option http.Response
  err : Option Err
  written : Option http.Response
  client : Client Err Ptr
  heap : Ptr → Value
  bodyClosed : Bool

/-- Do sends an API request and returns the API response. The API response is
decoded and stored in the value pointed to by v.  `heap` is the memory behind the
target pointers before the call, `v = none` is a `nil` target. -/
def Client.Do {Err Ptr Value : Type} [DecidableEq Ptr] (decode : Decoder Err Ptr Value)
    (c : Client Err Ptr) (heap : Ptr → Value) (req : http.Request) (v : Option Ptr) :
    DoResult Err Ptr Value :=
  match c.client req with
  | .error err =>
    { resp := none, err := some err, written := none, client := c, heap := heap,
      bodyClosed := false }
  | .ok resp =>
    -- defer resp.Body.Close()
    -- r := &Response{HTTPResponse: resp}
    match v with
    | some p =>
      -- r.Response = v
      -- err = json.NewDecoder(resp.Body).Decode(r): the decoder works on `r` itself,
      -- whose members hold `resp`, `nil` and `v` when it starts
      let d := decode resp.Body (heap p)
      let r : tumblr.Response Ptr :=
        { HTTPResponse := d.HTTPResponse resp, Meta := d.Meta, Response := d.Response p }
      -- c.Response = r
      { resp := some resp, err := d.err, written := some (d.written resp),
        client := { c with Response := some r },
        heap := Function.update heap p d.value, bodyClosed := true }
    | none =>
      { resp := some resp, err := none, written := some resp, client := c, heap := heap,
        bodyClosed := true }

/-! ## Example collaborators

A transport and a decoder on which the theorems below are instantiated. -/

/-- A well-formed envelope, as the API sends it. -/
def exampleBody : GoString :=
  str "\x7b\"meta\":\x7b\"status\":200,\"msg\":\"OK\"\x7d,\"response\":7\x7d"

/-- An envelope whose payload is `null`. -/
def nullPayloadBody : GoString :=
  str "\x7b\"meta\":\x7b\"status\":200,\"msg\":\"OK\"\x7d,\"response\":null\x7d"

/-- A body with `null` for the member `HTTPResponse` of the envelope. -/
def nullHTTPResponseBody : GoString :=
  str "\x7b\"HTTPResponse\":null,\"response\":7\x7d"

/-- A body with an object for the member `HTTPResponse` of the envelope. -/
def statusBody : GoString :=
  str "\x7b\"HTTPResponse\":\x7b\"StatusCode\":500\x7d,\"response\":7\x7d"

/-- A transport that answers `GET` with status 200, `POST` with status 404 (both
with the body `exampleBody`), `PUT` with status 200 and a body that is not JSON,
`PATCH`, `OPTIONS` and `TRACE` with status 200 and the bodies `nullPayloadBody`,
`nullHTTPResponseBody` and `statusBody`, and fails on every other method with
error `503`. -/
def exampleTransport : Transport Nat := fun req =>
  if req.Method = str "GET" then .ok { StatusCode := 200, Header := [], Body := exampleBody }
  else if req.Method = str "POST" then
    .ok { StatusCode := 404, Header := [], Body := exampleBody }
  else if req.Method = str "PUT" then
    .ok { StatusCode := 200, Header := [], Body := str "<html>" }
  else if req.Method = str "PATCH" then
    .ok { StatusCode := 200, Header := [], Body := nullPayloadBody }
  else if req.Method = str "OPTIONS" then
    .ok { StatusCode := 200, Header := [], Body := nullHTTPResponseBody }
  else if req.Method = str "TRACE" then
    .ok { StatusCode := 200, Header := [], Body := statusBody }
  else .error 503

/-- A decoder for targets that hold a number, which does on the four JSON bodies
above what `encoding/json` does on them with a target of type `*int`.
On `exampleBody` it stores `meta` in the envelope and `response` behind the
target.  On `nullPayloadBody` it stores `meta` and, `response` being `null`, sets
the member `Response` of the envelope to `nil` and leaves the target alone (a
`null` is never decoded through an interface that holds a pointer to a
non-pointer).  On `nullHTTPResponseBody` it sets the member `HTTPResponse` to
`nil`, on `statusBody` it writes the status code 500 into the response that this
member points to, and on both it stores `response` behind the target.  Any other
body it rejects with error `1`, as `encoding/json` rejects a body that does not
start a JSON value, and changes nothing. -/
def exampleDecoder : Decoder Nat Nat Nat := fun body old =>
  if body = exampleBody then
    { HTTPResponse := some, Meta := some ⟨200, str "OK"⟩, Response := some, value := 7,
      written := id, err := none }
  else if body = nullPayloadBody then
    { HTTPResponse := some, Meta := some ⟨200, str "OK"⟩, Response := fun _ => none,
      value := old, written := id, err := none }
  else if body = nullHTTPResponseBody then
    { HTTPResponse := fun _ => none, Meta := none, Response := some, value := 7,
      written := id, err := none }
  else if body = statusBody then
    { HTTPResponse := some, Meta := none, Response := some, value := 7,
      written := fun r => { r with StatusCode := 500 }, err := none }
  else
    { HTTPResponse := some, Meta := none, Response := some, value := old, written := id,
      err := some 1 }

/-- A client as `NewClient` returns it, over `exampleTransport`. -/
def exampleClient : Client Nat Nat := NewClient exampleTransport (some exampleTransport)

/-- The example client with an access token configured. -/
def tokenClient : Client Nat Nat := { exampleClient with AccessToken := str "tok" }

/-- The example client with an application id configured. -/
def idClient : Client Nat Nat := { exampleClient with ClientID := str "abc" }

/-- The example client with all three credentials configured. -/
def fullClient : Client Nat Nat :=
  { exampleClient with AccessToken := str "tok", ClientID := str "abc",
                       ClientSecret := str "s3cret" }

/-- A client with an access token whose `BaseURL` field was set to
`http://api.tumblr.com/v2/?access_token=base`, a base URL with a query. -/
def queryBaseClient : Client Nat Nat :=
  { tokenClient with
    BaseURL := { Scheme := str "http", Host := str "api.tumblr.com", Path := str "/v2/",
                 RawQuery := str "access_token=base" } }

/-- The example client with the base URL that `url.Parse` returns for
`http://api.tumblr.com:/v2/`, whose host has an empty port. -/
def emptyPortClient : Client Nat Nat :=
  { exampleClient with
    BaseURL := { Scheme := str "http", Host := str "api.tumblr.com:", Path := str "/v2/" } }

/-- A request of the given method for the blog info resource. -/
def exampleRequest (method : GoString) : http.Request :=
  { Method := method, URL := {}, Header := [], Body := [], ContentLength := 0, Host := [] }

/-! ## Query values: parsing what `Encode` wrote -/

namespace strings

theorem Cut_append_sep (sep : Byte) (a b : GoString) (h : sep ∉ a) :
    Cut sep (a ++ sep :: b) = (a, b, true) := by
  induction a with
  | nil => simp [Cut]
  | cons x xs ih =>
    have hx : x ≠ sep := fun e => h (by simp [e])
    have hxs : sep ∉ xs := fun m => h (by simp [m])
    simp [Cut, hx, ih hxs]

theorem pieces_ne_nil (sep : Byte) (s : GoString) : pieces sep s ≠ [] := by
  induction s with
  | nil => simp [pieces]
  | cons x xs ih =>
    unfold pieces
    split_ifs
    · simp
    · split <;> simp

theorem pieces_of_not_mem (sep : Byte) (a : GoString) (h : sep ∉ a) : pieces sep a = [a] := by
  induction a with
  | nil => simp [pieces]
  | cons x xs ih =>
    have hx : x ≠ sep := fun e => h (by simp [e])
    have hxs : sep ∉ xs := fun m => h (by simp [m])
    simp [pieces, hx, ih hxs]

theorem pieces_append_sep (sep : Byte) (a b : GoString) (h : sep ∉ a) :
    pieces sep (a ++ sep :: b) = a :: pieces sep b := by
  induction a with
  | nil => simp [pieces]
  | cons x xs ih =>
    have hx : x ≠ sep := fun e => h (by simp [e])
    have hxs : sep ∉ xs := fun m => h (by simp [m])
    simp [pieces, hx, ih hxs]

/-- The pieces of `p₀ & p₁ & … & pₙ` are `p₀, …, pₙ` when no `pᵢ` holds the
separator. -/
theorem pieces_joined (sep : Byte) (p : GoString) (ps : List GoString)
    (hp : sep ∉ p) (hps : ∀ x ∈ ps, sep ∉ x) :
    pieces sep (p ++ ps.flatMap (fun x => sep :: x)) = p :: ps := by
  induction ps generalizing p with
  | nil => simpa using pieces_of_not_mem sep p hp
  | cons x xs ih =>
    simp only [List.flatMap_cons, List.cons_append]
    rw [pieces_append_sep sep p _ hp, ih x (hps x (by simp)) (fun y hy => hps y (by simp [hy]))]

end strings

namespace url

open encoding

/-! ### Escaping a query component, and reading it back -/

theorem escapeByte_query_cases (c : Byte) :
    (c = ch ' ' ∧ escapeByte c encodeQueryComponent = [ch '+']) ∨
    (c ≠ ch '%' ∧ c ≠ ch '+' ∧ escapeByte c encodeQueryComponent = [c]) ∨
    (escapeByte c encodeQueryComponent = [ch '%', upperhex (c.val / 16), upperhex (c.val % 16)] ∧
      ishex (upperhex (c.val / 16)) = true ∧ ishex (upperhex (c.val % 16)) = true ∧
      hexByte (upperhex (c.val / 16)) (upperhex (c.val % 16)) = c) := by
  revert c
  decide!

theorem unescape_escapeByte_query (c : Byte) (t r : GoString)
    (h : unescape t encodeQueryComponent = .ok r) :
    unescape (escapeByte c encodeQueryComponent ++ t) encodeQueryComponent = .ok (c :: r) := by
  have hpp : ch '+' ≠ ch '%' := by decide!
  rcases escapeByte_query_cases c with ⟨hc, he⟩ | ⟨h1, h2, he⟩ | ⟨he, ha, hb, hab⟩
  · rw [he]
    simp only [List.singleton_append]
    unfold unescape
    simp [hpp, h, hc]
  · rw [he]
    simp only [List.singleton_append]
    unfold unescape
    simp [h1, h2, h]
  · rw [he]
    simp only [List.cons_append, List.nil_append]
    unfold unescape
    simp [ha, hb, h, hab]

/-- `QueryUnescape` inverts `QueryEscape`. -/
theorem QueryUnescape_QueryEscape (s : GoString) : QueryUnescape (QueryEscape s) = .ok s := by
  induction s with
  | nil => rfl
  | cons c s ih =>
    have := unescape_escapeByte_query c (escape s encodeQueryComponent) s ih
    simpa [QueryUnescape, QueryEscape, escape] using this

theorem escapeByte_query_clean :
    ∀ c : Byte, (escapeByte c encodeQueryComponent).all
      (fun x => x != ch '&' && x != ch '=' && x != ch ';' && x != ch '?' && x != ch '#') = true := by
  decide!

/-- The output of `QueryEscape` holds none of the separators `&`, `=`, `;`, `?`, `#`. -/
theorem QueryEscape_clean (s : GoString) (x : Byte) (hx : x ∈ QueryEscape s) :
    x ≠ ch '&' ∧ x ≠ ch '=' ∧ x ≠ ch ';' ∧ x ≠ ch '?' ∧ x ≠ ch '#' := by
  simp only [QueryEscape, escape, List.mem_flatMap] at hx
  obtain ⟨c, _, hc⟩ := hx
  have := List.all_eq_true.mp (escapeByte_query_clean c) x hc
  simp only [Bool.and_eq_true, bne_iff_ne, ne_eq] at this
  obtain ⟨⟨⟨⟨h1, h2⟩, h3⟩, h4⟩, h5⟩ := this
  exact ⟨h1, h2, h3, h4, h5⟩

/-! ### The map operations -/

theorem Values.lookup_assign (v : Values) (key : GoString) (vs : List GoString) (k : GoString) :
    Values.lookup (Values.assign v key vs) k = if k = key then vs else Values.lookup v k := by
  induction v with
  | nil =>
    by_cases h : key = k
    · simp [Values.assign, Values.lookup, h]
    · have h2 : ¬ k = key := fun e => h e.symm
      simp [Values.assign, Values.lookup, h, h2]
  | cons e rest ih =>
    obtain ⟨k0, old⟩ := e
    by_cases h0 : k0 = key
    · subst h0
      by_cases h : k0 = k
      · simp [Values.assign, Values.lookup, h]
      · have h2 : ¬ k = k0 := fun e => h e.symm
        simp [Values.assign, Values.lookup, h, h2]
    · by_cases h : k0 = k
      · subst h
        simp [Values.assign, Values.lookup, h0]
      · simp [Values.assign, Values.lookup, h0, h, ih]

theorem Values.lookup_Set (v : Values) (key value k : GoString) :
    Values.lookup (Values.Set v key value) k = if k = key then [value] else Values.lookup v k :=
  Values.lookup_assign v key [value] k

theorem Values.lookup_Add (v : Values) (key value k : GoString) :
    Values.lookup (Values.Add v key value) k =
      if k = key then Values.lookup v key ++ [value] else Values.lookup v k :=
  Values.lookup_assign v key _ k

theorem Values.lookup_of_not_mem (v : Values) (k : GoString) (h : k ∉ v.map Prod.fst) :
    Values.lookup v k = [] := by
  induction v with
  | nil => rfl
  | cons e rest ih =>
    obtain ⟨k0, old⟩ := e
    simp only [List.map_cons, List.mem_cons, not_or] at h
    have h0 : ¬ k0 = k := fun e => h.1 e.symm
    simp [Values.lookup, h0, ih h.2]

theorem Values.keys_assign (v : Values) (key : GoString) (vs : List GoString) :
    (Values.assign v key vs).map Prod.fst =
      if key ∈ v.map Prod.fst then v.map Prod.fst else v.map Prod.fst ++ [key] := by
  induction v with
  | nil => simp [Values.assign]
  | cons e rest ih =>
    obtain ⟨k0, old⟩ := e
    by_cases h0 : k0 = key
    · simp [Values.assign, h0]
    · have h1 : ¬ key = k0 := fun e => h0 e.symm
      simp only [Values.assign, h0, if_false, List.map_cons, ih, List.mem_cons, h1, false_or]
      split_ifs <;> simp

theorem Values.nodup_assign (v : Values) (key : GoString) (vs : List GoString)
    (h : (v.map Prod.fst).Nodup) : ((Values.assign v key vs).map Prod.fst).Nodup := by
  rw [Values.keys_assign]
  split_ifs with hk
  · exact h
  · exact List.Nodup.append h (List.nodup_singleton key) (by simpa using hk)

/-- A run of `Add`s from the map `m`: under key `k` it leaves the values `m` had,
followed by the added values of key `k`, in the order of the run. -/
theorem Values.lookup_foldl_Add (kvs : List (GoString × GoString)) (m : Values) (k : GoString) :
    Values.lookup (kvs.foldl (fun m kv => Values.Add m kv.1 kv.2) m) k =
      Values.lookup m k ++ (kvs.filter fun kv => kv.1 = k).map Prod.snd := by
  induction kvs generalizing m with
  | nil => simp
  | cons kv rest ih =>
    simp only [List.foldl_cons, ih, Values.lookup_Add]
    by_cases h : kv.1 = k
    · simp [h, List.filter_cons]
    · have h2 : ¬ k = kv.1 := fun e => h e.symm
      simp [h, h2, List.filter_cons]

theorem Values.nodup_foldl_Add (kvs : List (GoString × GoString)) (m : Values)
    (h : (m.map Prod.fst).Nodup) :
    ((kvs.foldl (fun m kv => Values.Add m kv.1 kv.2) m).map Prod.fst).Nodup := by
  induction kvs generalizing m with
  | nil => simpa using h
  | cons kv rest ih => exact ih _ (Values.nodup_assign m _ _ h)

/-! ### `Encode`, and `ParseQuery` of its output -/

theorem foldl_join_of_ne_nil (ps : List GoString) (buf : GoString) (hbuf : buf ≠ []) :
    ps.foldl (fun buf p => (if buf.length > 0 then buf ++ [ch '&'] else buf) ++ p) buf =
      buf ++ ps.flatMap fun x => [ch '&'] ++ x := by
  induction ps generalizing buf with
  | nil => simp
  | cons p ps ih =>
    have hlen : buf.length > 0 := List.length_pos.mpr hbuf
    simp only [List.foldl_cons, hlen, if_true, List.flatMap_cons]
    rw [ih _ (by simp [hbuf])]
    simp

theorem foldl_join (ps : List GoString) (hne : ∀ p ∈ ps, p ≠ []) :
    ps.foldl (fun buf p => (if buf.length > 0 then buf ++ [ch '&'] else buf) ++ p) [] =
      strings.Join ps [ch '&'] := by
  cases ps with
  | nil => rfl
  | cons p ps =>
    simp only [List.foldl_cons, List.length_nil, gt_iff_lt, lt_self_iff_false, if_false,
      List.nil_append]
    rw [foldl_join_of_ne_nil ps p (hne p (by simp))]
    rfl

theorem Values.Encode_foldl (v : Values) (keys : List GoString) (buf : GoString) :
    keys.foldl
        (fun buf k =>
          (Values.lookup v k).foldl
            (fun buf val =>
              (if buf.length > 0 then buf ++ [ch '&'] else buf) ++
                QueryEscape k ++ [ch '='] ++ QueryEscape val)
            buf)
        buf =
      ((keys.flatMap fun k => (Values.lookup v k).map fun val => (k, val)).map fun kv =>
          QueryEscape kv.1 ++ ch '=' :: QueryEscape kv.2).foldl
        (fun buf p => (if buf.length > 0 then buf ++ [ch '&'] else buf) ++ p) buf := by
  induction keys generalizing buf with
  | nil => simp
  | cons k ks ih =>
    simp only [List.foldl_cons, List.flatMap_cons, List.map_append, List.foldl_append,
      List.map_map, List.foldl_map]
    rw [ih]
    simp [List.foldl_map, Function.comp, List.append_assoc]

/-- `Encode` writes its pairs as `key=value`, joined by `&`. -/
theorem Values.Encode_eq_Join (v : Values) :
    Values.Encode v =
      strings.Join (v.pairs.map fun kv => QueryEscape kv.1 ++ ch '=' :: QueryEscape kv.2)
        [ch '&'] := by
  rw [← foldl_join _ (by
    intro p hp
    simp only [List.mem_map] at hp
    obtain ⟨kv, _, rfl⟩ := hp
    simp)]
  exact Values.Encode_foldl v _ []

theorem parseQueryStep_pair (st : Values × Option Error) (k val : GoString) :
    parseQueryStep st (QueryEscape k ++ ch '=' :: QueryEscape val) =
      (Values.Add st.1 k val, st.2) := by
  have hsemi : strings.ContainsByte (QueryEscape k ++ ch '=' :: QueryEscape val) (ch ';')
      = false := by
    have he : ch '=' ≠ ch ';' := by decide!
    simp only [strings.ContainsByte, List.contains_eq_any_beq, List.any_eq_false, beq_iff_eq,
      List.mem_append, List.mem_cons]
    rintro x (hx | rfl | hx)
    · exact fun e => (QueryEscape_clean k x hx).2.2.1 e.symm
    · exact fun e => he e.symm
    · exact fun e => (QueryEscape_clean val x hx).2.2.1 e.symm
  have hcut : strings.Cut (ch '=') (QueryEscape k ++ ch '=' :: QueryEscape val) =
      (QueryEscape k, QueryEscape val, true) :=
    strings.Cut_append_sep _ _ _ (fun hm => (QueryEscape_clean k _ hm).2.1 rfl)
  unfold parseQueryStep
  simp [hsemi, hcut, QueryUnescape_QueryEscape]

theorem foldl_parseQueryStep_pairs (kvs : List (GoString × GoString))
    (st : Values × Option Error) :
    (kvs.map fun kv => QueryEscape kv.1 ++ ch '=' :: QueryEscape kv.2).foldl parseQueryStep st =
      (kvs.foldl (fun m kv => Values.Add m kv.1 kv.2) st.1, st.2) := by
  induction kvs generalizing st with
  | nil => simp
  | cons kv rest ih =>
    simp only [List.map_cons, List.foldl_cons, parseQueryStep_pair, ih]

/-- `ParseQuery` of the text that `Encode` writes for the pairs `kvs` adds these
pairs one by one, without error. -/
theorem ParseQuery_Join (kvs : List (GoString × GoString)) :
    ParseQuery (strings.Join (kvs.map fun kv => QueryEscape kv.1 ++ ch '=' :: QueryEscape kv.2)
        [ch '&']) =
      (kvs.foldl (fun m kv => Values.Add m kv.1 kv.2) [], none) := by
  cases kvs with
  | nil => rfl
  | cons kv rest =>
    have hclean : ∀ kv : GoString × GoString,
        ch '&' ∉ QueryEscape kv.1 ++ ch '=' :: QueryEscape kv.2 := by
      intro kv hm
      have he : ch '&' ≠ ch '=' := by decide!
      simp only [List.mem_append, List.mem_cons] at hm
      rcases hm with hx | hx | hx
      · exact (QueryEscape_clean _ _ hx).1 rfl
      · exact he hx
      · exact (QueryEscape_clean _ _ hx).1 rfl
    unfold ParseQuery
    simp only [List.map_cons, strings.Join, List.singleton_append]
    rw [strings.pieces_joined _ _ _ (hclean kv) (by
      intro x hx
      simp only [List.mem_map] at hx
      obtain ⟨kv2, _, rfl⟩ := hx
      exact hclean kv2)]
    have := foldl_parseQueryStep_pairs (kv :: rest) ([], none)
    simpa using this

theorem filter_pairs_of_nodup (f : GoString → List GoString) (ks : List GoString)
    (hks : ks.Nodup) (k : GoString) :
    ((ks.flatMap fun k2 => (f k2).map fun val => (k2, val)).filter fun kv => kv.1 = k).map
        Prod.snd =
      if k ∈ ks then f k else [] := by
  induction ks with
  | nil => simp
  | cons k0 rest ih =>
    have hn := List.nodup_cons.mp hks
    simp only [List.flatMap_cons, List.filter_append, List.map_append, ih hn.2]
    by_cases h : k0 = k
    · subst h
      have : ((f k0).map fun val => (k0, val)).filter (fun kv => kv.1 = k0) =
          (f k0).map fun val => (k0, val) := by
        apply List.filter_eq_self.mpr
        intro a ha
        simp only [List.mem_map] at ha
        obtain ⟨_, _, rfl⟩ := ha
        simp
      simp [this, hn.1, Function.comp]
    · have : ((f k0).map fun val => (k0, val)).filter (fun kv => kv.1 = k) = [] := by
        apply List.filter_eq_nil_iff.mpr
        intro a ha
        simp only [List.mem_map] at ha
        obtain ⟨_, _, rfl⟩ := ha
        simpa using h
      have h2 : ¬ k = k0 := fun e => h e.symm
      simp [this, h2]

/-- Parsing what `Encode` wrote gives back, under every key, the values the map
had under that key. -/
theorem Values.lookup_ParseQuery_Encode (v : Values) (hv : (v.map Prod.fst).Nodup)
    (k : GoString) :
    Values.lookup (ParseQuery (Values.Encode v)).1 k = Values.lookup v k := by
  rw [Values.Encode_eq_Join, ParseQuery_Join, Values.lookup_foldl_Add]
  have hperm := List.perm_insertionSort (fun a b => strings.Less b a = false) (v.map Prod.fst)
  unfold Values.pairs
  rw [filter_pairs_of_nodup _ _ (hperm.nodup_iff.mpr hv)]
  by_cases hk : k ∈ v.map Prod.fst
  · simp [Values.lookup, hperm.mem_iff.mpr hk]
  · have : k ∉ (v.map Prod.fst).insertionSort fun a b => strings.Less b a = false :=
      fun hm => hk (hperm.mem_iff.mp hm)
    simp [Values.lookup, this, Values.lookup_of_not_mem v k hk]

theorem nodup_parseQueryStep (st : Values × Option Error) (piece : GoString)
    (h : (st.1.map Prod.fst).Nodup) : ((parseQueryStep st piece).1.map Prod.fst).Nodup := by
  unfold parseQueryStep
  by_cases h1 : strings.ContainsByte piece (ch ';') = true
  · simpa [h1] using h
  by_cases h2 : piece = []
  · simpa [h1, h2] using h
  simp only [h1, h2, if_false]
  cases hk : QueryUnescape (strings.Cut (ch '=') piece).1 with
  | error e => simpa using h
  | ok key =>
    cases hv : QueryUnescape (strings.Cut (ch '=') piece).2.1 with
    | error e => simpa using h
    | ok value => simpa [Values.Add] using Values.nodup_assign _ _ _ h

/-- The map that `ParseQuery` returns holds each key once. -/
theorem nodup_ParseQuery (query : GoString) : ((ParseQuery query).1.map Prod.fst).Nodup := by
  unfold ParseQuery
  generalize strings.pieces (ch '&') query = ps
  have : ∀ st : Values × Option Error, (st.1.map Prod.fst).Nodup →
      ((ps.foldl parseQueryStep st).1.map Prod.fst).Nodup := by
    induction ps with
    | nil => intro st h; simpa using h
    | cons p rest ih => intro st h; exact ih _ (nodup_parseQueryStep st p h)
  exact this _ (by simp)

end url

/-! ## Reference resolution -/

namespace strings

theorem Join_pieces (sep : Byte) (s : GoString) : Join (pieces sep s) [sep] = s := by
  induction s with
  | nil => rfl
  | cons c cs ih =>
    unfold pieces
    by_cases h : c = sep
    · simp only [h, if_true]
      have hne := pieces_ne_nil sep cs
      cases hp : pieces sep cs with
      | nil => exact absurd hp hne
      | cons p ps =>
        rw [hp] at ih
        simp only [Join, List.nil_append, List.flatMap_cons, List.singleton_append] at ih ⊢
        rw [List.cons_append, ih]
    · simp only [h, if_false]
      cases hp : pieces sep cs with
      | nil => exact absurd hp (pieces_ne_nil sep cs)
      | cons p ps =>
        rw [hp] at ih
        simp only [Join, List.cons_append] at ih ⊢
        rw [ih]

end strings

namespace url

open encoding

/-- Without `.` and `..` elements the loop of `resolvePath` writes the elements
one after the other, separated by `/`. -/
theorem foldl_resolvePathStep_plain (elems : List GoString)
    (hplain : ∀ e ∈ elems, e ≠ str "." ∧ e ≠ str "..") (e0 : GoString)
    (h0 : e0 ≠ str "." ∧ e0 ≠ str "..") (dst : GoString) (first : Bool) :
    (e0 :: elems).foldl resolvePathStep (dst, first) =
      ((if first then dst else dst ++ [ch '/']) ++ strings.Join (e0 :: elems) [ch '/'],
        false) := by
  induction elems generalizing e0 dst first with
  | nil =>
    cases first <;> simp [resolvePathStep, h0.1, h0.2, strings.Join]
  | cons e es ih =>
    have he := hplain e (by simp)
    have hes : ∀ x ∈ es, x ≠ str "." ∧ x ≠ str ".." := fun x hx => hplain x (by simp [hx])
    rw [List.foldl_cons, ih hes e he]
    cases first <;> simp [resolvePathStep, h0.1, h0.2, strings.Join]

/-- `resolvePath` without `.` and `..` elements: the merged path itself, with a
leading `/` added when it has none. -/
theorem resolvePath_plain (base ref : GoString) (href : ref ≠ [])
    (hslash : ref.head? ≠ some (ch '/'))
    (hplain : ∀ e ∈ strings.pieces (ch '/') (dirOf base ++ ref), e ≠ str "." ∧ e ≠ str "..") :
    resolvePath base ref =
      if (dirOf base ++ ref).head? = some (ch '/') then dirOf base ++ ref
      else ch '/' :: (dirOf base ++ ref) := by
  have hfull : dirOf base ++ ref ≠ [] := by simp [href]
  unfold resolvePath
  simp only [href, hslash, if_false, if_true, hfull, not_false_eq_true, ne_eq]
  cases hp : strings.pieces (ch '/') (dirOf base ++ ref) with
  | nil => exact absurd hp (strings.pieces_ne_nil _ _)
  | cons e0 es =>
    rw [hp] at hplain
    have hj : strings.Join (e0 :: es) [ch '/'] = dirOf base ++ ref := by
      rw [← hp]; exact strings.Join_pieces _ _
    have hl : (e0 :: es).getLast? ≠ some (str ".") ∧ (e0 :: es).getLast? ≠ some (str "..") := by
      constructor <;> intro h <;>
        have hm := List.mem_of_getLast?_eq_some h
      · exact (hplain _ hm).1 rfl
      · exact (hplain _ hm).2 rfl
    rw [foldl_resolvePathStep_plain es (fun x hx => hplain x (by simp [hx])) e0
      (hplain e0 (by simp))]
    simp only [if_true, hj, hl.1, hl.2, or_self, if_false]
    cases hf : dirOf base ++ ref with
    | nil => exact absurd hf hfull
    | cons x xs =>
      by_cases hx : x = ch '/'
      · simp [hx]
      · simp [hx]


/-! ### Well-formed encoded paths -/

theorem wellEscaped_nil : wellEscaped [] = true := rfl

theorem wellEscaped_cons_of_ne (c : Byte) (rest : GoString) (hc : c ≠ ch '%') :
    wellEscaped (c :: rest) = wellEscaped rest := by
  unfold wellEscaped
  conv => lhs; unfold unescape
  by_cases hp : c = ch '+'
  · simp only [hc, hp, if_false, if_true]
    cases unescape rest encodePath <;> rfl
  · have hm : ¬ ((encodePath = encodeHost ∨ encodePath = encodeZone) ∧ c.val < 0x80 ∧
        shouldEscape c encodeHost = true) := by
      rintro ⟨h | h, _⟩ <;> cases h
    simp only [hc, hp, if_false, hm]
    cases unescape rest encodePath <;> rfl

theorem wellEscaped_percent (a b : Byte) (rest : GoString) :
    wellEscaped (ch '%' :: a :: b :: rest) = (ishex a && ishex b && wellEscaped rest) := by
  unfold wellEscaped
  conv => lhs; unfold unescape
  have h1 : ¬ (encodePath = encodeHost ∧ (unhex a).val < 8 ∧ [ch '%', a, b] ≠ str "%25") := by
    rintro ⟨h, _⟩; cases h
  have h2 : ¬ (encodePath = encodeZone ∧ [ch '%', a, b] ≠ str "%25" ∧ hexByte a b ≠ ch ' ' ∧
      shouldEscape (hexByte a b) encodeHost = true) := by
    rintro ⟨h, _⟩; cases h
  simp only [if_true, h1, h2, if_false]
  cases ha : ishex a <;> cases hb : ishex b <;> simp [Except.isOk, Except.toBool]
  cases unescape rest encodePath <;> rfl

theorem wellEscaped_percent_short (rest : GoString) (h : rest.length < 2) :
    wellEscaped (ch '%' :: rest) = false := by
  unfold wellEscaped
  conv => lhs; unfold unescape
  match rest, h with
  | [], _ => rfl
  | [_], _ => rfl

theorem ishex_slash : ishex (ch '/') = false := by decide!

theorem slash_ne_percent : ch '/' ≠ ch '%' := by decide!

theorem wellEscaped_append_slash_aux (b : GoString) :
    ∀ (n : Nat) (a : GoString), a.length ≤ n →
      wellEscaped (a ++ ch '/' :: b) = (wellEscaped a && wellEscaped b) := by
  intro n
  induction n with
  | zero =>
    intro a ha
    have : a = [] := List.length_eq_zero.mp (Nat.le_zero.mp ha)
    subst this
    simp [wellEscaped_cons_of_ne _ _ slash_ne_percent, wellEscaped_nil]
  | succ n ih =>
    intro a ha
    match a, ha with
    | [], _ => simp [wellEscaped_cons_of_ne _ _ slash_ne_percent, wellEscaped_nil]
    | c :: rest, h =>
      by_cases hc : c = ch '%'
      · subst hc
        match rest, h with
        | [], _ =>
          rw [wellEscaped_percent_short [] (by simp)]
          match b with
          | [] => simp [wellEscaped_percent_short [ch '/'] (by simp)]
          | x :: b2 => simp [wellEscaped_percent, ishex_slash]
        | [a1], _ =>
          rw [wellEscaped_percent_short [a1] (by simp)]
          simp [wellEscaped_percent, ishex_slash]
        | a1 :: b1 :: rest2, h =>
          simp only [List.cons_append, wellEscaped_percent]
          rw [ih rest2 (by simp at h; omega)]
          simp [Bool.and_assoc]
      · simp only [List.cons_append, wellEscaped_cons_of_ne _ _ hc]
        exact ih rest (by simp at h; omega)

/-- An encoded path `a/b` is well formed exactly when `a` and `b` are: a `/` never
stands inside an escape. -/
theorem wellEscaped_append_slash (a b : GoString) :
    wellEscaped (a ++ ch '/' :: b) = (wellEscaped a && wellEscaped b) :=
  wellEscaped_append_slash_aux b a.length a (Nat.le_refl _)

theorem wellEscaped_append_aux (b : GoString) :
    ∀ (n : Nat) (a : GoString), a.length ≤ n → wellEscaped a = true →
      wellEscaped (a ++ b) = wellEscaped b := by
  intro n
  induction n with
  | zero =>
    intro a ha _
    have : a = [] := List.length_eq_zero.mp (Nat.le_zero.mp ha)
    subst this
    rfl
  | succ n ih =>
    intro a ha hw
    match a, ha, hw with
    | [], _, _ => rfl
    | c :: rest, h, hw =>
      by_cases hc : c = ch '%'
      · subst hc
        match rest, h, hw with
        | [], _, hw => rw [wellEscaped_percent_short [] (by simp)] at hw; cases hw
        | [a1], _, hw => rw [wellEscaped_percent_short [a1] (by simp)] at hw; cases hw
        | a1 :: b1 :: rest2, h, hw =>
          simp only [wellEscaped_percent, Bool.and_eq_true] at hw
          simp only [List.cons_append, wellEscaped_percent, hw.1.1, hw.1.2, Bool.true_and]
          exact ih rest2 (by simp at h; omega) hw.2
      · rw [wellEscaped_cons_of_ne _ _ hc] at hw
        simp only [List.cons_append, wellEscaped_cons_of_ne _ _ hc]
        exact ih rest (by simp at h; omega) hw

/-- Well-formed encoded paths can be concatenated. -/
theorem wellEscaped_append (a b : GoString) (ha : wellEscaped a = true) :
    wellEscaped (a ++ b) = wellEscaped b :=
  wellEscaped_append_aux b a.length a (Nat.le_refl _) ha

theorem wellEscaped_Join (ps : List GoString) :
    wellEscaped (strings.Join ps [ch '/']) = ps.all wellEscaped := by
  match ps with
  | [] => rfl
  | [p] => simp [strings.Join]
  | p :: q :: qs =>
    have ih := wellEscaped_Join (q :: qs)
    have : strings.Join (p :: q :: qs) [ch '/'] = p ++ ch '/' :: strings.Join (q :: qs) [ch '/'] := by
      simp [strings.Join]
    rw [this, wellEscaped_append_slash, ih]
    simp

/-- Each element of a well-formed encoded path is well formed. -/
theorem wellEscaped_pieces (s : GoString) (h : wellEscaped s = true) :
    ∀ e ∈ strings.pieces (ch '/') s, wellEscaped e = true := by
  have := wellEscaped_Join (strings.pieces (ch '/') s)
  rw [strings.Join_pieces, h] at this
  exact List.all_eq_true.mp this.symm

end url

namespace strings

theorem LastIndexByte_split (s : GoString) (c : Byte) (i : Nat)
    (h : LastIndexByte s c = some i) : s = s.take i ++ c :: s.drop (i + 1) := by
  induction s generalizing i with
  | nil => simp [LastIndexByte] at h
  | cons x xs ih =>
    unfold LastIndexByte at h
    cases hl : LastIndexByte xs c with
    | some j =>
      rw [hl] at h
      simp only [Option.some.injEq] at h
      subst h
      simp only [List.take_succ_cons, List.drop_succ_cons, List.cons_append]
      rw [← ih j hl]
    | none =>
      rw [hl] at h
      simp only at h
      split_ifs at h with hx
      simp only [Option.some.injEq] at h
      subst h
      simp [hx]

end strings

namespace url

open encoding

theorem wellEscaped_take_LastIndexByte (s : GoString) (i : Nat)
    (h : strings.LastIndexByte s (ch '/') = some i) (hs : wellEscaped s = true) :
    wellEscaped (s.take i) = true := by
  have hsplit := strings.LastIndexByte_split s (ch '/') i h
  rw [hsplit, wellEscaped_append_slash] at hs
  exact (Bool.and_eq_true _ _ ▸ hs).1

theorem wellEscaped_append_slash_ref (a ref : GoString) (ha : wellEscaped a = true)
    (hr : wellEscaped ref = true) : wellEscaped (a ++ ch '/' :: ref) = true := by
  rw [wellEscaped_append_slash, ha, hr]; rfl

theorem dirOf_append_wellEscaped (base ref : GoString) (hb : wellEscaped base = true)
    (hr : wellEscaped ref = true) : wellEscaped (dirOf base ++ ref) = true := by
  unfold dirOf
  cases h : strings.LastIndexByte base (ch '/') with
  | none => simpa using hr
  | some i =>
    have hsplit := strings.LastIndexByte_split base (ch '/') i h
    have htake : base.take (i + 1) = base.take i ++ [ch '/'] := by
      conv => lhs; rw [hsplit]
      have hlen : (base.take i).length = i := by
        rw [List.length_take]
        have : i < base.length := by
          have := congrArg List.length hsplit
          simp at this
          omega
        omega
      rw [List.take_append_eq_append_take, hlen]
      simp [List.take_of_length_le, hlen]
    simp only [htake, List.append_assoc, List.singleton_append]
    exact wellEscaped_append_slash_ref _ _ (wellEscaped_take_LastIndexByte base i h hb) hr

/-- The loop of `resolvePath` keeps the text written so far a well-formed encoded
path with a leading `/`. -/
theorem resolvePathStep_inv (st : GoString × Bool) (elem : GoString)
    (hhead : st.1.head? = some (ch '/')) (hst : wellEscaped st.1 = true)
    (he : wellEscaped elem = true) :
    (resolvePathStep st elem).1.head? = some (ch '/') ∧
      wellEscaped (resolvePathStep st elem).1 = true := by
  obtain ⟨dst, first⟩ := st
  cases dst with
  | nil => simp at hhead
  | cons x t =>
    simp only [List.head?_cons, Option.some.injEq] at hhead
    subst hhead
    have ht : wellEscaped t = true := by
      have := wellEscaped_append_slash [] t
      simp only [List.nil_append] at this
      rw [this] at hst
      simpa [wellEscaped_nil] using hst
    have hdd : str ".." ≠ str "." := by decide!
    unfold resolvePathStep
    by_cases h1 : elem = str "."
    · simp [h1, hst]
    · by_cases h2 : elem = str ".."
      · subst h2
        simp only [hdd, if_false, if_true, List.drop_succ_cons, List.drop_zero]
        cases hl : strings.LastIndexByte t (ch '/') with
        | none =>
          refine ⟨rfl, ?_⟩
          show wellEscaped [ch '/'] = true
          decide!
        | some index =>
          refine ⟨rfl, ?_⟩
          have := wellEscaped_append_slash [] (t.take index)
          simp only [List.nil_append] at this
          simp only [this, wellEscaped_nil, Bool.true_and]
          exact wellEscaped_take_LastIndexByte t index hl ht
      · simp only [h1, h2, if_false]
        cases first
        · refine ⟨by simp, ?_⟩
          simp only [Bool.not_false, if_true, List.append_assoc, List.singleton_append]
          exact wellEscaped_append_slash_ref _ _ hst he
        · refine ⟨by simp, ?_⟩
          simp only [Bool.not_true, Bool.false_eq_true, if_false]
          rw [wellEscaped_append _ _ hst]
          exact he

/-- `resolvePath` of well-formed encoded paths is a well-formed encoded path. -/
theorem resolvePath_wellEscaped (base ref : GoString) (hb : wellEscaped base = true)
    (hr : wellEscaped ref = true) : wellEscaped (resolvePath base ref) = true := by
  unfold resolvePath
  have hfull : wellEscaped (if ref = [] then base
      else if ref.head? ≠ some (ch '/') then dirOf base ++ ref else ref) = true := by
    split_ifs
    · exact hb
    · exact dirOf_append_wellEscaped base ref hb hr
    · exact hr
  generalize (if ref = [] then base
      else if ref.head? ≠ some (ch '/') then dirOf base ++ ref else ref) = full at hfull
  simp only
  split_ifs with h0 hl hd hd
  · rfl
  all_goals
    have hinv : ∀ (elems : List GoString) (st : GoString × Bool),
        (∀ e ∈ elems, wellEscaped e = true) → st.1.head? = some (ch '/') →
        wellEscaped st.1 = true →
        (elems.foldl resolvePathStep st).1.head? = some (ch '/') ∧
          wellEscaped (elems.foldl resolvePathStep st).1 = true := by
      intro elems
      induction elems with
      | nil => intro st _ h1 h2; exact ⟨h1, h2⟩
      | cons e es ih =>
        intro st hes h1 h2
        have := resolvePathStep_inv st e h1 h2 (hes e (by simp))
        exact ih _ (fun x hx => hes x (by simp [hx])) this.1 this.2
    have hres := hinv (strings.pieces (ch '/') full) ([ch '/'], true)
      (wellEscaped_pieces full hfull) rfl (by decide!)
    generalize (strings.pieces (ch '/') full).foldl resolvePathStep ([ch '/'], true) = st
      at hres hd ⊢
    obtain ⟨hh, hw⟩ := hres
  · -- dot at the end, double slash at the start
    have h2 : wellEscaped (st.1 ++ [ch '/']) = true := wellEscaped_append_slash_ref _ _ hw rfl
    cases hst : st.1 with
    | nil => rw [hst] at hh; simp at hh
    | cons x t =>
      rw [hst] at hh h2
      simp only [List.head?_cons, Option.some.injEq] at hh
      subst hh
      have := wellEscaped_append_slash [] (t ++ [ch '/'])
      simp only [List.nil_append, wellEscaped_nil, Bool.true_and] at this
      simpa [this] using h2
  · exact wellEscaped_append_slash_ref _ _ hw rfl
  · cases hst : st.1 with
    | nil => rw [hst] at hh; simp at hh
    | cons x t =>
      rw [hst] at hh hw
      simp only [List.head?_cons, Option.some.injEq] at hh
      subst hh
      have := wellEscaped_append_slash [] t
      simp only [List.nil_append, wellEscaped_nil, Bool.true_and] at this
      simpa [this] using hw
  · exact hw

end url

/-! ## Reference resolution and RFC 3986

Go's `resolvePath` against the algorithms of RFC 3986 §5.2.3 and §5.2.4. -/

namespace rfc3986

theorem loop_nil (fuel : Nat) (out : GoString) : removeDotSegmentsLoop fuel [] out = out := by
  cases fuel <;> simp [removeDotSegmentsLoop]

theorem str_dot_dot_slash : str "../" = [ch '.', ch '.', ch '/'] := by decide!
theorem str_dot_slash : str "./" = [ch '.', ch '/'] := by decide!
theorem str_slash_dot_slash : str "/./" = [ch '/', ch '.', ch '/'] := by decide!
theorem str_slash_dot : str "/." = [ch '/', ch '.'] := by decide!
theorem str_slash_dot_dot_slash : str "/../" = [ch '/', ch '.', ch '.', ch '/'] := by decide!
theorem str_slash_dot_dot : str "/.." = [ch '/', ch '.', ch '.'] := by decide!
theorem str_dot : str "." = [ch '.'] := by decide!
theorem str_dot_dot : str ".." = [ch '.', ch '.'] := by decide!
theorem str_slash : str "/" = [ch '/'] := by decide!
theorem dot_ne_slash : ch '.' ≠ ch '/' := by decide!

theorem firstSegment_length_pos (input : GoString) (h : input ≠ []) :
    0 < (firstSegment input).length := by
  cases input with
  | nil => exact absurd rfl h
  | cons c rest => simp [firstSegment]

/-- The loop of §5.2.4 runs to its end on every fuel above the length of the input
buffer: more fuel does not change what it returns. -/
theorem removeDotSegmentsLoop_fuel :
    ∀ (n : Nat) (input output : GoString) (f1 f2 : Nat), input.length ≤ n →
      input.length < f1 → input.length < f2 →
      removeDotSegmentsLoop f1 input output = removeDotSegmentsLoop f2 input output := by
  intro n
  induction n with
  | zero =>
    intro input output f1 f2 hn _ _
    have : input = [] := List.length_eq_zero.mp (Nat.le_zero.mp hn)
    subst this
    rw [loop_nil, loop_nil]
  | succ n ih =>
    intro input output f1 f2 hn h1 h2
    obtain ⟨a, rfl⟩ : ∃ a, f1 = a + 1 := ⟨f1 - 1, by omega⟩
    obtain ⟨b, rfl⟩ : ∃ b, f2 = b + 1 := ⟨f2 - 1, by omega⟩
    have hpre : ∀ p : GoString, strings.HasPrefix input p = true → p.length ≤ input.length := by
      intro p hp
      unfold strings.HasPrefix at hp
      rw [List.isPrefixOf_iff_prefix] at hp
      exact hp.length_le
    have l1 : (str "../").length = 3 := by decide!
    have l2 : (str "./").length = 2 := by decide!
    have l3 : (str "/./").length = 3 := by decide!
    have l4 : (str "/.").length = 2 := by decide!
    have l5 : (str "/../").length = 4 := by decide!
    have l6 : (str "/..").length = 3 := by decide!
    have l7 : (str "/").length = 1 := by decide!
    rw [removeDotSegmentsLoop, removeDotSegmentsLoop]
    by_cases h0 : input = []
    · simp [h0]
    have hpos : 0 < input.length := List.length_pos.mpr h0
    simp only [h0, if_false]
    split_ifs with c1 c2 c3 c4 c5 c6 c7
    · have := hpre _ c1
      exact ih _ _ _ _ (by simp; omega) (by simp; omega) (by simp; omega)
    · have := hpre _ c2
      exact ih _ _ _ _ (by simp; omega) (by simp; omega) (by simp; omega)
    · have := hpre _ c3
      exact ih _ _ _ _ (by simp; omega) (by simp; omega) (by simp; omega)
    · have hl : input.length = 2 := by rw [c4, l4]
      exact ih _ _ _ _ (by rw [l7]; omega) (by rw [l7]; omega) (by rw [l7]; omega)
    · have := hpre _ c5
      exact ih _ _ _ _ (by simp; omega) (by simp; omega) (by simp; omega)
    · have hl : input.length = 3 := by rw [c6, l6]
      exact ih _ _ _ _ (by rw [l7]; omega) (by rw [l7]; omega) (by rw [l7]; omega)
    · rw [loop_nil, loop_nil]
    · have := firstSegment_length_pos input h0
      exact ih _ _ _ _ (by simp; omega) (by simp; omega) (by simp; omega)

theorem loop_dot_mid (fuel : Nat) (r out : GoString) :
    removeDotSegmentsLoop (fuel + 1) (ch '/' :: ch '.' :: ch '/' :: r) out =
      removeDotSegmentsLoop fuel (ch '/' :: r) out := by
  have h := dot_ne_slash
  rw [removeDotSegmentsLoop]
  simp only [strings.HasPrefix, str_dot_dot_slash, str_dot_slash, str_slash_dot_slash,
    str_slash_dot, str_slash_dot_dot_slash, str_slash_dot_dot, str_dot, str_dot_dot, str_slash]
  simp [List.isPrefixOf, h, h.symm]

theorem loop_dot_last (fuel : Nat) (out : GoString) :
    removeDotSegmentsLoop (fuel + 2) [ch '/', ch '.'] out = out ++ [ch '/'] := by
  have h := dot_ne_slash
  rw [removeDotSegmentsLoop]
  simp only [strings.HasPrefix, str_dot_dot_slash, str_dot_slash, str_slash_dot_slash,
    str_slash_dot, str_slash_dot_dot_slash, str_slash_dot_dot, str_dot, str_dot_dot, str_slash]
  simp [List.isPrefixOf, h, h.symm]
  rw [removeDotSegmentsLoop]
  simp [strings.HasPrefix, str_dot_dot_slash, str_dot_slash, str_slash_dot_slash, str_slash_dot,
    str_slash_dot_dot_slash, str_slash_dot_dot, str_dot, str_dot_dot, str_slash, List.isPrefixOf,
    h, h.symm,
    firstSegment, loop_nil]

theorem loop_dotdot_mid (fuel : Nat) (r out : GoString) :
    removeDotSegmentsLoop (fuel + 1) (ch '/' :: ch '.' :: ch '.' :: ch '/' :: r) out =
      removeDotSegmentsLoop fuel (ch '/' :: r) (removeLastSegment out) := by
  have h := dot_ne_slash
  rw [removeDotSegmentsLoop]
  simp only [strings.HasPrefix, str_dot_dot_slash, str_dot_slash, str_slash_dot_slash,
    str_slash_dot, str_slash_dot_dot_slash, str_slash_dot_dot, str_dot, str_dot_dot, str_slash]
  simp [List.isPrefixOf, h, h.symm]

theorem loop_dotdot_last (fuel : Nat) (out : GoString) :
    removeDotSegmentsLoop (fuel + 2) [ch '/', ch '.', ch '.'] out =
      removeLastSegment out ++ [ch '/'] := by
  have h := dot_ne_slash
  rw [removeDotSegmentsLoop]
  simp only [strings.HasPrefix, str_dot_dot_slash, str_dot_slash, str_slash_dot_slash,
    str_slash_dot, str_slash_dot_dot_slash, str_slash_dot_dot, str_dot, str_dot_dot, str_slash]
  simp [List.isPrefixOf, h, h.symm]
  rw [removeDotSegmentsLoop]
  simp [strings.HasPrefix, str_dot_dot_slash, str_dot_slash, str_slash_dot_slash, str_slash_dot,
    str_slash_dot_dot_slash, str_slash_dot_dot, str_dot, str_dot_dot, str_slash, List.isPrefixOf,
    h, h.symm,
    firstSegment, loop_nil]

end rfc3986

namespace rfc3986

theorem takeWhile_seg (e r : GoString) (he : ch '/' ∉ e)
    (hr : r = [] ∨ r.head? = some (ch '/')) :
    (e ++ r).takeWhile (fun x => x ≠ ch '/') = e := by
  induction e with
  | nil =>
    rcases hr with rfl | hr
    · simp
    · cases r with
      | nil => simp
      | cons y ys =>
        simp only [List.head?_cons, Option.some.injEq] at hr
        simp [hr]
  | cons x xs ih =>
    have hx : x ≠ ch '/' := fun e => he (by simp [e])
    have hxs : ch '/' ∉ xs := fun m => he (by simp [m])
    have := ih hxs
    simp only [List.cons_append, List.takeWhile_cons, hx, ne_eq, not_false_eq_true,
      decide_True, if_true, this]

theorem loop_seg (fuel : Nat) (e r out : GoString) (he : ch '/' ∉ e)
    (h1 : e ≠ [ch '.']) (h2 : e ≠ [ch '.', ch '.'])
    (hr : r = [] ∨ r.head? = some (ch '/')) :
    removeDotSegmentsLoop (fuel + 1) (ch '/' :: (e ++ r)) out =
      removeDotSegmentsLoop fuel r (out ++ ch '/' :: e) := by
  have h := dot_ne_slash
  have hseg : firstSegment (ch '/' :: (e ++ r)) = ch '/' :: e := by
    simp only [firstSegment, takeWhile_seg e r he hr]
  have hdrop : (ch '/' :: (e ++ r)).drop (ch '/' :: e).length = r := by simp
  rw [removeDotSegmentsLoop]
  simp only [strings.HasPrefix, str_dot_dot_slash, str_dot_slash, str_slash_dot_slash,
    str_slash_dot, str_slash_dot_dot_slash, str_slash_dot_dot, str_dot, str_dot_dot, str_slash,
    hseg, hdrop]
  have c1 : ([ch '.', ch '.', ch '/'].isPrefixOf (ch '/' :: (e ++ r))) = false := by
    simp [List.isPrefixOf, h]
  have c2 : ([ch '.', ch '/'].isPrefixOf (ch '/' :: (e ++ r))) = false := by
    simp [List.isPrefixOf, h]
  have c3 : ([ch '/', ch '.', ch '/'].isPrefixOf (ch '/' :: (e ++ r))) = false := by
    rcases e with _ | ⟨x, _ | ⟨y, e⟩⟩
    · rcases hr with rfl | hr
      · simp [List.isPrefixOf]
      · cases r with
        | nil => simp [List.isPrefixOf]
        | cons z zs =>
          simp only [List.head?_cons, Option.some.injEq] at hr
          subst hr
          simp [List.isPrefixOf, h]
    · have hx : x ≠ ch '.' := fun e => h1 (by rw [e])
      simp [List.isPrefixOf, hx, Ne.symm hx]
    · have hy : y ≠ ch '/' := fun e => he (by simp [e])
      simp [List.isPrefixOf, hy, Ne.symm hy]
  have c4 : ch '/' :: (e ++ r) ≠ [ch '/', ch '.'] := by
    intro hc
    simp only [List.cons.injEq, true_and] at hc
    rcases e with _ | ⟨x, e⟩
    · rcases hr with rfl | hr
      · simp at hc
      · simp only [List.nil_append] at hc
        rw [hc] at hr
        simp only [List.head?_cons, Option.some.injEq] at hr
        exact h hr
    · simp only [List.cons_append, List.cons.injEq, List.append_eq_nil] at hc
      exact h1 (by rw [hc.1, hc.2.1])
  have c5 : ([ch '/', ch '.', ch '.', ch '/'].isPrefixOf (ch '/' :: (e ++ r))) = false := by
    rcases e with _ | ⟨x, _ | ⟨y, _ | ⟨z, e⟩⟩⟩
    · rcases hr with rfl | hr
      · simp [List.isPrefixOf]
      · cases r with
        | nil => simp [List.isPrefixOf]
        | cons z zs =>
          simp only [List.head?_cons, Option.some.injEq] at hr
          subst hr
          simp [List.isPrefixOf, h]
    · rcases hr with rfl | hr
      · simp [List.isPrefixOf]
      · cases r with
        | nil => simp [List.isPrefixOf]
        | cons z zs =>
          simp only [List.head?_cons, Option.some.injEq] at hr
          subst hr
          simp [List.isPrefixOf, h, Ne.symm h]
    · by_cases hx : x = ch '.'
      · by_cases hy : y = ch '.'
        · exact absurd (by rw [hx, hy]) h2
        · simp [List.isPrefixOf, hy, Ne.symm hy]
      · simp [List.isPrefixOf, hx, Ne.symm hx]
    · have hz : z ≠ ch '/' := fun e => he (by simp [e])
      simp [List.isPrefixOf, hz, Ne.symm hz]
  have c6 : ch '/' :: (e ++ r) ≠ [ch '/', ch '.', ch '.'] := by
    intro hc
    simp only [List.cons.injEq, true_and] at hc
    rcases e with _ | ⟨x, _ | ⟨y, e⟩⟩
    · rcases hr with rfl | hr
      · simp at hc
      · simp only [List.nil_append] at hc
        rw [hc] at hr
        simp only [List.head?_cons, Option.some.injEq] at hr
        exact h hr
    · rcases hr with rfl | hr
      · simp at hc
      · simp only [List.cons_append, List.nil_append, List.cons.injEq] at hc
        rw [hc.2] at hr
        simp only [List.head?_cons, Option.some.injEq] at hr
        exact h hr
    · simp only [List.cons_append, List.cons.injEq, List.append_eq_nil] at hc
      exact h2 (by rw [hc.1, hc.2.1, hc.2.2.1])
  have c7 : ch '/' :: (e ++ r) ≠ [ch '.'] := by simp [Ne.symm h]
  have c8 : ch '/' :: (e ++ r) ≠ [ch '.', ch '.'] := by simp [Ne.symm h]
  simp only [c1, c2, c3, c4, c5, c6, c7, c8, or_self, if_false, Bool.false_eq_true]
  simp

end rfc3986

namespace strings

theorem LastIndexByte_eq_none (s : GoString) (c : Byte) (h : LastIndexByte s c = none) :
    c ∉ s := by
  induction s with
  | nil => simp
  | cons x xs ih =>
    unfold LastIndexByte at h
    cases hl : LastIndexByte xs c with
    | some j => rw [hl] at h; cases h
    | none =>
      rw [hl] at h
      simp only at h
      split_ifs at h with hx
      simp only [List.mem_cons, not_or]
      exact ⟨fun e => hx e.symm, ih hl⟩

theorem LastIndexByte_drop_not_mem (s : GoString) (c : Byte) (i : Nat)
    (h : LastIndexByte s c = some i) : c ∉ s.drop (i + 1) := by
  induction s generalizing i with
  | nil => simp
  | cons x xs ih =>
    unfold LastIndexByte at h
    cases hl : LastIndexByte xs c with
    | some j =>
      rw [hl] at h
      simp only [Option.some.injEq] at h
      subst h
      simpa using ih j hl
    | none =>
      rw [hl] at h
      simp only at h
      split_ifs at h with hx
      simp only [Option.some.injEq] at h
      subst h
      simpa using LastIndexByte_eq_none xs c hl

theorem LastIndexByte_lt (s : GoString) (c : Byte) (i : Nat)
    (h : LastIndexByte s c = some i) : i < s.length := by
  have := congrArg List.length (LastIndexByte_split s c i h)
  simp at this
  omega

end strings

namespace rfc3986

theorem dropWhile_append_of_all (p : Byte → Bool) (a b : GoString) (h : ∀ x ∈ a, p x = true) :
    (a ++ b).dropWhile p = b.dropWhile p := by
  induction a with
  | nil => rfl
  | cons x xs ih =>
    have hx := h x (by simp)
    simp only [List.cons_append, List.dropWhile_cons, hx, if_true]
    exact ih (fun y hy => h y (by simp [hy]))

theorem removeLastSegment_of_not_mem (s : GoString) (h : ch '/' ∉ s) :
    removeLastSegment s = [] := by
  unfold removeLastSegment
  have : s.reverse.dropWhile (fun c => c ≠ ch '/') = [] := by
    rw [List.dropWhile_eq_nil_iff]
    intro x hx
    have hx2 : x ∈ s := List.mem_reverse.mp hx
    have : x ≠ ch '/' := fun e => h (e ▸ hx2)
    simpa using this
  rw [this]
  rfl

theorem removeLastSegment_append (a b : GoString) (h : ch '/' ∉ b) :
    removeLastSegment (a ++ ch '/' :: b) = a := by
  unfold removeLastSegment
  rw [List.reverse_append, List.reverse_cons, List.append_assoc,
    dropWhile_append_of_all]
  · simp
  · intro x hx
    have hx2 : x ∈ b := List.mem_reverse.mp hx
    have : x ≠ ch '/' := fun e => h (e ▸ hx2)
    simpa using this

theorem removeLastSegment_of_some (s : GoString) (i : Nat)
    (h : strings.LastIndexByte s (ch '/') = some i) : removeLastSegment s = s.take i := by
  have hs := strings.LastIndexByte_split s (ch '/') i h
  conv => lhs; rw [hs]
  exact removeLastSegment_append _ _ (strings.LastIndexByte_drop_not_mem s _ i h)

end rfc3986

namespace url

open encoding rfc3986

theorem resolveInv_dot (st : GoString × Bool) (out : GoString) (h : resolveInv st out) :
    resolveInv (resolvePathStep st (str ".")) out := by
  unfold resolvePathStep
  simp only [if_true]
  rcases h with ⟨rfl, h⟩ | ⟨rfl, rfl⟩ | ⟨rfl, h⟩
  · exact Or.inl ⟨rfl, h⟩
  · exact Or.inl ⟨rfl, Or.inl rfl⟩
  · exact Or.inr (Or.inr ⟨rfl, h⟩)

theorem resolveInv_dotdot (st : GoString × Bool) (out : GoString) (h : resolveInv st out) :
    resolveInv (resolvePathStep st (str "..")) (removeLastSegment out) := by
  have hdd : str ".." ≠ str "." := by decide!
  unfold resolvePathStep
  simp only [hdd, if_false, if_true]
  rcases h with ⟨rfl, h⟩ | ⟨rfl, rfl⟩ | ⟨rfl, x, rfl, hx, hxh⟩
  · simp only [List.drop_succ_cons, List.drop_zero]
    cases hl : strings.LastIndexByte out (ch '/') with
    | none =>
      have hn := strings.LastIndexByte_eq_none _ _ hl
      rw [removeLastSegment_of_not_mem _ hn]
      exact Or.inr (Or.inl ⟨rfl, rfl⟩)
    | some i =>
      rw [removeLastSegment_of_some _ _ hl]
      refine Or.inl ⟨rfl, ?_⟩
      rcases h with rfl | h
      · simp
      · cases out with
        | nil => simp
        | cons y ys =>
          cases i with
          | zero => simp
          | succ j => right; simpa using h
  · have : removeLastSegment [] = [] := rfl
    rw [this]
    exact Or.inr (Or.inl ⟨rfl, rfl⟩)
  · simp only [List.drop_succ_cons, List.drop_zero]
    cases hl : strings.LastIndexByte x (ch '/') with
    | none =>
      have hn := strings.LastIndexByte_eq_none _ _ hl
      have : removeLastSegment (ch '/' :: x) = [] := by
        have := removeLastSegment_append [] x hn
        simpa using this
      rw [this]
      exact Or.inr (Or.inl ⟨rfl, rfl⟩)
    | some i =>
      have hs := strings.LastIndexByte_split x (ch '/') i hl
      have hnm := strings.LastIndexByte_drop_not_mem x (ch '/') i hl
      have : removeLastSegment (ch '/' :: x) = ch '/' :: x.take i := by
        conv => lhs; rw [hs]
        have := removeLastSegment_append (ch '/' :: x.take i) (x.drop (i + 1)) hnm
        simpa using this
      rw [this]
      refine Or.inr (Or.inr ⟨rfl, x.take i, rfl, ?_, ?_⟩)
      · cases x with
        | nil => exact absurd rfl hx
        | cons y ys =>
          cases i with
          | zero =>
            exfalso
            simp only [List.take_zero, List.nil_append, List.cons.injEq] at hs
            exact hxh (by simp [hs.1])
          | succ j => simp
      · cases x with
        | nil => exact absurd rfl hx
        | cons y ys =>
          cases i with
          | zero => simp
          | succ j => simpa using hxh

theorem resolveInv_seg (st : GoString × Bool) (out e : GoString) (h : resolveInv st out)
    (he : ch '/' ∉ e) (hne : e ≠ []) (h1 : e ≠ str ".") (h2 : e ≠ str "..") :
    resolveInv (resolvePathStep st e) (out ++ ch '/' :: e) := by
  unfold resolvePathStep
  simp only [h1, h2, if_false]
  rcases h with ⟨rfl, h⟩ | ⟨rfl, rfl⟩ | ⟨rfl, x, rfl, hx, hxh⟩
  · refine Or.inl ⟨by simp, Or.inr ?_⟩
    rcases h with rfl | h
    · simp
    · cases out with
      | nil => simp
      | cons y ys => simpa using h
  · refine Or.inr (Or.inr ⟨by simp, e, by simp, hne, ?_⟩)
    cases e with
    | nil => exact absurd rfl hne
    | cons y ys =>
      have hy : y ≠ ch '/' := fun e => he (by simp [e])
      simpa using hy
  · refine Or.inr (Or.inr ⟨by simp, x ++ ch '/' :: e, by simp, by simp, ?_⟩)
    cases x with
    | nil => exact absurd rfl hx
    | cons y ys => simpa using hxh

/-- The end of `resolvePath` after a last element `.` or `..`. -/
theorem resolveInv_finish_dot (st : GoString × Bool) (out : GoString) (h : resolveInv st out) :
    (if (st.1 ++ [ch '/']).length > 1 ∧ (st.1 ++ [ch '/']).get? 1 = some (ch '/') then
      (st.1 ++ [ch '/']).drop 1 else st.1 ++ [ch '/']) = out ++ [ch '/'] := by
  rcases h with ⟨rfl, h⟩ | ⟨rfl, rfl⟩ | ⟨rfl, x, rfl, hx, hxh⟩
  · rcases h with rfl | h
    · simp
    · cases out with
      | nil => simp
      | cons y ys =>
        simp only [List.head?_cons, Option.some.injEq] at h
        subst h
        simp
  · simp
  · cases x with
    | nil => exact absurd rfl hx
    | cons y ys =>
      have hy : y ≠ ch '/' := by simpa using hxh
      simp [hy]

/-- The end of `resolvePath` after a last element other than `.` and `..`. -/
theorem resolveInv_finish_seg (st : GoString × Bool) (out e : GoString)
    (h : resolveInv st out) (he : ch '/' ∉ e) (h1 : e ≠ str ".") (h2 : e ≠ str "..") :
    (if (resolvePathStep st e).1.length > 1 ∧ (resolvePathStep st e).1.get? 1 = some (ch '/')
      then (resolvePathStep st e).1.drop 1 else (resolvePathStep st e).1) =
      out ++ ch '/' :: e := by
  unfold resolvePathStep
  simp only [h1, h2, if_false]
  rcases h with ⟨rfl, h⟩ | ⟨rfl, rfl⟩ | ⟨rfl, x, rfl, hx, hxh⟩
  · rcases h with rfl | h
    · simp
    · cases out with
      | nil => simp
      | cons y ys =>
        simp only [List.head?_cons, Option.some.injEq] at h
        subst h
        simp
  · cases e with
    | nil => simp
    | cons y ys =>
      have hy : y ≠ ch '/' := fun e => he (by simp [e])
      simp [hy]
  · cases x with
    | nil => exact absurd rfl hx
    | cons y ys =>
      have hy : y ≠ ch '/' := by simpa using hxh
      simp [hy]

end url

namespace url

open encoding rfc3986

/-- The loop of `resolvePath` and the loop of RFC 3986 §5.2.4 agree on a path whose
segments, the last one apart, are not empty. -/
theorem foldl_resolvePathStep_rfc (es : List GoString) :
    es ≠ [] → (∀ e ∈ es, ch '/' ∉ e) → (∀ e ∈ es.dropLast, e ≠ []) →
    ∀ (st : GoString × Bool) (out : GoString) (fuel : Nat) (dst : GoString),
      resolveInv st out → (es.flatMap fun e => ch '/' :: e).length < fuel →
      dst = (if es.getLast? = some (str ".") ∨ es.getLast? = some (str "..") then
              (es.foldl resolvePathStep st).1 ++ [ch '/']
            else (es.foldl resolvePathStep st).1) →
      (if dst.length > 1 ∧ dst.get? 1 = some (ch '/') then dst.drop 1 else dst) =
        removeDotSegmentsLoop fuel (es.flatMap fun e => ch '/' :: e) out := by
  have hdd : str ".." ≠ str "." := by decide!
  induction es with
  | nil => intro h; exact absurd rfl h
  | cons e rest ih =>
    intro _ hsl hne st out fuel dst hinv hfuel hdst
    have he : ch '/' ∉ e := hsl e (by simp)
    cases rest with
    | nil =>
      simp only [List.getLast?_singleton, Option.some.injEq, List.foldl_cons, List.foldl_nil]
        at hdst
      simp only [List.flatMap_cons, List.flatMap_nil, List.append_nil, List.length_cons]
        at hfuel ⊢
      by_cases h1 : e = str "."
      · subst h1
        simp only [true_or, if_true] at hdst
        subst hdst
        rw [resolveInv_finish_dot _ _ (resolveInv_dot st out hinv)]
        obtain ⟨f, rfl⟩ : ∃ f, fuel = f + 2 := ⟨fuel - 2, by rw [str_dot] at hfuel; simp at hfuel; omega⟩
        rw [str_dot, loop_dot_last]
      · by_cases h2 : e = str ".."
        · subst h2
          simp only [or_true, if_true] at hdst
          subst hdst
          rw [resolveInv_finish_dot _ _ (resolveInv_dotdot st out hinv)]
          obtain ⟨f, rfl⟩ : ∃ f, fuel = f + 2 :=
            ⟨fuel - 2, by rw [str_dot_dot] at hfuel; simp at hfuel; omega⟩
          rw [str_dot_dot, loop_dotdot_last]
        · simp only [h1, h2, or_self, if_false] at hdst
          subst hdst
          rw [resolveInv_finish_seg st out e hinv he h1 h2]
          obtain ⟨f, rfl⟩ : ∃ f, fuel = f + 1 := ⟨fuel - 1, by omega⟩
          have := loop_seg f e [] out he (by rw [← str_dot]; exact h1) (by rw [← str_dot_dot]; exact h2)
            (Or.inl rfl)
          rw [List.append_nil] at this
          rw [this, loop_nil]
    | cons e2 rest2 =>
      have hen : e ≠ [] := hne e (by simp [List.dropLast])
      have hsl2 : ∀ x ∈ e2 :: rest2, ch '/' ∉ x := fun x hx => hsl x (by simp [hx])
      have hne2 : ∀ x ∈ (e2 :: rest2).dropLast, x ≠ [] := by
        intro x hx
        apply hne x
        rw [List.dropLast_cons_of_ne_nil (by simp)]
        exact List.mem_cons_of_mem _ hx
      rw [List.getLast?_cons_cons, List.foldl_cons] at hdst
      have hflat : ((List.flatMap (e :: e2 :: rest2) fun e => ch '/' :: e)) =
          ch '/' :: (e ++ (List.flatMap (e2 :: rest2) fun e => ch '/' :: e)) := by
        simp
      rw [hflat] at hfuel ⊢
      obtain ⟨f, rfl⟩ : ∃ f, fuel = f + 1 := ⟨fuel - 1, by simp at hfuel; omega⟩
      have hf : ((List.flatMap (e2 :: rest2) fun e => ch '/' :: e)).length < f := by
        simp only [List.length_cons, List.length_append] at hfuel
        omega
      have hhead : ((List.flatMap (e2 :: rest2) fun e => ch '/' :: e)).head? = some (ch '/') := by
        simp
      by_cases h1 : e = str "."
      · subst h1
        have := ih (by simp) hsl2 hne2 _ out f dst (resolveInv_dot st out hinv) hf hdst
        rw [this, str_dot]
        have h3 : (List.flatMap (e2 :: rest2) fun e => ch '/' :: e) =
            ch '/' :: (e2 ++ (List.flatMap rest2 fun e => ch '/' :: e)) := by simp
        rw [h3]
        exact (loop_dot_mid f _ out).symm
      · by_cases h2 : e = str ".."
        · subst h2
          have := ih (by simp) hsl2 hne2 _ _ f dst (resolveInv_dotdot st out hinv) hf hdst
          rw [this, str_dot_dot]
          have h3 : (List.flatMap (e2 :: rest2) fun e => ch '/' :: e) =
              ch '/' :: (e2 ++ (List.flatMap rest2 fun e => ch '/' :: e)) := by simp
          rw [h3]
          exact (loop_dotdot_mid f _ out).symm
        · have := ih (by simp) hsl2 hne2 _ _ f dst
            (resolveInv_seg st out e hinv he hen h1 h2) hf hdst
          rw [this]
          exact (loop_seg f e _ out he (by rw [← str_dot]; exact h1) (by rw [← str_dot_dot]; exact h2)
            (Or.inr hhead)).symm

end url

namespace strings

theorem pieces_not_mem (sep : Byte) (s : GoString) : ∀ e ∈ pieces sep s, sep ∉ e := by
  induction s with
  | nil => simp [pieces]
  | cons c cs ih =>
    unfold pieces
    by_cases h : c = sep
    · simp only [h, if_true, List.mem_cons]
      rintro e (rfl | he)
      · simp
      · exact ih e he
    · simp only [h, if_false]
      cases hp : pieces sep cs with
      | nil => exact absurd hp (pieces_ne_nil sep cs)
      | cons p ps =>
        rw [hp] at ih
        simp only [List.mem_cons]
        rintro e (rfl | he)
        · simp only [List.mem_cons, not_or]
          exact ⟨fun e => h e.symm, ih p (by simp)⟩
        · exact ih e (by simp [he])

theorem flatMap_pieces (sep : Byte) (s : GoString) :
    ((pieces sep s).flatMap fun e => sep :: e) = sep :: s := by
  have h := Join_pieces sep s
  cases hp : pieces sep s with
  | nil => exact absurd hp (pieces_ne_nil sep s)
  | cons p ps =>
    rw [hp] at h
    simp only [Join, List.singleton_append] at h
    simp only [List.flatMap_cons, List.cons_append, h]

end strings

namespace url

open encoding rfc3986

theorem dirOf_eq_dropWhile (base : GoString) :
    dirOf base = (base.reverse.dropWhile fun c => c ≠ ch '/').reverse := by
  unfold dirOf
  cases h : strings.LastIndexByte base (ch '/') with
  | none =>
    have hn := strings.LastIndexByte_eq_none _ _ h
    have : base.reverse.dropWhile (fun c => c ≠ ch '/') = [] := by
      rw [List.dropWhile_eq_nil_iff]
      intro x hx
      have hx2 : x ∈ base := List.mem_reverse.mp hx
      have : x ≠ ch '/' := fun e => hn (e ▸ hx2)
      simpa using this
    rw [this]
    rfl
  | some i =>
    have hs := strings.LastIndexByte_split base (ch '/') i h
    have hnm := strings.LastIndexByte_drop_not_mem base (ch '/') i h
    have hlt := strings.LastIndexByte_lt base (ch '/') i h
    have htake : base.take (i + 1) = base.take i ++ [ch '/'] := by
      conv => lhs; rw [hs]
      have hlen : (base.take i).length = i := by
        rw [List.length_take]; omega
      rw [List.take_append_eq_append_take, hlen]
      simp [List.take_of_length_le, hlen]
    conv => rhs; rw [hs]
    rw [List.reverse_append, List.reverse_cons, List.append_assoc, dropWhile_append_of_all]
    · simp [htake]
    · intro x hx
      have hx2 : x ∈ base.drop (i + 1) := List.mem_reverse.mp hx
      have : x ≠ ch '/' := fun e => hnm (e ▸ hx2)
      simpa using this

theorem dirOf_head (base : GoString) (h : base.head? = some (ch '/')) :
    ∃ d, dirOf base = ch '/' :: d := by
  unfold dirOf
  cases base with
  | nil => simp at h
  | cons x xs =>
    simp only [List.head?_cons, Option.some.injEq] at h
    subst h
    cases hl : strings.LastIndexByte (ch '/' :: xs) (ch '/') with
    | none =>
      have := strings.LastIndexByte_eq_none _ _ hl
      simp at this
    | some i => exact ⟨xs.take i, by simp⟩

/-- Go `resolvePath` and RFC 3986: for a reference path `ref` that is not empty
and has no leading `/`, and a base path that starts with `/` (or is empty, under
an authority), `resolvePath` returns the merged path (§5.2.3) with its dot
segments removed (§5.2.4), provided that the merged path has no empty segment
before its last one, that is no `//`. -/
theorem resolvePath_eq_removeDotSegments (auth : Bool) (base ref : GoString) (href : ref ≠ [])
    (hslash : ref.head? ≠ some (ch '/'))
    (hbase : base.head? = some (ch '/') ∨ (base = [] ∧ auth = true))
    (hseg : ∀ e ∈ (strings.pieces (ch '/') ((merge auth base ref).drop 1)).dropLast, e ≠ []) :
    resolvePath base ref = removeDotSegments (merge auth base ref) := by
  have hfull : dirOf base ++ ref ≠ [] := by simp [href]
  unfold resolvePath
  simp only [href, hslash, if_false, if_true, hfull, not_false_eq_true, ne_eq]
  rcases hbase with hb | ⟨rfl, rfl⟩
  · obtain ⟨d, hd⟩ := dirOf_head base hb
    have hbne : base ≠ [] := by rintro rfl; simp at hb
    have hm : merge auth base ref = ch '/' :: (d ++ ref) := by
      unfold merge
      simp only [hbne, and_false, if_false]
      rw [← dirOf_eq_dropWhile, hd]
      rfl
    rw [hm] at hseg ⊢
    simp only [List.drop_succ_cons, List.drop_zero] at hseg
    rw [hd]
    have hp : strings.pieces (ch '/') (ch '/' :: d ++ ref) =
        [] :: strings.pieces (ch '/') (d ++ ref) := by
      simp [strings.pieces]
    have hne := strings.pieces_ne_nil (ch '/') (d ++ ref)
    have hlast : ([] :: strings.pieces (ch '/') (d ++ ref)).getLast? =
        (strings.pieces (ch '/') (d ++ ref)).getLast? := by
      cases hq : strings.pieces (ch '/') (d ++ ref) with
      | nil => exact absurd hq hne
      | cons q qs => exact List.getLast?_cons_cons
    rw [hp, List.foldl_cons, hlast]
    have hst : resolvePathStep ([ch '/'], true) [] = ([ch '/'], false) := by decide!
    rw [hst]
    have := foldl_resolvePathStep_rfc (strings.pieces (ch '/') (d ++ ref)) hne
      (strings.pieces_not_mem _ _) hseg ([ch '/'], false) [] ((ch '/' :: (d ++ ref)).length + 1)
      _ (Or.inl ⟨rfl, Or.inl rfl⟩) (by rw [strings.flatMap_pieces]; simp) rfl
    rw [strings.flatMap_pieces] at this
    exact this
  · have hm : merge true [] ref = ch '/' :: ref := by simp [merge]
    rw [hm] at hseg ⊢
    simp only [List.drop_succ_cons, List.drop_zero] at hseg
    have hd : dirOf [] = [] := rfl
    rw [hd, List.nil_append]
    have hne := strings.pieces_ne_nil (ch '/') ref
    have := foldl_resolvePathStep_rfc (strings.pieces (ch '/') ref) hne
      (strings.pieces_not_mem _ _) hseg ([ch '/'], true) [] ((ch '/' :: ref).length + 1)
      _ (Or.inr (Or.inl ⟨rfl, rfl⟩)) (by rw [strings.flatMap_pieces]; simp) rfl
    rw [strings.flatMap_pieces] at this
    exact this

end url

/-! ## The query of the built URL -/

namespace url

open encoding

theorem URL.setPathIgnoringError_fields (u : URL) (p : GoString) :
    (u.setPathIgnoringError p).RawQuery = u.RawQuery ∧
    (u.setPathIgnoringError p).Scheme = u.Scheme ∧
    (u.setPathIgnoringError p).Host = u.Host ∧
    (u.setPathIgnoringError p).User = u.User ∧
    (u.setPathIgnoringError p).Opaque = u.Opaque := by
  unfold URL.setPathIgnoringError URL.setPath
  cases unescape p encoding.encodePath with
  | error e => simp
  | ok path => by_cases h : p = escape path encoding.encodePath <;> simp [h]

/-- The query of a resolved reference: the reference's own query, except for the
empty reference (no scheme, authority, path or query), which inherits the query of
the base. -/
theorem URL.ResolveReference_RawQuery (u ref : URL) :
    (u.ResolveReference ref).RawQuery =
      if ref.Scheme = [] ∧ ref.Host = [] ∧ ref.User = none ∧ ref.Opaque = [] ∧ ref.Path = [] ∧
          ref.ForceQuery = false ∧ ref.RawQuery = [] then u.RawQuery
      else ref.RawQuery := by
  have hset : ∀ (v : URL) (p : GoString), (v.setPathIgnoringError p).RawQuery = v.RawQuery :=
    fun v p => (URL.setPathIgnoringError_fields v p).1
  unfold URL.ResolveReference
  simp only [hset]
  split_ifs <;> simp_all

/-- A reference with a path or a query of its own keeps its query. -/
theorem URL.ResolveReference_RawQuery_own (u ref : URL)
    (h : ref.RawQuery ≠ [] ∨ ref.ForceQuery = true ∨ ref.Path ≠ []) :
    (u.ResolveReference ref).RawQuery = ref.RawQuery := by
  rw [URL.ResolveReference_RawQuery]
  split_ifs with hc
  · obtain ⟨_, _, _, _, hp, hf, hq⟩ := hc
    rcases h with h | h | h
    · exact absurd hq h
    · rw [hf] at h; cases h
    · exact absurd hp h
  · rfl

end url

/-- The three credential keys. -/
theorem credential_keys_distinct :
    str "access_token" ≠ str "client_id" ∧ str "access_token" ≠ str "client_secret" ∧
    str "client_id" ≠ str "client_secret" := by decide!

namespace url

open encoding

theorem Values.Get_Set_of_ne (q : Values) (key value k2 : GoString) (hne : k2 ≠ key) :
    Values.Get (Values.Set q key value) k2 = Values.Get q k2 := by
  simp [Values.Get, Values.lookup_Set, hne]

/-- One of the three guarded `Set`s of `NewRequest`, read back. -/
theorem Values.lookup_guarded_Set (q : Values) (key value k : GoString) :
    Values.lookup (if value ≠ [] ∧ Values.Get q key = [] then Values.Set q key value else q) k =
      if k = key ∧ value ≠ [] ∧ Values.Get q key = [] then [value] else Values.lookup q k := by
  by_cases h : value ≠ [] ∧ Values.Get q key = []
  · by_cases hk : k = key
    · simp [h, hk, Values.lookup_Set]
    · simp [h, hk, Values.lookup_Set]
  · have h2 : ¬ (k = key ∧ value ≠ [] ∧ Values.Get q key = []) := fun hh => h hh.2
    rw [if_neg h, if_neg h2]

theorem Values.Get_guarded_Set (q : Values) (key value k2 : GoString) (hne : k2 ≠ key) :
    Values.Get (if value ≠ [] ∧ Values.Get q key = [] then Values.Set q key value else q) k2 =
      Values.Get q k2 := by
  split_ifs
  · exact Values.Get_Set_of_ne q key value k2 hne
  · rfl

theorem Values.nodup_guarded_Set (q : Values) (key value : GoString)
    (h : (q.map Prod.fst).Nodup) :
    ((if value ≠ [] ∧ Values.Get q key = [] then Values.Set q key value else q).map
      Prod.fst).Nodup := by
  split_ifs
  · exact Values.nodup_assign _ _ _ h
  · exact h

end url

section Query

variable {Err Ptr : Type}

/-- The values under key `k` in the query of the URL that `NewRequest` builds, in
terms of the query `q` of the resolved URL. -/
theorem requestURL_lookup (c : Client Err Ptr) (rel : url.URL) (k : GoString) :
    url.Values.lookup (c.requestURL rel).Query k =
      if k = str "client_secret" ∧ c.ClientSecret ≠ [] ∧
          url.Values.Get (c.BaseURL.ResolveReference rel).Query (str "client_secret") = [] then
        [c.ClientSecret]
      else if k = str "client_id" ∧ c.ClientID ≠ [] ∧
          url.Values.Get (c.BaseURL.ResolveReference rel).Query (str "client_id") = [] then
        [c.ClientID]
      else if k = str "access_token" ∧ c.AccessToken ≠ [] ∧
          url.Values.Get (c.BaseURL.ResolveReference rel).Query (str "access_token") = [] then
        [c.AccessToken]
      else url.Values.lookup (c.BaseURL.ResolveReference rel).Query k := by
  obtain ⟨h12, h13, h23⟩ := credential_keys_distinct
  have hnd : (((c.BaseURL.ResolveReference rel).Query).map Prod.fst).Nodup :=
    url.nodup_ParseQuery _
  unfold Client.requestURL
  simp only [url.URL.Query] at hnd ⊢
  rw [url.Values.lookup_ParseQuery_Encode _
    (url.Values.nodup_guarded_Set _ _ _
      (url.Values.nodup_guarded_Set _ _ _ (url.Values.nodup_guarded_Set _ _ _ hnd)))]
  rw [url.Values.lookup_guarded_Set, url.Values.lookup_guarded_Set,
    url.Values.lookup_guarded_Set,
    url.Values.Get_guarded_Set _ _ _ _ (Ne.symm h23),
    url.Values.Get_guarded_Set _ _ _ _ (Ne.symm h13),
    url.Values.Get_guarded_Set _ _ _ _ (Ne.symm h12)]

end Query

namespace url

open encoding

theorem escapeByte_path_cases (c : Byte) :
    (c ≠ ch '%' ∧ escapeByte c encodePath = [c]) ∨
    (escapeByte c encodePath = [ch '%', upperhex (c.val / 16), upperhex (c.val % 16)] ∧
      ishex (upperhex (c.val / 16)) = true ∧ ishex (upperhex (c.val % 16)) = true ∧
      hexByte (upperhex (c.val / 16)) (upperhex (c.val % 16)) = c) := by
  revert c
  decide!

theorem escapeByte_ne_nil (c : Byte) (mode : encoding) : escapeByte c mode ≠ [] := by
  unfold escapeByte
  split_ifs <;> simp

theorem wellEscaped_escape (s : GoString) : wellEscaped (escape s encodePath) = true := by
  induction s with
  | nil => rfl
  | cons c s ih =>
    have hcons : escape (c :: s) encodePath = escapeByte c encodePath ++ escape s encodePath := by
      simp [escape]
    rw [hcons]
    rcases escapeByte_path_cases c with ⟨hc, he⟩ | ⟨he, ha, hb, _⟩
    · rw [he, List.singleton_append, wellEscaped_cons_of_ne _ _ hc, ih]
    · rw [he]
      simp only [List.cons_append, List.nil_append, wellEscaped_percent, ha, hb, ih]
      rfl

/-- What `EscapedPath` returns is a well-formed encoded path, for every URL. -/
theorem URL.EscapedPath_wellEscaped (u : URL) : wellEscaped u.EscapedPath = true := by
  unfold URL.EscapedPath
  split_ifs with h1 h2
  · unfold wellEscaped
    rw [h1.2.2]
    rfl
  · decide!
  · exact wellEscaped_escape _

theorem URL.EscapedPath_ne_nil (u : URL) (h : u.Path ≠ []) : u.EscapedPath ≠ [] := by
  unfold URL.EscapedPath
  split_ifs with h1 h2
  · exact h1.1
  · decide!
  · cases hp : u.Path with
    | nil => exact absurd hp h
    | cons c s =>
      have := escapeByte_ne_nil c encodePath
      simp [escape, this]

theorem URL.setPathIgnoringError_Path (u : URL) (p path : GoString)
    (h : unescape p encodePath = .ok path) : (u.setPathIgnoringError p).Path = path := by
  unfold URL.setPathIgnoringError URL.setPath
  rw [h]
  by_cases hp : p = escape path encodePath <;> simp [hp]

/-- Resolution of a relative-path reference (no scheme, no authority, a non-empty
path): scheme and authority are those of the base, and the path is the decoded
`resolvePath` of the two encoded paths. -/
theorem URL.ResolveReference_relative (u ref : URL) (hs : ref.Scheme = [])
    (ho : ref.Opaque = []) (hh : ref.Host = []) (hu : ref.User = none) (hp : ref.Path ≠ []) :
    (u.ResolveReference ref).Scheme = u.Scheme ∧
    (u.ResolveReference ref).Host = u.Host ∧
    (u.ResolveReference ref).User = u.User ∧
    unescape (resolvePath u.EscapedPath ref.EscapedPath) encodePath =
      .ok (u.ResolveReference ref).Path := by
  have hw := resolvePath_wellEscaped u.EscapedPath ref.EscapedPath
    (URL.EscapedPath_wellEscaped u) (URL.EscapedPath_wellEscaped ref)
  unfold wellEscaped at hw
  cases hun : unescape (resolvePath u.EscapedPath ref.EscapedPath) encodePath with
  | error e => rw [hun] at hw; cases hw
  | ok path =>
    unfold URL.ResolveReference
    simp only [hs, ho, hh, hu, hp, ne_eq, not_true_eq_false, or_self, if_false, if_true,
      false_and]
    have hf := URL.setPathIgnoringError_fields
    refine ⟨?_, ?_, ?_, ?_⟩
    · rw [(hf _ _).2.1]
    · rw [(hf _ _).2.2.1]
    · rw [(hf _ _).2.2.2.1]
    · rw [URL.setPathIgnoringError_Path _ _ _ hun]

end url

/-! ## The request's URL: parsing the text of the built URL again -/

namespace strings

theorem Cut_of_not_mem (sep : Byte) (a : GoString) (h : sep ∉ a) : Cut sep a = (a, [], false) := by
  induction a with
  | nil => rfl
  | cons x xs ih =>
    have hx : x ≠ sep := fun e => h (by simp [e])
    have hxs : sep ∉ xs := fun m => h (by simp [m])
    simp [Cut, hx, ih hxs]

theorem Cut_append_of_not_mem (sep : Byte) (a b : GoString) (h : sep ∉ a) :
    (Cut sep (a ++ b)).2 = (Cut sep b).2 := by
  induction a with
  | nil => rfl
  | cons x xs ih =>
    have hx : x ≠ sep := fun e => h (by simp [e])
    have hxs : sep ∉ xs := fun m => h (by simp [m])
    simp [Cut, hx, ih hxs]

theorem Cut_drop (sep : Byte) (s : GoString) (k : Nat) (h : sep ∉ s.take k) :
    (Cut sep (s.drop k)).2 = (Cut sep s).2 := by
  conv => rhs; rw [← List.take_append_drop k s]
  rw [Cut_append_of_not_mem sep _ _ h]

theorem CountByte_drop (sep : Byte) (s : GoString) (k : Nat) (h : sep ∉ s.take k) :
    CountByte (s.drop k) sep = CountByte s sep := by
  unfold CountByte
  conv => rhs; rw [← List.take_append_drop k s]
  rw [List.count_append, List.count_eq_zero_of_not_mem h, Nat.zero_add]

theorem HasSuffix_singleton (s : GoString) (c : Byte) :
    HasSuffix s [c] = true ↔ s.getLast? = some c := by
  unfold HasSuffix
  rw [List.isSuffixOf_iff_suffix]
  constructor
  · rintro ⟨t, rfl⟩
    simp
  · intro h
    obtain ⟨ys, rfl⟩ := List.getLast?_eq_some_iff.mp h
    exact ⟨ys, rfl⟩

theorem HasSuffix_drop (sep : Byte) (s : GoString) (k : Nat) (h : sep ∉ s.take k) :
    HasSuffix (s.drop k) [sep] = HasSuffix s [sep] := by
  rw [Bool.eq_iff_iff, HasSuffix_singleton, HasSuffix_singleton]
  by_cases hd : s.drop k = []
  · have hs : s = s.take k := by
      conv => lhs; rw [← List.take_append_drop k s, hd, List.append_nil]
    rw [hd]
    constructor
    · intro h0; simp at h0
    · intro h0
      exact absurd (hs ▸ List.mem_of_getLast?_eq_some h0) h
  · conv => rhs; rw [← List.take_append_drop k s]
    rw [List.getLast?_append_of_ne_nil _ hd]

end strings
namespace url
open encoding

theorem scheme_byte_clean :
    ∀ c : Byte, (((ch 'a' ≤ c ∧ c ≤ ch 'z') ∨ (ch 'A' ≤ c ∧ c ≤ ch 'Z')) ∨
        ((ch '0' ≤ c ∧ c ≤ ch '9') ∨ c = ch '+' ∨ c = ch '-' ∨ c = ch '.') ∨ c = ch ':') →
      c ≠ ch '?' ∧ c ≠ ch '#' := by
  decide!

/-- What `getScheme` returns as the rest is the input without a head that holds
neither `?` nor `#`. -/
theorem getSchemeLoop_spec (s : GoString) (sep : Byte)
    (hsep : sep = ch '?' ∨ sep = ch '#') :
    ∀ (rest : GoString) (i : Nat) (scheme rest0 : GoString), rest = s.drop i → sep ∉ s.take i →
      getSchemeLoop s i rest = .ok (scheme, rest0) →
      (∃ k, rest0 = s.drop k ∧ sep ∉ s.take k) ∧ sep ∉ scheme := by
  intro rest
  induction rest with
  | nil =>
    intro i scheme rest0 _ _ h
    simp only [getSchemeLoop, Except.ok.injEq, Prod.mk.injEq] at h
    exact ⟨⟨0, by simp [h.2], by simp⟩, by simp [← h.1]⟩
  | cons c rest ih =>
    intro i scheme rest0 hdrop hclean h
    have hi : i < s.length := by
      by_contra hn
      rw [List.drop_of_length_le (by omega)] at hdrop
      cases hdrop
    have hci : s.take (i + 1) = s.take i ++ [c] := by
      rw [List.take_succ]
      congr 1
      have : s[i]? = some c := by
        rw [← List.head?_drop, ← hdrop]; rfl
      simp [this]
    have hrest : rest = s.drop (i + 1) := by
      rw [← List.drop_drop 1 i s, ← hdrop]; rfl
    have hnext : (((ch 'a' ≤ c ∧ c ≤ ch 'z') ∨ (ch 'A' ≤ c ∧ c ≤ ch 'Z')) ∨
        ((ch '0' ≤ c ∧ c ≤ ch '9') ∨ c = ch '+' ∨ c = ch '-' ∨ c = ch '.') ∨ c = ch ':') →
        sep ∉ s.take (i + 1) := by
      intro hc
      have := scheme_byte_clean c hc
      rw [hci]
      simp only [List.mem_append, List.mem_singleton, not_or]
      refine ⟨hclean, ?_⟩
      rcases hsep with rfl | rfl
      · exact fun e => this.1 e.symm
      · exact fun e => this.2 e.symm
    have hzero : (∃ k, s = s.drop k ∧ sep ∉ s.take k) ∧ sep ∉ ([] : GoString) :=
      ⟨⟨0, by simp, by simp⟩, by simp⟩
    unfold getSchemeLoop at h
    split_ifs at h with h1 h2 h3 h4 h5
    · exact ih (i + 1) scheme rest0 hrest (hnext (Or.inl h1)) h
    · simp only [Except.ok.injEq, Prod.mk.injEq] at h
      rw [← h.1, ← h.2]; exact hzero
    · exact ih (i + 1) scheme rest0 hrest (hnext (Or.inr (Or.inl h2))) h
    · simp only [Except.ok.injEq, Prod.mk.injEq] at h
      rw [← h.1, ← h.2]
      exact ⟨⟨i + 1, rfl, hnext (Or.inr (Or.inr h4))⟩, hclean⟩
    · simp only [Except.ok.injEq, Prod.mk.injEq] at h
      rw [← h.1, ← h.2]; exact hzero

theorem getScheme_spec (s : GoString) (sep : Byte) (hsep : sep = ch '?' ∨ sep = ch '#')
    (scheme rest0 : GoString) (h : getScheme s = .ok (scheme, rest0)) :
    (∃ k, rest0 = s.drop k ∧ sep ∉ s.take k) ∧ sep ∉ scheme :=
  getSchemeLoop_spec s sep hsep s 0 scheme rest0 rfl (by simp) h

theorem URL.setPath_fields (u v : URL) (p : GoString) (h : u.setPath p = .ok v) :
    v.RawQuery = u.RawQuery ∧ v.ForceQuery = u.ForceQuery ∧ v.Scheme = u.Scheme ∧
    v.Opaque = u.Opaque := by
  unfold URL.setPath at h
  cases hu : unescape p encodePath with
  | error e => simp [hu] at h
  | ok path =>
    simp only [hu] at h
    split_ifs at h <;> injection h with h <;> subst h <;> exact ⟨rfl, rfl, rfl, rfl⟩

theorem URL.setFragment_fields (u v : URL) (f : GoString) (h : u.setFragment f = .ok v) :
    v.RawQuery = u.RawQuery ∧ v.ForceQuery = u.ForceQuery ∧ v.Scheme = u.Scheme ∧
    v.Opaque = u.Opaque := by
  unfold URL.setFragment at h
  cases hu : unescape f encodeFragment with
  | error e => simp [hu] at h
  | ok path =>
    simp only [hu] at h
    split_ifs at h <;> injection h with h <;> subst h <;> exact ⟨rfl, rfl, rfl, rfl⟩


/-- The fields that `parse` settles before it looks at the authority and the path:
with `getScheme s = (scheme, rest0)`, every URL it returns has the scheme, the
query and the opaque part computed from `scheme` and `rest0`. -/
theorem parse_fields (s : GoString) (v : URL) (h : parse s false = .ok v) (hstar : s ≠ str "*") :
    ∃ scheme rest0, getScheme s = .ok (scheme, rest0) ∧
      v.Scheme = strings.ToLower scheme ∧
      v.RawQuery =
        (if (strings.HasSuffix rest0 (str "?") && strings.CountByte rest0 (ch '?') == 1) = true
          then [] else (strings.Cut (ch '?') rest0).2.1) ∧
      (v.Opaque = [] ∨ v.Opaque =
        (if (strings.HasSuffix rest0 (str "?") && strings.CountByte rest0 (ch '?') == 1) = true
          then rest0.take (rest0.length - 1) else (strings.Cut (ch '?') rest0).1)) := by
  unfold parse at h
  simp only [hstar, if_false, Bool.false_eq_true, and_false] at h
  split_ifs at h with hctl
  cases hg : getScheme s with
  | error e => simp [hg] at h
  | ok p =>
    obtain ⟨scheme, rest0⟩ := p
    refine ⟨scheme, rest0, rfl, ?_⟩
    simp only [hg] at h
    by_cases hforced :
        (strings.HasSuffix rest0 (str "?") && strings.CountByte rest0 (ch '?') == 1) = true
    · simp only [hforced, if_true] at h ⊢
      split_ifs at h
      · injection h with h; subst h; exact ⟨rfl, rfl, Or.inr rfl⟩
      · split at h
        · cases h
        · have := URL.setPath_fields _ _ _ h
          exact ⟨this.2.2.1, this.1, Or.inl this.2.2.2⟩
      · have := URL.setPath_fields _ _ _ h
        exact ⟨this.2.2.1, this.1, Or.inl this.2.2.2⟩
      · have := URL.setPath_fields _ _ _ h
        exact ⟨this.2.2.1, this.1, Or.inl this.2.2.2⟩
    · simp only [hforced, if_false, Bool.false_eq_true] at h ⊢
      split_ifs at h
      · injection h with h; subst h; exact ⟨rfl, rfl, Or.inr rfl⟩
      · split at h
        · cases h
        · have := URL.setPath_fields _ _ _ h
          exact ⟨this.2.2.1, this.1, Or.inl this.2.2.2⟩
      · have := URL.setPath_fields _ _ _ h
        exact ⟨this.2.2.1, this.1, Or.inl this.2.2.2⟩
      · have := URL.setPath_fields _ _ _ h
        exact ⟨this.2.2.1, this.1, Or.inl this.2.2.2⟩

end url
namespace strings

theorem Cut_fst_not_mem (sep : Byte) (s : GoString) : sep ∉ (Cut sep s).1 := by
  induction s with
  | nil => simp [Cut]
  | cons x xs ih =>
    unfold Cut
    split_ifs with hx
    · simp
    · simp only [List.mem_cons, not_or]
      exact ⟨fun e => hx e.symm, ih⟩

theorem Cut_fst_subset (sep : Byte) (s : GoString) : ∀ y ∈ (Cut sep s).1, y ∈ s := by
  induction s with
  | nil => simp [Cut]
  | cons x xs ih =>
    unfold Cut
    split_ifs with hx
    · simp
    · intro y hy
      simp only [List.mem_cons] at hy ⊢
      rcases hy with rfl | hy
      · exact Or.inl rfl
      · exact Or.inr (ih y hy)

end strings

namespace url
open encoding

/-- The query that `parse` reads from the text `s`. -/
theorem parse_RawQuery (s : GoString) (v : URL) (h : parse s false = .ok v) :
    v.RawQuery =
      if (strings.HasSuffix s (str "?") && strings.CountByte s (ch '?') == 1) = true then []
      else (strings.Cut (ch '?') s).2.1 := by
  by_cases hstar : s = str "*"
  · subst hstar
    have hv : v = { Path := str "*" } := by
      have : parse (str "*") false = .ok { Path := str "*" } := by decide!
      rw [this] at h
      injection h with h
      exact h.symm
    subst hv
    decide!
  · obtain ⟨scheme, rest0, hg, _, hq, _⟩ := parse_fields s v h hstar
    obtain ⟨⟨k, hk, hclean⟩, _⟩ := getScheme_spec s (ch '?') (Or.inl rfl) scheme rest0 hg
    rw [hq, hk]
    have h1 : strings.HasSuffix (s.drop k) (str "?") = strings.HasSuffix s (str "?") :=
      strings.HasSuffix_drop (ch '?') s k hclean
    rw [h1, strings.CountByte_drop _ _ _ hclean, strings.Cut_drop _ _ _ hclean]

/-- The scheme and the opaque part that `parse` returns hold neither `?` nor `#`,
when the text holds no `#`. -/
theorem parse_clean (s : GoString) (v : URL) (h : parse s false = .ok v) (hs : ch '#' ∉ s) :
    ch '?' ∉ v.Scheme ∧ ch '#' ∉ v.Scheme ∧ ch '?' ∉ v.Opaque ∧ ch '#' ∉ v.Opaque := by
  by_cases hstar : s = str "*"
  · subst hstar
    have hv : v = { Path := str "*" } := by
      have : parse (str "*") false = .ok { Path := str "*" } := by decide!
      rw [this] at h
      injection h with h
      exact h.symm
    subst hv
    simp
  · obtain ⟨scheme, rest0, hg, hsch, _, hop⟩ := parse_fields s v h hstar
    obtain ⟨⟨k, hk, _⟩, hq⟩ := getScheme_spec s (ch '?') (Or.inl rfl) scheme rest0 hg
    obtain ⟨_, hh⟩ := getScheme_spec s (ch '#') (Or.inr rfl) scheme rest0 hg
    have hlow : ∀ c : Byte, (if ch 'A' ≤ c ∧ c ≤ ch 'Z' then c + 32 else c) = ch '?' ∨
        (if ch 'A' ≤ c ∧ c ≤ ch 'Z' then c + 32 else c) = ch '#' → c = ch '?' ∨ c = ch '#' := by
      decide!
    have hrest0 : ch '#' ∉ rest0 := by
      rw [hk]
      exact fun hm => hs (List.mem_of_mem_drop hm)
    refine ⟨?_, ?_, ?_, ?_⟩
    · rw [hsch]
      intro hm
      simp only [strings.ToLower, List.mem_map] at hm
      obtain ⟨c, hc, hcq⟩ := hm
      rcases hlow c (Or.inl hcq) with rfl | rfl
      · exact hq hc
      · exact hh hc
    · rw [hsch]
      intro hm
      simp only [strings.ToLower, List.mem_map] at hm
      obtain ⟨c, hc, hcq⟩ := hm
      rcases hlow c (Or.inr hcq) with rfl | rfl
      · exact hq hc
      · exact hh hc
    · rcases hop with h0 | h0
      · simp [h0]
      · rw [h0]
        split_ifs with hf
        · simp only [Bool.and_eq_true, beq_iff_eq] at hf
          obtain ⟨hsuf, hcnt⟩ := hf
          have hl := (strings.HasSuffix_singleton rest0 (ch '?')).mp hsuf
          obtain ⟨ys, hys⟩ := List.getLast?_eq_some_iff.mp hl
          rw [hys] at hcnt ⊢
          simp only [strings.CountByte, List.count_append, List.count_singleton_self] at hcnt
          have : ys.count (ch '?') = 0 := by omega
          simpa using List.count_eq_zero.mp this
        · exact strings.Cut_fst_not_mem _ _
    · rcases hop with h0 | h0
      · simp [h0]
      · rw [h0]
        split_ifs with hf
        · exact fun hm => hrest0 (List.mem_of_mem_take hm)
        · exact fun hm => hrest0 (strings.Cut_fst_subset _ _ _ hm)

/-- The query that `Parse` reads from a text: what stands between the first `?`
and the first `#`. -/
theorem Parse_RawQuery (s : GoString) (v : URL) (h : Parse s = .ok v) :
    v.RawQuery =
      if (strings.HasSuffix (strings.Cut (ch '#') s).1 (str "?") &&
          strings.CountByte (strings.Cut (ch '#') s).1 (ch '?') == 1) = true then []
      else (strings.Cut (ch '?') (strings.Cut (ch '#') s).1).2.1 := by
  unfold Parse at h
  cases hp : parse (strings.Cut (ch '#') s).1 false with
  | error e => simp [hp] at h
  | ok u =>
    simp only [hp] at h
    rw [← parse_RawQuery _ u hp]
    split_ifs at h
    · injection h with h; rw [h]
    · exact (URL.setFragment_fields u v _ h).1

/-- The scheme and the opaque part of a parsed URL hold neither `?` nor `#`. -/
theorem Parse_clean (s : GoString) (v : URL) (h : Parse s = .ok v) :
    ch '?' ∉ v.Scheme ∧ ch '#' ∉ v.Scheme ∧ ch '?' ∉ v.Opaque ∧ ch '#' ∉ v.Opaque := by
  unfold Parse at h
  cases hp : parse (strings.Cut (ch '#') s).1 false with
  | error e => simp [hp] at h
  | ok u =>
    simp only [hp] at h
    have hc := parse_clean _ u hp (strings.Cut_fst_not_mem _ _)
    split_ifs at h
    · injection h with h; rw [← h]; exact hc
    · have := URL.setFragment_fields u v _ h
      rw [this.2.2.1, this.2.2.2]
      exact hc


theorem noDelim_nil : noDelim [] := by simp [noDelim]

theorem noDelim_append (a b : GoString) : noDelim (a ++ b) ↔ noDelim a ∧ noDelim b := by
  simp only [noDelim, List.mem_append, not_or]
  tauto

theorem noDelim_of_all (s : GoString)
    (h : s.all (fun x => x != ch '?' && x != ch '#') = true) : noDelim s := by
  rw [List.all_eq_true] at h
  constructor <;> intro hm <;> have := h _ hm <;> simp at this

theorem escapeByte_noDelim :
    ∀ c : Byte, ((escapeByte c encodeHost).all (fun x => x != ch '?' && x != ch '#') &&
      (escapeByte c encodeUserPassword).all (fun x => x != ch '?' && x != ch '#') &&
      (escapeByte c encodePath).all (fun x => x != ch '?' && x != ch '#')) = true := by
  decide!

theorem escape_noDelim (s : GoString) (mode : encoding)
    (hmode : mode = encodeHost ∨ mode = encodeUserPassword ∨ mode = encodePath) :
    noDelim (escape s mode) := by
  apply noDelim_of_all
  rw [List.all_eq_true]
  intro x hx
  simp only [escape, List.mem_flatMap] at hx
  obtain ⟨c, _, hc⟩ := hx
  have h := escapeByte_noDelim c
  simp only [Bool.and_eq_true] at h
  rcases hmode with rfl | rfl | rfl
  · exact List.all_eq_true.mp h.1.1 x hc
  · exact List.all_eq_true.mp h.1.2 x hc
  · exact List.all_eq_true.mp h.2 x hc

theorem Userinfo.String_noDelim (ui : Userinfo) : noDelim ui.String := by
  unfold Userinfo.String
  rw [noDelim_append]
  refine ⟨escape_noDelim _ _ (by simp), ?_⟩
  split_ifs
  · have : noDelim [ch ':'] := by unfold noDelim; decide!
    have h2 := (noDelim_append [ch ':'] (escape ui.password encodeUserPassword)).mpr
      ⟨this, escape_noDelim _ _ (by simp)⟩
    simpa using h2
  · exact noDelim_nil

theorem validEncoded_byte_noDelim :
    ∀ c : Byte, validEncoded [c] encodePath = true → c ≠ ch '?' ∧ c ≠ ch '#' := by
  decide!

theorem URL.EscapedPath_noDelim (u : URL) : noDelim u.EscapedPath := by
  unfold URL.EscapedPath
  split_ifs with h1 h2
  · have hv := h1.2.1
    constructor <;> intro hm
    · have : validEncoded [ch '?'] encodePath = true := by
        unfold validEncoded at hv ⊢
        rw [List.all_eq_true] at hv
        simpa using hv _ hm
      exact (validEncoded_byte_noDelim _ this).1 rfl
    · have : validEncoded [ch '#'] encodePath = true := by
        unfold validEncoded at hv ⊢
        rw [List.all_eq_true] at hv
        simpa using hv _ hm
      exact (validEncoded_byte_noDelim _ this).2 rfl
  · unfold noDelim; decide!
  · exact escape_noDelim _ _ (by simp)



/-- The text that `String` writes before the query holds neither `?` nor `#`, when
the scheme and the opaque part hold none. -/
theorem URL.stringHead_noDelim (u : URL) (hs : noDelim u.Scheme) (ho : noDelim u.Opaque) :
    noDelim u.stringHead := by
  have hcolon : noDelim [ch ':'] := by unfold noDelim; decide!
  have hat : noDelim [ch '@'] := by unfold noDelim; decide!
  have hsl : noDelim [ch '/'] := by unfold noDelim; decide!
  have hss : noDelim (str "//") := by unfold noDelim; decide!
  have hds : noDelim (str "./") := by unfold noDelim; decide!
  have hpath := URL.EscapedPath_noDelim u
  have hhost := escape_noDelim u.Host encodeHost (by simp)
  unfold URL.stringHead
  lift_lets
  intro buf0 b1 b2 b3 path buf2 buf3
  have h0 : noDelim buf0 := by
    simp only [buf0]
    split_ifs
    · exact (noDelim_append _ _).mpr ⟨hs, hcolon⟩
    · exact noDelim_nil
  have h1 : noDelim b1 := by
    simp only [b1]
    split_ifs
    · exact (noDelim_append _ _).mpr ⟨h0, hss⟩
    · exact h0
  have h2 : noDelim b2 := by
    simp only [b2]
    split
    · exact (noDelim_append _ _).mpr
        ⟨(noDelim_append _ _).mpr ⟨h1, Userinfo.String_noDelim _⟩, hat⟩
    · exact h1
  have h3 : noDelim b3 := by
    simp only [b3]
    split_ifs
    · exact h0
    · exact (noDelim_append _ _).mpr ⟨h2, hhost⟩
    · exact h2
    · exact h0
  have h4 : noDelim buf2 := by
    simp only [buf2]
    split_ifs
    · exact (noDelim_append _ _).mpr ⟨h3, hsl⟩
    · exact h3
  have h5 : noDelim buf3 := by
    simp only [buf3]
    split_ifs
    · exact (noDelim_append _ _).mpr ⟨h4, hds⟩
    · exact h4
  split_ifs
  · exact (noDelim_append _ _).mpr ⟨h0, ho⟩
  · exact (noDelim_append _ _).mpr ⟨h5, hpath⟩

/-- The query that `Parse` reads from the text of a URL whose scheme and opaque
part hold neither `?` nor `#` and whose query holds no `#`: the query of that
URL. -/
theorem Parse_String_RawQuery (u v : URL) (hs : noDelim u.Scheme) (ho : noDelim u.Opaque)
    (hq : ch '#' ∉ u.RawQuery) (h : Parse u.String = .ok v) : v.RawQuery = u.RawQuery := by
  have hhead := URL.stringHead_noDelim u hs ho
  rw [Parse_RawQuery _ _ h]
  -- the text up to the fragment
  have hcut : (strings.Cut (ch '#') u.String).1 =
      u.stringHead ++ (if u.ForceQuery ∨ u.RawQuery ≠ [] then ch '?' :: u.RawQuery else []) := by
    have hne : ch '#' ≠ ch '?' := by decide!
    have hclean : ch '#' ∉
        u.stringHead ++ (if u.ForceQuery ∨ u.RawQuery ≠ [] then ch '?' :: u.RawQuery else []) := by
      simp only [List.mem_append, not_or]
      refine ⟨hhead.2, ?_⟩
      split_ifs
      · simp only [List.mem_cons, not_or]
        exact ⟨hne, hq⟩
      · simp
    unfold URL.String
    by_cases hf : u.Fragment ≠ []
    · simp only [hf, if_true]
      have := strings.Cut_append_sep (ch '#') _ u.EscapedFragment hclean
      split_ifs at this ⊢ <;> simp_all [List.append_assoc]
    · simp only [hf, if_false]
      have := strings.Cut_of_not_mem (ch '#') _ hclean
      split_ifs at this ⊢ <;> simp_all [List.append_assoc]
  rw [hcut]
  by_cases hc : u.ForceQuery ∨ u.RawQuery ≠ []
  · simp only [hc, if_true]
    rw [strings.Cut_append_sep _ _ _ hhead.1]
    by_cases hr : u.RawQuery = []
    · simp [hr]
    · have hnot : ¬ ((strings.HasSuffix (u.stringHead ++ ch '?' :: u.RawQuery) (str "?") &&
          strings.CountByte (u.stringHead ++ ch '?' :: u.RawQuery) (ch '?') == 1) = true) := by
        simp only [Bool.and_eq_true, beq_iff_eq, not_and]
        intro hsuf hcnt
        have hs1 : str "?" = [ch '?'] := by decide!
        rw [hs1, strings.HasSuffix_singleton] at hsuf
        rw [List.getLast?_append_of_ne_nil _ (by simp)] at hsuf
        have hlast : u.RawQuery.getLast? = some (ch '?') := by
          cases hrq : u.RawQuery with
          | nil => exact absurd hrq hr
          | cons x xs => rw [hrq] at hsuf; simpa [List.getLast?_cons_cons] using hsuf
        have hmem := List.mem_of_getLast?_eq_some hlast
        have hpos : 0 < u.RawQuery.count (ch '?') := List.count_pos_iff.mpr hmem
        simp only [strings.CountByte, List.count_append, List.count_cons_self] at hcnt
        omega
      simp [hnot]
  · simp only [hc, if_false, List.append_nil]
    have hr : u.RawQuery = [] := by
      by_contra hne
      exact hc (Or.inr hne)
    rw [strings.Cut_of_not_mem _ _ hhead.1, hr]
    simp


theorem Values.Encode_no_hash (v : Values) : ch '#' ∉ Values.Encode v := by
  rw [Values.Encode_eq_Join]
  have hne1 : ch '#' ≠ ch '=' := by decide!
  have hne2 : ch '#' ≠ ch '&' := by decide!
  have hpair : ∀ kv : GoString × GoString,
      ch '#' ∉ QueryEscape kv.1 ++ ch '=' :: QueryEscape kv.2 := by
    intro kv hm
    simp only [List.mem_append, List.mem_cons] at hm
    rcases hm with hx | hx | hx
    · exact (QueryEscape_clean _ _ hx).2.2.2.2 rfl
    · exact hne1 hx
    · exact (QueryEscape_clean _ _ hx).2.2.2.2 rfl
  generalize v.pairs = kvs
  cases kvs with
  | nil => simp [strings.Join]
  | cons kv rest =>
    intro hm
    simp only [List.map_cons, strings.Join, List.mem_append, List.mem_flatMap,
      List.mem_map] at hm
    rcases hm with hx | ⟨x, ⟨kv2, _, rfl⟩, hx⟩
    · exact hpair kv (by simpa using hx)
    · rcases hx with hx | hx
      · exact hne2 (by simpa using hx)
      · exact hpair kv2 (by simpa using hx)

theorem URL.ResolveReference_noDelim (u ref : URL) (hus : noDelim u.Scheme)
    (huo : noDelim u.Opaque) (hrs : noDelim ref.Scheme) (hro : noDelim ref.Opaque) :
    noDelim (u.ResolveReference ref).Scheme ∧ noDelim (u.ResolveReference ref).Opaque := by
  have hf := URL.setPathIgnoringError_fields
  unfold URL.ResolveReference
  split_ifs <;> simp_all [hf, noDelim_nil]

end url


/-! ## The request's URL: scheme, host and path of the text parsed again -/

namespace url

open encoding

/-! ### Decoding is the same in every mode but the query's -/

theorem unescape_path_cons (c : Byte) (rest : GoString) (hc : c ≠ ch '%') :
    unescape (c :: rest) encodePath =
      match unescape rest encodePath with
      | .ok t => .ok (c :: t)
      | .error e => .error e := by
  conv => lhs; unfold unescape
  by_cases hp : c = ch '+'
  · subst hp
    simp only [hc, if_false, if_true]
    have : (if encodePath = encodeQueryComponent then ch ' ' else ch '+') = ch '+' := by
      simp
    simp only [this]
  · have hm : ¬ ((encodePath = encodeHost ∨ encodePath = encodeZone) ∧ c.val < 0x80 ∧
        shouldEscape c encodeHost = true) := by
      rintro ⟨h | h, _⟩ <;> cases h
    simp only [hc, hp, if_false, hm]

theorem unescape_path_percent (a b : Byte) (rest : GoString) :
    unescape (ch '%' :: a :: b :: rest) encodePath =
      if !ishex a || !ishex b then .error (.escapeError [ch '%', a, b])
      else
        match unescape rest encodePath with
        | .ok t => .ok (hexByte a b :: t)
        | .error e => .error e := by
  conv => lhs; unfold unescape
  have h1 : ¬ (encodePath = encodeHost ∧ (unhex a).val < 8 ∧ [ch '%', a, b] ≠ str "%25") := by
    rintro ⟨h, _⟩; cases h
  have h2 : ¬ (encodePath = encodeZone ∧ [ch '%', a, b] ≠ str "%25" ∧ hexByte a b ≠ ch ' ' ∧
      shouldEscape (hexByte a b) encodeHost = true) := by
    rintro ⟨h, _⟩; cases h
  simp only [if_true, h1, h2, if_false]

/-- What `unescape` returns in the mode of a host, a zone, a user name, a path or a
fragment, it also returns in the mode of a path: the modes differ in what they
reject, and the query's in how it reads `+`. -/
theorem unescape_path_of_ok (mode : encoding) (hm : mode ≠ encodeQueryComponent) :
    ∀ (n : Nat) (s t : GoString), s.length ≤ n → unescape s mode = .ok t →
      unescape s encodePath = .ok t := by
  intro n
  induction n with
  | zero =>
    intro s t hs h
    have : s = [] := List.length_eq_zero.mp (Nat.le_zero.mp hs)
    subst this
    simpa [unescape] using h
  | succ n ih =>
    intro s t hs h
    match s, hs with
    | [], _ => simpa [unescape] using h
    | c :: rest, hs =>
      unfold unescape at h
      by_cases hc : c = ch '%'
      · subst hc
        simp only [if_true] at h
        match rest, hs with
        | [], _ => simp at h
        | [a], _ => simp at h
        | a :: b :: rest2, hs =>
          simp only at h
          rw [unescape_path_percent]
          split_ifs at h with g1 g2 g3
          simp only [g1, if_false, Bool.false_eq_true]
          cases hr : unescape rest2 mode with
          | error e => simp [hr] at h
          | ok t2 =>
            simp only [hr, Except.ok.injEq] at h
            rw [ih rest2 t2 (by simp at hs; omega) hr, ← h]
      · simp only [hc, if_false] at h
        rw [unescape_path_cons _ _ hc]
        split_ifs at h with g1 g2
        · cases hr : unescape rest mode with
          | error e => simp [hr] at h
          | ok t2 =>
            simp only [hr, Except.ok.injEq, hm, if_false] at h
            rw [ih rest t2 (by simp at hs; omega) hr, ← h, g1]
        · cases hr : unescape rest mode with
          | error e => simp [hr] at h
          | ok t2 =>
            simp only [hr, Except.ok.injEq] at h
            rw [ih rest t2 (by simp at hs; omega) hr, ← h]

theorem unescape_path_append :
    ∀ (n : Nat) (a b ta tb : GoString), a.length ≤ n → unescape a encodePath = .ok ta →
      unescape b encodePath = .ok tb → unescape (a ++ b) encodePath = .ok (ta ++ tb) := by
  intro n
  induction n with
  | zero =>
    intro a b ta tb ha h1 h2
    have : a = [] := List.length_eq_zero.mp (Nat.le_zero.mp ha)
    subst this
    simp only [unescape, Except.ok.injEq] at h1
    subst h1
    simpa using h2
  | succ n ih =>
    intro a b ta tb ha h1 h2
    match a, ha with
    | [], _ =>
      simp only [unescape, Except.ok.injEq] at h1
      subst h1
      simpa using h2
    | c :: rest, ha =>
      by_cases hc : c = ch '%'
      · subst hc
        match rest, ha with
        | [], _ => simp [unescape] at h1
        | [a1], _ => simp [unescape] at h1
        | a1 :: b1 :: rest2, ha =>
          rw [unescape_path_percent] at h1
          simp only [List.cons_append]
          rw [unescape_path_percent]
          split_ifs at h1 with g1
          simp only [g1, if_false, Bool.false_eq_true]
          cases hr : unescape rest2 encodePath with
          | error e => simp [hr] at h1
          | ok t2 =>
            simp only [hr, Except.ok.injEq] at h1
            rw [ih rest2 b t2 tb (by simp at ha; omega) hr h2, ← h1]
            rfl
      · rw [unescape_path_cons _ _ hc] at h1
        simp only [List.cons_append]
        rw [unescape_path_cons _ _ hc]
        cases hr : unescape rest encodePath with
        | error e => simp [hr] at h1
        | ok t2 =>
          simp only [hr, Except.ok.injEq] at h1
          rw [ih rest b t2 tb (by simp at ha; omega) hr h2, ← h1]
          rfl

/-- Escaping, in the mode of a host, a user name or a path, is undone by decoding. -/
theorem unescape_escapeByte :
    ∀ c : Byte, (unescape (escapeByte c encodeHost) encodePath == .ok [c] &&
      unescape (escapeByte c encodePath) encodePath == .ok [c] &&
      unescape (escapeByte c encodeUserPassword) encodePath == .ok [c]) = true := by
  decide!

theorem unescape_escape (s : GoString) (mode : encoding)
    (hmode : mode = encodeHost ∨ mode = encodePath ∨ mode = encodeUserPassword) :
    unescape (escape s mode) encodePath = .ok s := by
  induction s with
  | nil => rfl
  | cons c s ih =>
    have hcons : escape (c :: s) mode = escapeByte c mode ++ escape s mode := by
      simp [escape]
    have hb : unescape (escapeByte c mode) encodePath = .ok [c] := by
      have h := unescape_escapeByte c
      simp only [Bool.and_eq_true, beq_iff_eq] at h
      rcases hmode with rfl | rfl | rfl
      · exact h.1.1
      · exact h.1.2
      · exact h.2
    rw [hcons]
    exact unescape_path_append _ _ _ _ _ (Nat.le_refl _) hb ih

end url

namespace strings

theorem Index_le (s sub : GoString) (k : Nat) (h : Index s sub = some k) : k ≤ s.length := by
  induction s generalizing k with
  | nil =>
    unfold Index at h
    split_ifs at h
    simp only [Option.some.injEq] at h
    omega
  | cons x xs ih =>
    unfold Index at h
    split_ifs at h
    · simp only [Option.some.injEq] at h
      omega
    · cases hi : Index xs sub with
      | none => simp [hi] at h
      | some j =>
        simp only [hi, Option.map_some', Option.some.injEq] at h
        have := ih j hi
        simp only [List.length_cons]
        omega

theorem LastIndexByte_of_not_mem (s : GoString) (c : Byte) (h : c ∉ s) :
    LastIndexByte s c = none := by
  induction s with
  | nil => rfl
  | cons x xs ih =>
    have hx : x ≠ c := fun e => h (by simp [e])
    have hxs : c ∉ xs := fun m => h (by simp [m])
    simp [LastIndexByte, ih hxs, hx]

theorem LastIndexByte_append (a b : GoString) (c : Byte) (h : c ∉ b) :
    LastIndexByte (a ++ c :: b) c = some a.length := by
  induction a with
  | nil => simp [LastIndexByte, LastIndexByte_of_not_mem b c h]
  | cons x xs ih => simp [LastIndexByte, ih]

theorem IndexByte_append (a b : GoString) (c : Byte) (h : c ∉ a) :
    IndexByte (a ++ c :: b) c = some a.length := by
  induction a with
  | nil => simp [IndexByte]
  | cons x xs ih =>
    have hx : x ≠ c := fun e => h (by simp [e])
    have hxs : c ∉ xs := fun m => h (by simp [m])
    simp [IndexByte, hx, ih hxs]

end strings

namespace url

open encoding

/-- The host that `parseHost` reads from an escaped host is that host. -/
theorem parseHost_escape (hst host : GoString)
    (h : parseHost (escape hst encodeHost) = .ok host) : host = hst := by
  have hdec := unescape_escape hst encodeHost (Or.inl rfl)
  have hplain : unescape (escape hst encodeHost) encodeHost = .ok host → host = hst := by
    intro hp
    have := unescape_path_of_ok encodeHost (by decide) _ _ _ (Nat.le_refl _) hp
    rw [hdec] at this
    injection this with this
    exact this.symm
  generalize escape hst encodeHost = E at h hdec hplain
  unfold parseHost at h
  split_ifs at h with hb
  · cases hl : strings.LastIndexByte E (ch ']') with
    | none => simp [hl] at h
    | some i =>
      simp only [hl] at h
      split_ifs at h with hport
      cases hz : strings.Index (E.take i) (str "%25") with
      | none =>
        simp only [hz] at h
        exact hplain h
      | some zone =>
        simp only [hz] at h
        cases h1 : unescape (E.take zone) encodeHost with
        | error e => simp [h1] at h
        | ok host1 =>
          simp only [h1] at h
          cases h2 : unescape ((E.take i).drop zone) encodeZone with
          | error e => simp [h2] at h
          | ok host2 =>
            simp only [h2] at h
            cases h3 : unescape (E.drop i) encodeHost with
            | error e => simp [h3] at h
            | ok host3 =>
              simp only [h3, Except.ok.injEq] at h
              have hzle : zone ≤ i := by
                have := strings.Index_le _ _ _ hz
                simp only [List.length_take] at this
                omega
              have p1 := unescape_path_of_ok encodeHost (by decide) _ _ _ (Nat.le_refl _) h1
              have p2 := unescape_path_of_ok encodeZone (by decide) _ _ _ (Nat.le_refl _) h2
              have p3 := unescape_path_of_ok encodeHost (by decide) _ _ _ (Nat.le_refl _) h3
              have p12 := unescape_path_append _ _ _ _ _ (Nat.le_refl _) p1 p2
              have p123 := unescape_path_append _ _ _ _ _ (Nat.le_refl _) p12 p3
              have hE : E.take zone ++ (E.take i).drop zone ++ E.drop i = E := by
                have : E.take zone = (E.take i).take zone := by
                  rw [List.take_take, Nat.min_eq_left hzle]
                rw [this, List.take_append_drop, List.take_append_drop]
              rw [hE, hdec] at p123
              injection p123 with p123
              rw [← h, ← p123]
  · cases hl : strings.LastIndexByte E (ch ':') with
    | none =>
      simp only [hl] at h
      exact hplain h
    | some i =>
      simp only [hl] at h
      split_ifs at h with hport
      exact hplain h

theorem escapeByte_host_clean :
    ∀ c : Byte, ((escapeByte c encodeHost).all
      (fun x => x != ch '@' && x != ch '/' && x != ch '?' && x != ch '#') &&
      (escapeByte c encodeUserPassword).all
      (fun x => x != ch '@' && x != ch '/' && x != ch '?' && x != ch '#' && x != ch ':')) =
      true := by
  decide!

theorem escape_host_clean (s : GoString) (x : Byte) (hx : x ∈ escape s encodeHost) :
    x ≠ ch '@' ∧ x ≠ ch '/' ∧ x ≠ ch '?' ∧ x ≠ ch '#' := by
  simp only [escape, List.mem_flatMap] at hx
  obtain ⟨c, _, hc⟩ := hx
  have h := escapeByte_host_clean c
  simp only [Bool.and_eq_true] at h
  have := List.all_eq_true.mp h.1 x hc
  simpa [and_assoc] using this

theorem escape_user_clean (s : GoString) (x : Byte) (hx : x ∈ escape s encodeUserPassword) :
    x ≠ ch '@' ∧ x ≠ ch '/' ∧ x ≠ ch '?' ∧ x ≠ ch '#' ∧ x ≠ ch ':' := by
  simp only [escape, List.mem_flatMap] at hx
  obtain ⟨c, _, hc⟩ := hx
  have h := escapeByte_host_clean c
  simp only [Bool.and_eq_true] at h
  have := List.all_eq_true.mp h.2 x hc
  simpa [and_assoc] using this

/-- The host that `parseAuthority` reads from `userinfo@host`, as `String` writes
it, is that host. -/
theorem parseAuthority_host (user : Option Userinfo) (hst : GoString)
    (user2 : Option Userinfo) (host : GoString)
    (h : parseAuthority ((match user with
        | some ui => ui.String ++ [ch '@']
        | none => []) ++ escape hst encodeHost) = .ok (user2, host)) : host = hst := by
  have hat : ch '@' ∉ escape hst encodeHost := fun hm => (escape_host_clean _ _ hm).1 rfl
  unfold parseAuthority at h
  cases user with
  | none =>
    simp only [List.nil_append, strings.LastIndexByte_of_not_mem _ _ hat] at h
    cases hp : parseHost (escape hst encodeHost) with
    | error e => simp [hp] at h
    | ok host0 =>
      simp only [hp, Except.ok.injEq, Prod.mk.injEq] at h
      rw [← h.2]
      exact parseHost_escape hst host0 hp
  | some ui =>
    simp only [List.append_assoc, List.singleton_append,
      strings.LastIndexByte_append _ _ _ hat, List.drop_left'] at h
    have hd : List.drop (ui.String.length + 1) (ui.String ++ ch '@' :: escape hst encodeHost) =
        escape hst encodeHost := by
      rw [show ui.String ++ ch '@' :: escape hst encodeHost =
        (ui.String ++ [ch '@']) ++ escape hst encodeHost by simp]
      exact List.drop_left' (by simp)
    rw [hd] at h
    cases hp : parseHost (escape hst encodeHost) with
    | error e => simp [hp] at h
    | ok host0 =>
      have h0 := parseHost_escape hst host0 hp
      simp only [hp] at h
      split_ifs at h
      · split at h
        · cases h
        · simp only [Except.ok.injEq, Prod.mk.injEq] at h
          rw [← h.2, h0]
      · split at h
        · cases h
        · split at h
          · cases h
          · simp only [Except.ok.injEq, Prod.mk.injEq] at h
            rw [← h.2, h0]

end url

namespace url

open encoding

theorem lowerScheme_byte :
    ∀ b : Byte, ((ch 'a' ≤ b && b ≤ ch 'z') || (ch '0' ≤ b && b ≤ ch '9') || b == ch '+' ||
        b == ch '-' || b == ch '.') = true →
      (((ch 'a' ≤ b ∧ b ≤ ch 'z') ∨ (ch 'A' ≤ b ∧ b ≤ ch 'Z')) ∨
        ((ch '0' ≤ b ∧ b ≤ ch '9') ∨ b = ch '+' ∨ b = ch '-' ∨ b = ch '.')) ∧
      ¬ (ch 'A' ≤ b ∧ b ≤ ch 'Z') ∧ b ≠ ch '?' ∧ b ≠ ch '#' := by
  decide!

theorem lowerScheme_head :
    ∀ b : Byte, (ch 'a' ≤ b && b ≤ ch 'z') = true →
      ((ch 'a' ≤ b ∧ b ≤ ch 'z') ∨ (ch 'A' ≤ b ∧ b ≤ ch 'Z')) ∧
      ¬ (ch 'A' ≤ b ∧ b ≤ ch 'Z') ∧ b ≠ ch '?' ∧ b ≠ ch '#' := by
  decide!

theorem getSchemeLoop_scheme (r : GoString) (suf : GoString) :
    ∀ pre : GoString, pre ≠ [] →
      (∀ b ∈ suf, ((ch 'a' ≤ b && b ≤ ch 'z') || (ch '0' ≤ b && b ≤ ch '9') || b == ch '+' ||
        b == ch '-' || b == ch '.') = true) →
      getSchemeLoop (pre ++ suf ++ ch ':' :: r) pre.length (suf ++ ch ':' :: r) =
        .ok (pre ++ suf, r) := by
  induction suf with
  | nil =>
    intro pre hpre _
    have hlen : pre.length ≠ 0 := by
      intro h; exact hpre (List.length_eq_zero.mp h)
    have c1 : ¬ ((ch 'a' ≤ ch ':' ∧ ch ':' ≤ ch 'z') ∨ (ch 'A' ≤ ch ':' ∧ ch ':' ≤ ch 'Z')) := by
      decide!
    have c2 : ¬ ((ch '0' ≤ ch ':' ∧ ch ':' ≤ ch '9') ∨ ch ':' = ch '+' ∨ ch ':' = ch '-' ∨
        ch ':' = ch '.') := by decide!
    simp only [List.append_nil, List.nil_append, getSchemeLoop, c1, c2, if_false, if_true, hlen]
    simp
  | cons b suf ih =>
    intro pre hpre hall
    have hb := lowerScheme_byte b (hall b (by simp))
    have hrec := ih (pre ++ [b]) (by simp) (fun x hx => hall x (by simp [hx]))
    simp only [List.append_assoc, List.singleton_append, List.length_append, List.length_singleton]
      at hrec
    have hlen : pre.length ≠ 0 := by
      intro h; exact hpre (List.length_eq_zero.mp h)
    simp only [List.cons_append, getSchemeLoop]
    rcases hb.1 with h1 | h2
    · simp only [h1, if_true]
      simpa using hrec
    · by_cases h1 : (ch 'a' ≤ b ∧ b ≤ ch 'z') ∨ (ch 'A' ≤ b ∧ b ≤ ch 'Z')
      · simp only [h1, if_true]
        simpa using hrec
      · simp only [h1, if_false, h2, if_true, hlen]
        simpa using hrec

/-- What `getScheme` reads from `scheme:rest`, for a well-formed lower-case scheme. -/
theorem getScheme_lowerScheme (sch r : GoString) (h : lowerScheme sch = true) :
    getScheme (sch ++ ch ':' :: r) = .ok (sch, r) ∧ strings.ToLower sch = sch ∧
      noDelim sch ∧ sch ≠ [] := by
  cases sch with
  | nil => simp [lowerScheme] at h
  | cons c rest =>
    simp only [lowerScheme, Bool.and_eq_true, List.all_eq_true] at h
    have hc := lowerScheme_head c (by simpa using h.1)
    have hrest : ∀ b ∈ rest, ((ch 'a' ≤ b && b ≤ ch 'z') || (ch '0' ≤ b && b ≤ ch '9') ||
        b == ch '+' || b == ch '-' || b == ch '.') = true := fun b hb => h.2 b hb
    refine ⟨?_, ?_, ?_, by simp⟩
    · have := getSchemeLoop_scheme r rest [c] (by simp) hrest
      unfold getScheme
      simp only [List.cons_append, getSchemeLoop, hc.1, if_true]
      simpa using this
    · unfold strings.ToLower
      simp only [List.map_cons, hc.2.1, if_false, List.cons.injEq, true_and]
      conv => rhs; rw [← List.map_id rest]
      apply List.map_congr_left
      intro b hb
      have := (lowerScheme_byte b (hrest b hb)).2.1
      simp [this]
    · constructor
      · intro hm
        simp only [List.mem_cons] at hm
        rcases hm with e | hm
        · exact hc.2.2.1 e.symm
        · exact (lowerScheme_byte _ (hrest _ hm)).2.2.1 rfl
      · intro hm
        simp only [List.mem_cons] at hm
        rcases hm with e | hm
        · exact hc.2.2.2 e.symm
        · exact (lowerScheme_byte _ (hrest _ hm)).2.2.2 rfl

end url

namespace url

open encoding

theorem URL.setPath_ok (u v : URL) (p : GoString) (h : u.setPath p = .ok v) :
    unescape p encodePath = .ok v.Path ∧ v.Host = u.Host ∧ v.Scheme = u.Scheme ∧
      v.User = u.User := by
  unfold URL.setPath at h
  cases hu : unescape p encodePath with
  | error e => simp [hu] at h
  | ok path =>
    simp only [hu] at h
    split_ifs at h <;> injection h with h <;> subst h <;> exact ⟨rfl, rfl, rfl, rfl⟩

/-- The text that `parse` takes for the part before the query, when that part holds
no `?`. -/
theorem parse_rest (head qpart : GoString) (hh : ch '?' ∉ head)
    (hq : qpart = [] ∨ ∃ q, qpart = ch '?' :: q) :
    (if (strings.HasSuffix (head ++ qpart) (str "?") &&
        strings.CountByte (head ++ qpart) (ch '?') == 1) = true
      then (head ++ qpart).take ((head ++ qpart).length - 1)
      else (strings.Cut (ch '?') (head ++ qpart)).1) = head := by
  have hs1 : str "?" = [ch '?'] := by decide!
  rcases hq with rfl | ⟨q, rfl⟩
  · rw [List.append_nil]
    have : strings.HasSuffix head (str "?") = false := by
      rw [hs1, Bool.eq_false_iff]
      intro hsuf
      rw [strings.HasSuffix_singleton] at hsuf
      exact hh (List.mem_of_getLast?_eq_some hsuf)
    simp [this, strings.Cut_of_not_mem _ _ hh]
  · split_ifs with hf
    · simp only [Bool.and_eq_true, beq_iff_eq] at hf
      obtain ⟨hsuf, hcnt⟩ := hf
      simp only [strings.CountByte, List.count_append, List.count_cons_self,
        List.count_eq_zero_of_not_mem hh] at hcnt
      have hq0 : ch '?' ∉ q := by
        have : q.count (ch '?') = 0 := by omega
        exact List.count_eq_zero.mp this
      have hqe : q = [] := by
        rw [hs1, strings.HasSuffix_singleton,
          List.getLast?_append_of_ne_nil _ (by simp)] at hsuf
        cases q with
        | nil => rfl
        | cons x xs =>
          rw [List.getLast?_cons_cons] at hsuf
          exact absurd (List.mem_of_getLast?_eq_some hsuf) hq0
      subst hqe
      simp
    · rw [strings.Cut_append_sep _ _ _ hh]

/-- What `parse` reads from `scheme://authority/path?query`: the scheme, the
authority and the path that were written. -/
theorem parse_absolute (sch auth path qpart : GoString) (v : URL)
    (hsch : lowerScheme sch = true) (ha1 : ch '/' ∉ auth) (ha2 : ch '?' ∉ auth)
    (hp1 : path.head? = some (ch '/')) (hp2 : ch '?' ∉ path)
    (hq : qpart = [] ∨ ∃ q, qpart = ch '?' :: q)
    (h : parse (sch ++ ch ':' :: ((ch '/' :: ch '/' :: (auth ++ path)) ++ qpart)) false = .ok v) :
    v.Scheme = sch ∧ (∃ user, parseAuthority auth = .ok (user, v.Host)) ∧
      unescape path encodePath = .ok v.Path := by
  obtain ⟨hg, hlow, hnd, hne⟩ :=
    getScheme_lowerScheme sch ((ch '/' :: ch '/' :: (auth ++ path)) ++ qpart) hsch
  have hqs : ch '?' ≠ ch '/' := by decide!
  have hhead : ch '?' ∉ ch '/' :: ch '/' :: (auth ++ path) := by
    simp only [List.mem_cons, List.mem_append, not_or]
    exact ⟨hqs, hqs, ha2, hp2⟩
  have hrest := parse_rest _ qpart hhead hq
  obtain ⟨p', hp'⟩ : ∃ p', path = ch '/' :: p' := by
    cases path with
    | nil => simp at hp1
    | cons x xs =>
      simp only [List.head?_cons, Option.some.injEq] at hp1
      exact ⟨xs, by rw [hp1]⟩
  have hidx : strings.IndexByte (auth ++ path) (ch '/') = some auth.length := by
    rw [hp']
    exact strings.IndexByte_append _ _ _ ha1
  have hstar : sch ++ ch ':' :: ((ch '/' :: ch '/' :: (auth ++ path)) ++ qpart) ≠ str "*" := by
    intro he
    have := congrArg List.length he
    have h1 : (str "*").length = 1 := by decide!
    rw [h1] at this
    cases sch with
    | nil => exact hne rfl
    | cons c cs => simp at this
  have hpre1 : strings.HasPrefix (ch '/' :: ch '/' :: (auth ++ path)) (str "/") = true := by
    have : str "/" = [ch '/'] := by decide!
    rw [strings.HasPrefix, this]
    simp [List.isPrefixOf]
  have hpre2 : strings.HasPrefix (ch '/' :: ch '/' :: (auth ++ path)) (str "//") = true := by
    have : str "//" = [ch '/', ch '/'] := by decide!
    rw [strings.HasPrefix, this]
    simp [List.isPrefixOf]
  unfold parse at h
  by_cases hctl : stringContainsCTLByte
      (sch ++ ch ':' :: ((ch '/' :: ch '/' :: (auth ++ path)) ++ qpart)) = true
  · simp only [hctl, if_true] at h
    cases h
  simp only [hctl, hstar, if_false, Bool.false_eq_true, and_false, hg] at h
  by_cases hforced : (strings.HasSuffix ((ch '/' :: ch '/' :: (auth ++ path)) ++ qpart) (str "?") &&
      strings.CountByte ((ch '/' :: ch '/' :: (auth ++ path)) ++ qpart) (ch '?') == 1) = true
  · simp only [hforced, if_true] at hrest
    simp only [hforced, hrest, hpre1, hpre2, hlow, hne, List.drop_succ_cons,
      List.drop_zero, hidx, List.take_left', List.drop_left', Bool.not_true, Bool.false_eq_true,
      false_and, if_false, ne_eq, not_false_eq_true, true_or, and_true, true_and, if_true] at h
    cases hpa : parseAuthority auth with
    | error e => simp [hpa] at h
    | ok p =>
      obtain ⟨user, host⟩ := p
      simp only [hpa] at h
      have hs := URL.setPath_ok _ _ _ h
      exact ⟨hs.2.2.1, ⟨user, by rw [hs.2.1]⟩, hs.1⟩
  · simp only [hforced, Bool.false_eq_true, if_false] at hrest
    simp only [hforced, hrest, hpre1, hpre2, hlow, hne, List.drop_succ_cons,
      List.drop_zero, hidx, List.take_left', List.drop_left', Bool.not_true, Bool.false_eq_true,
      false_and, if_false, ne_eq, not_false_eq_true, true_or, and_true, true_and, if_true] at h
    cases hpa : parseAuthority auth with
    | error e => simp [hpa] at h
    | ok p =>
      obtain ⟨user, host⟩ := p
      simp only [hpa] at h
      have hs := URL.setPath_ok _ _ _ h
      exact ⟨hs.2.2.1, ⟨user, by rw [hs.2.1]⟩, hs.1⟩

end url

namespace url

open encoding

theorem URL.setFragment_head (u v : URL) (f : GoString) (h : u.setFragment f = .ok v) :
    v.Scheme = u.Scheme ∧ v.Host = u.Host ∧ v.Path = u.Path := by
  unfold URL.setFragment at h
  cases hu : unescape f encodeFragment with
  | error e => simp [hu] at h
  | ok path =>
    simp only [hu] at h
    split_ifs at h <;> injection h with h <;> subst h <;> exact ⟨rfl, rfl, rfl⟩

/-- The text that `String` writes before the query, for a URL with a scheme, no
opaque part and a path that starts with `/`: `scheme://userinfo@host/path`. -/
theorem URL.stringHead_absolute (u : URL) (hsch : u.Scheme ≠ []) (ho : u.Opaque = [])
    (homit : ¬ (u.OmitHost = true ∧ u.Host = [] ∧ u.User = none)) (hp : u.Path ≠ [])
    (hhead : u.EscapedPath.head? = some (ch '/')) :
    u.stringHead = u.Scheme ++ ch ':' :: (ch '/' :: ch '/' ::
      ((match u.User with
        | some ui => ui.String ++ [ch '@']
        | none => []) ++ escape u.Host encodeHost ++ u.EscapedPath)) := by
  have hss : str "//" = [ch '/', ch '/'] := by decide!
  have hesc : (if u.Host ≠ [] then escape u.Host encodeHost else []) = escape u.Host encodeHost := by
    split_ifs with hh
    · rfl
    · rw [not_not.mp hh]; rfl
  unfold URL.stringHead
  simp only [hsch, ho, ne_eq, not_true_eq_false, not_false_eq_true, if_true, if_false, true_or,
    homit, hp, or_true, hhead, false_and, and_false, hss]
  have hlen : ∀ x : GoString, (u.Scheme ++ x).length ≠ 0 := by
    intro x hx
    exact hsch (List.append_eq_nil.mp (List.length_eq_zero.mp hx)).1
  cases hu : u.User with
  | none =>
    by_cases hh : u.Host = []
    · simp [hh, escape, hsch]
    · simp [hh, hsch]
  | some ui =>
    by_cases hh : u.Host = []
    · simp [hh, escape, hsch]
    · simp [hh, hsch]

/-- The text of a URL up to its fragment. -/
theorem URL.String_cut (u : URL) (hs : noDelim u.Scheme) (ho : noDelim u.Opaque)
    (hq : ch '#' ∉ u.RawQuery) :
    (strings.Cut (ch '#') u.String).1 =
      u.stringHead ++ (if u.ForceQuery ∨ u.RawQuery ≠ [] then ch '?' :: u.RawQuery else []) := by
  have hhead := URL.stringHead_noDelim u hs ho
  have hne : ch '#' ≠ ch '?' := by decide!
  have hclean : ch '#' ∉
      u.stringHead ++ (if u.ForceQuery ∨ u.RawQuery ≠ [] then ch '?' :: u.RawQuery else []) := by
    simp only [List.mem_append, not_or]
    refine ⟨hhead.2, ?_⟩
    split_ifs
    · simp only [List.mem_cons, not_or]
      exact ⟨hne, hq⟩
    · simp
  unfold URL.String
  by_cases hf : u.Fragment ≠ []
  · simp only [hf, if_true]
    have := strings.Cut_append_sep (ch '#') _ u.EscapedFragment hclean
    split_ifs at this ⊢ <;> simp_all [List.append_assoc]
  · simp only [hf, if_false]
    have := strings.Cut_of_not_mem (ch '#') _ hclean
    split_ifs at this ⊢ <;> simp_all [List.append_assoc]

/-- Parsing the text of a URL again gives back its scheme, its host and its path,
for a URL with a well-formed lower-case scheme, no opaque part and a path that
starts with `/`. -/
theorem Parse_String_head (u v : URL) (hsch : lowerScheme u.Scheme = true) (ho : u.Opaque = [])
    (homit : ¬ (u.OmitHost = true ∧ u.Host = [] ∧ u.User = none)) (hp : u.Path ≠ [])
    (hhead : u.EscapedPath.head? = some (ch '/')) (hq : ch '#' ∉ u.RawQuery)
    (h : Parse u.String = .ok v) :
    v.Scheme = u.Scheme ∧ v.Host = u.Host ∧ unescape u.EscapedPath encodePath = .ok v.Path := by
  obtain ⟨_, _, hnd, hne⟩ := getScheme_lowerScheme u.Scheme [] hsch
  have hcut := URL.String_cut u hnd (by rw [ho]; exact noDelim_nil) hq
  rw [URL.stringHead_absolute u hne ho homit hp hhead] at hcut
  have hauth : ∀ x ∈ (match u.User with
      | some ui => ui.String ++ [ch '@']
      | none => []) ++ escape u.Host encodeHost, x ≠ ch '/' ∧ x ≠ ch '?' := by
    have c1 : ch ':' ≠ ch '/' ∧ ch ':' ≠ ch '?' := by decide!
    have c2 : ch '@' ≠ ch '/' ∧ ch '@' ≠ ch '?' := by decide!
    intro x hx
    rw [List.mem_append] at hx
    rcases hx with hx | hx
    · cases hu : u.User with
      | none => rw [hu] at hx; simp at hx
      | some ui =>
        rw [hu] at hx
        simp only [Userinfo.String, List.append_assoc, List.mem_append, List.mem_singleton] at hx
        rcases hx with hx | hx | hx
        · have := escape_user_clean _ _ hx
          exact ⟨this.2.1, this.2.2.1⟩
        · split_ifs at hx
          · simp only [List.mem_cons] at hx
            rcases hx with rfl | hx
            · exact c1
            · have := escape_user_clean _ _ hx
              exact ⟨this.2.1, this.2.2.1⟩
          · simp at hx
        · rw [hx]; exact c2
    · have := escape_host_clean _ _ hx
      exact ⟨this.2.1, this.2.2.1⟩
  have hqpart : (if u.ForceQuery ∨ u.RawQuery ≠ [] then ch '?' :: u.RawQuery else []) = [] ∨
      ∃ q, (if u.ForceQuery ∨ u.RawQuery ≠ [] then ch '?' :: u.RawQuery else []) = ch '?' :: q := by
    split_ifs
    · exact Or.inr ⟨_, rfl⟩
    · exact Or.inl rfl
  obtain ⟨T, hT⟩ : ∃ T, T = u.Scheme ++ ch ':' :: (ch '/' :: ch '/' ::
      ((match u.User with
        | some ui => ui.String ++ [ch '@']
        | none => []) ++ escape u.Host encodeHost ++ u.EscapedPath)) ++
      (if u.ForceQuery ∨ u.RawQuery ≠ [] then ch '?' :: u.RawQuery else []) := ⟨_, rfl⟩
  rw [← hT] at hcut
  unfold Parse at h
  simp only [hcut] at h
  cases hp0 : parse T false with
  | error e => simp only [hp0] at h; cases h
  | ok v0 =>
    have hp1 := hp0
    rw [hT, List.append_assoc, List.cons_append] at hp1
    obtain ⟨h1, ⟨user, h2⟩, h3⟩ := parse_absolute u.Scheme _ u.EscapedPath _ v0 hsch
      (fun hm => (hauth _ hm).1 rfl) (fun hm => (hauth _ hm).2 rfl) hhead
      (URL.EscapedPath_noDelim u).1 hqpart hp1
    have h4 := parseAuthority_host u.User u.Host user v0.Host h2
    simp only [hp0] at h
    split_ifs at h
    · injection h with h
      subst h
      exact ⟨h1, h4, h3⟩
    · obtain ⟨f1, f2, f3⟩ := URL.setFragment_head v0 v _ h
      rw [f1, f2, f3]
      exact ⟨h1, h4, h3⟩

end url

namespace url

open encoding

theorem resolvePathStep_head (st : GoString × Bool) (elem : GoString)
    (hhead : st.1.head? = some (ch '/')) :
    (resolvePathStep st elem).1.head? = some (ch '/') := by
  obtain ⟨dst, first⟩ := st
  cases dst with
  | nil => simp at hhead
  | cons x t =>
    simp only [List.head?_cons, Option.some.injEq] at hhead
    subst hhead
    unfold resolvePathStep
    by_cases h1 : elem = str "."
    · simp [h1]
    · by_cases h2 : elem = str ".."
      · simp only [h1, h2, if_false, if_true, List.drop_succ_cons, List.drop_zero]
        cases strings.LastIndexByte t (ch '/') <;> rfl
      · simp only [h1, h2, if_false]
        cases first <;> simp

/-- What `resolvePath` returns starts with `/`, unless both paths are empty. -/
theorem resolvePath_head (base ref : GoString) (href : ref ≠ []) :
    (resolvePath base ref).head? = some (ch '/') := by
  have hfull : (if ref = [] then base
      else if ref.head? ≠ some (ch '/') then dirOf base ++ ref else ref) ≠ [] := by
    simp only [href, if_false]
    split_ifs
    · simp [href]
    · exact href
  unfold resolvePath
  generalize (if ref = [] then base
      else if ref.head? ≠ some (ch '/') then dirOf base ++ ref else ref) = full at hfull
  simp only [hfull, if_false]
  have hinv : ∀ (elems : List GoString) (st : GoString × Bool),
      st.1.head? = some (ch '/') → (elems.foldl resolvePathStep st).1.head? = some (ch '/') := by
    intro elems
    induction elems with
    | nil => intro st h1; exact h1
    | cons e es ih => intro st h1; exact ih _ (resolvePathStep_head st e h1)
  have hres := hinv (strings.pieces (ch '/') full) ([ch '/'], true) rfl
  generalize (strings.pieces (ch '/') full).foldl resolvePathStep ([ch '/'], true) = st at hres ⊢
  have hstrip : ∀ dst : GoString, dst.head? = some (ch '/') →
      (if dst.length > 1 ∧ dst.get? 1 = some (ch '/') then dst.drop 1 else dst).head? =
        some (ch '/') := by
    intro dst hd
    split_ifs with hc
    · rw [List.head?_drop]
      simpa [List.get?_eq_getElem?] using hc.2
    · exact hd
  by_cases hl : (strings.pieces (ch '/') full).getLast? = some (str ".") ∨
      (strings.pieces (ch '/') full).getLast? = some (str "..")
  · simp only [hl, if_true]
    apply hstrip
    cases hst : st.1 with
    | nil => rw [hst] at hres; simp at hres
    | cons x t => rw [hst] at hres; simpa using hres
  · simp only [hl, if_false]
    exact hstrip _ hres

theorem unescape_head (s t : GoString) (h : unescape s encodePath = .ok t)
    (hs : s.head? = some (ch '/')) : t.head? = some (ch '/') := by
  cases s with
  | nil => simp at hs
  | cons c rest =>
    simp only [List.head?_cons, Option.some.injEq] at hs
    subst hs
    rw [unescape_path_cons _ _ slash_ne_percent] at h
    cases hr : unescape rest encodePath with
    | error e => simp [hr] at h
    | ok t2 =>
      simp only [hr, Except.ok.injEq] at h
      rw [← h]
      rfl

/-- Decoding the encoded path of a URL gives its path. -/
theorem URL.unescape_EscapedPath (u : URL) : unescape u.EscapedPath encodePath = .ok u.Path := by
  unfold URL.EscapedPath
  split_ifs with h1 h2
  · exact h1.2.2
  · rw [h2]; decide!
  · exact unescape_escape _ _ (Or.inr (Or.inl rfl))

/-- After `setPath` of an encoded path that starts with `/`, the path and the
encoded path of the URL start with `/`. -/
theorem URL.setPathIgnoringError_head (u : URL) (p : GoString) (hw : wellEscaped p = true)
    (hp : p.head? = some (ch '/')) :
    (u.setPathIgnoringError p).Path ≠ [] ∧
      (u.setPathIgnoringError p).EscapedPath.head? = some (ch '/') := by
  unfold wellEscaped at hw
  cases hun : unescape p encodePath with
  | error e => rw [hun] at hw; cases hw
  | ok path =>
    have hpath := unescape_head p path hun hp
    have hP := URL.setPathIgnoringError_Path u p path hun
    have hne : path ≠ [] := by rintro rfl; simp at hpath
    refine ⟨by rw [hP]; exact hne, ?_⟩
    have hraw : (u.setPathIgnoringError p).RawPath = [] ∨ (u.setPathIgnoringError p).RawPath = p := by
      unfold URL.setPathIgnoringError URL.setPath
      rw [hun]
      by_cases hpe : p = escape path encodePath <;> simp [hpe]
    have hesc : (escape path encodePath).head? = some (ch '/') := by
      cases path with
      | nil => exact absurd rfl hne
      | cons c cs =>
        simp only [List.head?_cons, Option.some.injEq] at hpath
        subst hpath
        have : escapeByte (ch '/') encodePath = [ch '/'] := by decide!
        simp [escape, this]
    have hstar : path ≠ str "*" := by
      rintro rfl
      have : (str "*").head? ≠ some (ch '/') := by decide!
      exact this hpath
    unfold URL.EscapedPath
    rw [hP]
    split_ifs with c1
    · rcases hraw with h0 | h0
      · exact absurd h0 c1.1
      · rw [h0]; exact hp
    · exact hesc

end url

namespace url

open encoding

theorem URL.setPath_OmitHost (u v : URL) (p : GoString) (h : u.setPath p = .ok v) :
    v.OmitHost = u.OmitHost ∧ v.Scheme = u.Scheme := by
  unfold URL.setPath at h
  cases hu : unescape p encodePath with
  | error e => simp [hu] at h
  | ok path =>
    simp only [hu] at h
    split_ifs at h <;> injection h with h <;> subst h <;> exact ⟨rfl, rfl⟩

/-- A URL that `parse` returns without a scheme has `OmitHost` unset. -/
theorem parse_OmitHost (s : GoString) (v : URL) (h : parse s false = .ok v)
    (hs : v.Scheme = []) : v.OmitHost = false := by
  by_cases hstar : s = str "*"
  · subst hstar
    have : parse (str "*") false = .ok { Path := str "*" } := by decide!
    rw [this] at h
    injection h with h
    subst h
    rfl
  unfold parse at h
  simp only [hstar, if_false, Bool.false_eq_true, and_false] at h
  split_ifs at h with hctl
  cases hg : getScheme s with
  | error e => simp [hg] at h
  | ok p =>
    obtain ⟨scheme, rest0⟩ := p
    simp only [hg] at h
    by_cases hforced :
        (strings.HasSuffix rest0 (str "?") && strings.CountByte rest0 (ch '?') == 1) = true
    · simp only [hforced, if_true] at h
      split_ifs at h with c1 c2 c3 c4
      · injection h with h; subst h; rfl
      · split at h
        · cases h
        · exact (URL.setPath_OmitHost _ _ _ h).1
      · have := (URL.setPath_OmitHost _ _ _ h).2
        rw [hs] at this
        exact absurd this.symm c4.1
      · exact (URL.setPath_OmitHost _ _ _ h).1
    · simp only [hforced, if_false, Bool.false_eq_true] at h
      split_ifs at h with c1 c2 c3 c4
      · injection h with h; subst h; rfl
      · split at h
        · cases h
        · exact (URL.setPath_OmitHost _ _ _ h).1
      · have := (URL.setPath_OmitHost _ _ _ h).2
        rw [hs] at this
        exact absurd this.symm c4.1
      · exact (URL.setPath_OmitHost _ _ _ h).1

theorem Parse_OmitHost (s : GoString) (v : URL) (h : Parse s = .ok v) (hs : v.Scheme = []) :
    v.OmitHost = false := by
  unfold Parse at h
  cases hp : parse (strings.Cut (ch '#') s).1 false with
  | error e => simp [hp] at h
  | ok u =>
    simp only [hp] at h
    split_ifs at h
    · injection h with h
      subst h
      exact parse_OmitHost _ _ hp hs
    · unfold URL.setFragment at h
      cases hu : unescape (strings.Cut (ch '#') s).2.1 encodeFragment with
      | error e => simp [hu] at h
      | ok frag =>
        simp only [hu] at h
        split_ifs at h <;> injection h with h <;> subst h <;> exact parse_OmitHost _ u hp hs

theorem URL.setPathIgnoringError_OmitHost (u : URL) (p : GoString) :
    (u.setPathIgnoringError p).OmitHost = u.OmitHost := by
  unfold URL.setPathIgnoringError URL.setPath
  cases unescape p encoding.encodePath with
  | error e => simp
  | ok path => by_cases h : p = escape path encoding.encodePath <;> simp [h]

/-- Resolution of a relative-path reference: what is left of the reference, and
the path with its encoded form. -/
theorem URL.ResolveReference_relative_text (u ref : URL) (hs : ref.Scheme = [])
    (ho : ref.Opaque = []) (hh : ref.Host = []) (hu : ref.User = none) (hp : ref.Path ≠ []) :
    (u.ResolveReference ref).Opaque = [] ∧
    (u.ResolveReference ref).OmitHost = ref.OmitHost ∧
    (u.ResolveReference ref).Path ≠ [] ∧
    (u.ResolveReference ref).EscapedPath.head? = some (ch '/') := by
  have hw := resolvePath_wellEscaped u.EscapedPath ref.EscapedPath
    (URL.EscapedPath_wellEscaped u) (URL.EscapedPath_wellEscaped ref)
  have hhd := resolvePath_head u.EscapedPath ref.EscapedPath (URL.EscapedPath_ne_nil ref hp)
  unfold URL.ResolveReference
  simp only [hs, ho, hh, hu, hp, ne_eq, not_true_eq_false, or_self, if_false, if_true,
    false_and]
  have hf := URL.setPathIgnoringError_fields
  have hsp := URL.setPathIgnoringError_head
  refine ⟨?_, ?_, (hsp _ _ hw hhd).1, (hsp _ _ hw hhd).2⟩
  · rw [(hf _ _).2.2.2.2]
  · rw [URL.setPathIgnoringError_OmitHost]

end url


/-! ## Request construction: the URL of `NewRequest` -/

section NewRequest

variable {Err Ptr : Type}

/-- How the request of `NewRequest` comes from the URL it builds: the request is
`http.NewRequest` of the text of `requestURL`, which parses that text again. -/
theorem NewRequest_uses_requestURL (c : Client Err Ptr) (method urlStr body : GoString)
    (req : http.Request) (h : c.NewRequest method urlStr body = .ok req) :
    ∃ rel u, url.Parse urlStr = .ok rel ∧ url.Parse (c.requestURL rel).String = .ok u ∧
      req.URL = { u with Host := http.removeEmptyPort u.Host } ∧
      req.Method = (if method = [] then str "GET" else method) ∧ req.Body = body := by
  unfold Client.NewRequest at h
  cases hp : url.Parse urlStr with
  | error e => simp [hp] at h
  | ok rel =>
    simp only [hp] at h
    cases hr : http.NewRequest method (c.requestURL rel).String body with
    | error e => simp [hr] at h
    | ok req0 =>
      simp only [hr] at h
      unfold http.NewRequest at hr
      cases hu : url.Parse (c.requestURL rel).String with
      | error e =>
        simp only [hu] at hr
        split_ifs at hr
      | ok u =>
        simp only [hu] at hr
        refine ⟨rel, u, rfl, hu, ?_⟩
        split_ifs at hr <;> injection hr with hr <;> subst hr <;> split_ifs at h <;>
          injection h with h <;> subst h <;> simp_all

/-- The query of the request is the query of the URL that `NewRequest` builds:
`http.NewRequest` parses the text of that URL again, and reads the same query
from it.  This holds for every client whose base URL has a scheme and an opaque
part without `?` and `#`, as every URL returned by `url.Parse` has. -/
theorem NewRequest_request_query (c : Client Err Ptr) (method urlStr body : GoString)
    (rel : url.URL) (req : http.Request)
    (hbase : url.noDelim c.BaseURL.Scheme ∧ url.noDelim c.BaseURL.Opaque)
    (hrel : url.Parse urlStr = .ok rel) (h : c.NewRequest method urlStr body = .ok req) :
    req.URL.RawQuery = (c.requestURL rel).RawQuery ∧ req.URL.Query = (c.requestURL rel).Query := by
  obtain ⟨rel2, u, hrel2, hu, hreq, _⟩ := NewRequest_uses_requestURL c method urlStr body req h
  rw [hrel] at hrel2
  injection hrel2 with hrel2
  subst hrel2
  have hrc := url.Parse_clean urlStr rel hrel
  have hres := url.URL.ResolveReference_noDelim c.BaseURL rel hbase.1 hbase.2
    ⟨hrc.1, hrc.2.1⟩ ⟨hrc.2.2.1, hrc.2.2.2⟩
  have hq : u.RawQuery = (c.requestURL rel).RawQuery := by
    apply url.Parse_String_RawQuery (c.requestURL rel) u _ _ _ hu
    · exact hres.1
    · exact hres.2
    · exact url.Values.Encode_no_hash _
  have hq2 : req.URL.RawQuery = (c.requestURL rel).RawQuery := by rw [hreq]; exact hq
  exact ⟨hq2, by unfold url.URL.Query; rw [hq2]⟩

/-- The URL that `NewRequest` builds differs from the resolved reference in its
query only. -/
theorem requestURL_fields (c : Client Err Ptr) (rel : url.URL) :
    (c.requestURL rel).Scheme = (c.BaseURL.ResolveReference rel).Scheme ∧
    (c.requestURL rel).Opaque = (c.BaseURL.ResolveReference rel).Opaque ∧
    (c.requestURL rel).User = (c.BaseURL.ResolveReference rel).User ∧
    (c.requestURL rel).Host = (c.BaseURL.ResolveReference rel).Host ∧
    (c.requestURL rel).Path = (c.BaseURL.ResolveReference rel).Path ∧
    (c.requestURL rel).OmitHost = (c.BaseURL.ResolveReference rel).OmitHost ∧
    (c.requestURL rel).EscapedPath = (c.BaseURL.ResolveReference rel).EscapedPath ∧
    ch '#' ∉ (c.requestURL rel).RawQuery := by
  refine ⟨rfl, rfl, rfl, rfl, rfl, rfl, rfl, ?_⟩
  exact url.Values.Encode_no_hash _

/-- The scheme, the host and the path of the request are those of the URL that
`NewRequest` builds from a relative-path reference (the host without the `:` of an
empty port): `http.NewRequest` parses the text of that URL again, and reads them
back.  This holds for every client whose base URL has a well-formed lower-case
scheme, as every absolute URL returned by `url.Parse` has. -/
theorem NewRequest_request_head (c : Client Err Ptr) (method urlStr body : GoString)
    (rel : url.URL) (req : http.Request)
    (hsch : url.lowerScheme c.BaseURL.Scheme = true)
    (hrel : url.Parse urlStr = .ok rel)
    (hs : rel.Scheme = []) (ho : rel.Opaque = []) (hh : rel.Host = [])
    (hu : rel.User = none) (hp : rel.Path ≠ [])
    (h : c.NewRequest method urlStr body = .ok req) :
    req.URL.Scheme = c.BaseURL.Scheme ∧
    req.URL.Host = http.removeEmptyPort c.BaseURL.Host ∧
    req.URL.Path = (c.requestURL rel).Path := by
  obtain ⟨rel2, u, hrel2, hu2, hreq, _⟩ := NewRequest_uses_requestURL c method urlStr body req h
  rw [hrel] at hrel2
  injection hrel2 with hrel2
  subst hrel2
  obtain ⟨f1, f2, f3, f4, f5, f6, f7, f8⟩ := requestURL_fields c rel
  obtain ⟨r1, r2, r3, r4⟩ := url.URL.ResolveReference_relative c.BaseURL rel hs ho hh hu hp
  obtain ⟨t1, t2, t3, t4⟩ := url.URL.ResolveReference_relative_text c.BaseURL rel hs ho hh hu hp
  have homit : rel.OmitHost = false := url.Parse_OmitHost urlStr rel hrel hs
  have hph := url.Parse_String_head (c.requestURL rel) u
    (by rw [f1, r1]; exact hsch) (by rw [f2]; exact t1)
    (by rw [f6, t2, homit]; simp) (by rw [f5]; exact t3) (by rw [f7]; exact t4) f8 hu2
  have hpath := url.URL.unescape_EscapedPath (c.requestURL rel)
  rw [hph.2.2] at hpath
  injection hpath with hpath
  rw [hreq]
  refine ⟨?_, ?_, ?_⟩
  · show u.Scheme = _
    rw [hph.1, f1, r1]
  · show http.removeEmptyPort u.Host = _
    rw [hph.2.1, f4, r2]
  · exact hpath

/-- The base URL of a client returned by `NewClient` is the parsed constant
`BaseURL`. -/
theorem NewClient_BaseURL (d : Transport Err) (t : Option (Transport Err)) :
    url.Parse BaseURL = .ok (NewClient d t : Client Err Ptr).BaseURL ∧
    (NewClient d t : Client Err Ptr).BaseURL =
      { Scheme := str "http", Host := str "api.tumblr.com", Path := str "/v2/" } := by
  have h : url.Parse BaseURL =
      .ok { Scheme := str "http", Host := str "api.tumblr.com", Path := str "/v2/" } := by
    decide!
  have h2 : (NewClient d t : Client Err Ptr).BaseURL =
      { Scheme := str "http", Host := str "api.tumblr.com", Path := str "/v2/" } := by
    show (match url.Parse BaseURL with
      | .ok u => u
      | .error _ => {}) = _
    rw [h]
  exact ⟨by rw [h2]; exact h, h2⟩

/-- The values under a credential key in the built query: the configured
credential when it is non-empty and `Get` of the key is empty in the query `q` of
the resolved URL, else the values in `q`. -/
theorem requestURL_lookup_credential (c : Client Err Ptr) (rel : url.URL) (key cred : GoString)
    (hkey : (key, cred) ∈ [(str "access_token", c.AccessToken), (str "client_id", c.ClientID),
                            (str "client_secret", c.ClientSecret)]) :
    url.Values.lookup (c.requestURL rel).Query key =
      if cred ≠ [] ∧ url.Values.Get (c.BaseURL.ResolveReference rel).Query key = [] then [cred]
      else url.Values.lookup (c.BaseURL.ResolveReference rel).Query key := by
  obtain ⟨h12, h13, h23⟩ := credential_keys_distinct
  rw [requestURL_lookup]
  simp only [List.mem_cons, Prod.mk.injEq, List.mem_singleton, List.not_mem_nil, or_false] at hkey
  rcases hkey with ⟨rfl, rfl⟩ | ⟨rfl, rfl⟩ | ⟨rfl, rfl⟩
  · rw [if_neg (fun h => h13 h.1), if_neg (fun h => h12 h.1)]
    simp only [true_and]
  · rw [if_neg (fun h => h23 h.1),
      if_neg (fun h : str "client_id" = str "access_token" ∧ _ => h12 h.1.symm)]
    simp only [true_and]
  · rw [if_neg (fun h : str "client_secret" = str "client_id" ∧ _ => h23 h.1.symm),
      if_neg (fun h : str "client_secret" = str "access_token" ∧ _ => h13 h.1.symm)]
    simp only [true_and]

/-- The values under any other key in the built query are those in the query of
the resolved URL. -/
theorem requestURL_lookup_other (c : Client Err Ptr) (rel : url.URL) (k : GoString)
    (h1 : k ≠ str "access_token") (h2 : k ≠ str "client_id") (h3 : k ≠ str "client_secret") :
    url.Values.lookup (c.requestURL rel).Query k =
      url.Values.lookup (c.BaseURL.ResolveReference rel).Query k := by
  rw [requestURL_lookup, if_neg (fun h => h3 h.1), if_neg (fun h => h2 h.1),
    if_neg (fun h => h1 h.1)]

/-- C1. For every client and every relative path with a query string of its own,
and each credential key with its configured value `cred`: if the first value of
the key in the input query is non-empty, `NewRequest` leaves the values of that
key as the caller supplied them; it also leaves them when `cred` is empty; and
when `cred` is non-empty and `Get` of the key is empty (the key is absent, or its
first value is empty as in `access_token=`), the built query holds exactly `cred`
under that key.  Queries are read as `url.ParseQuery` reads them.  The request
that `NewRequest` returns carries the query of the built URL (last part; for a
base URL whose scheme and opaque part hold no `?` or `#`, as in every parsed
URL). -/
theorem NewRequest_credentials_respect_input (c : Client Err Ptr) (urlStr : GoString)
    (rel : url.URL) (hrel : url.Parse urlStr = .ok rel)
    (hq : rel.RawQuery ≠ [] ∨ rel.ForceQuery = true) (key cred : GoString)
    (hkey : (key, cred) ∈ [(str "access_token", c.AccessToken), (str "client_id", c.ClientID),
                            (str "client_secret", c.ClientSecret)]) :
    (url.Values.Get rel.Query key ≠ [] →
      url.Values.lookup (c.requestURL rel).Query key = url.Values.lookup rel.Query key) ∧
    (cred = [] →
      url.Values.lookup (c.requestURL rel).Query key = url.Values.lookup rel.Query key) ∧
    (cred ≠ [] → url.Values.Get rel.Query key = [] →
      url.Values.lookup (c.requestURL rel).Query key = [cred]) ∧
    (∀ (method body : GoString) (req : http.Request),
      url.noDelim c.BaseURL.Scheme → url.noDelim c.BaseURL.Opaque →
      c.NewRequest method urlStr body = .ok req →
      req.URL.Query = (c.requestURL rel).Query) := by
  have hown : (c.BaseURL.ResolveReference rel).Query = rel.Query := by
    unfold url.URL.Query
    rw [url.URL.ResolveReference_RawQuery_own _ _ (by tauto)]
  rw [requestURL_lookup_credential c rel key cred hkey, hown]
  refine ⟨fun hg => ?_, fun hc => ?_, fun hc hg => ?_,
    fun method body req hs ho hreq =>
      (NewRequest_request_query c method urlStr body rel req ⟨hs, ho⟩ hrel hreq).2⟩
  · rw [if_neg (fun h => hg h.2)]
  · rw [if_neg (fun h => h.1 hc)]
  · rw [if_pos ⟨hc, hg⟩]

/-- C1, counterexample to the claim as stated: the input query of
`blog/x/info?access_token=` holds the key `access_token`, with one value, the
empty string; the built query holds the configured token `tok` under that key,
which is not what the caller supplied, and this is the query of the request. -/
theorem NewRequest_overwrites_empty_value :
    url.Parse (str "blog/x/info?access_token=") =
      .ok { Path := str "blog/x/info", RawQuery := str "access_token=" } ∧
    url.Values.lookup
      (url.URL.Query { Path := str "blog/x/info", RawQuery := str "access_token=" })
      (str "access_token") = [str ""] ∧
    url.Values.lookup
      (tokenClient.requestURL { Path := str "blog/x/info", RawQuery := str "access_token=" }).Query
      (str "access_token") = [str "tok"] ∧
    url.Values.lookup
      (tokenClient.requestURL { Path := str "blog/x/info", RawQuery := str "access_token=" }).Query
      (str "access_token") ≠
    url.Values.lookup
      (url.URL.Query { Path := str "blog/x/info", RawQuery := str "access_token=" })
      (str "access_token") ∧
    (tokenClient.NewRequest (str "GET") (str "blog/x/info?access_token=") []).map
      (fun req => req.URL.String) =
      .ok (str "http://api.tumblr.com/v2/blog/x/info?access_token=tok") := by
  refine ⟨?_, ?_, ?_, ?_, ?_⟩ <;> decide!

/-- C1, on `blog/x/info?access_token=mine&client_id=` with all three credentials
configured: the caller's `access_token` stays, the empty `client_id` is replaced. -/
theorem NewRequest_credentials_respect_input_witness :
    url.Values.lookup
      (fullClient.requestURL
        { Path := str "blog/x/info", RawQuery := str "access_token=mine&client_id=" }).Query
      (str "access_token") = [str "mine"] :=
  ((NewRequest_credentials_respect_input fullClient
      (str "blog/x/info?access_token=mine&client_id=")
      { Path := str "blog/x/info", RawQuery := str "access_token=mine&client_id=" }
      (by decide!) (Or.inl (by decide!)) (str "access_token") (str "tok")
      (by decide!)).1 (by decide!)).trans (by decide!)

/-- C2. For every client and every relative path whose query holds none of the
three credential keys, where for a path that is empty and has no query (the
resolved URL then takes over the query of `BaseURL`) the query of `BaseURL` holds
none of them either: the built query holds exactly `AccessToken` under
`access_token` when `AccessToken` is non-empty and no `access_token` when it is
empty, and likewise, each on its own, `ClientID` under `client_id` and
`ClientSecret` under `client_secret`.  Queries are read as `url.ParseQuery` reads
them.  The request that `NewRequest` returns carries the query of the built URL
(last part; for a base URL whose scheme and opaque part hold no `?` or `#`, as in
every parsed URL). -/
theorem NewRequest_adds_credentials (c : Client Err Ptr) (urlStr : GoString)
    (rel : url.URL) (hrel : url.Parse urlStr = .ok rel)
    (hnone : ∀ key ∈ [str "access_token", str "client_id", str "client_secret"],
      url.Values.lookup rel.Query key = [])
    (hbase : rel.Path = [] ∧ rel.RawQuery = [] ∧ rel.ForceQuery = false →
      ∀ key ∈ [str "access_token", str "client_id", str "client_secret"],
        url.Values.lookup c.BaseURL.Query key = []) :
    (url.Values.lookup (c.requestURL rel).Query (str "access_token") =
      if c.AccessToken ≠ [] then [c.AccessToken] else []) ∧
    (url.Values.lookup (c.requestURL rel).Query (str "client_id") =
      if c.ClientID ≠ [] then [c.ClientID] else []) ∧
    (url.Values.lookup (c.requestURL rel).Query (str "client_secret") =
      if c.ClientSecret ≠ [] then [c.ClientSecret] else []) ∧
    (∀ (method body : GoString) (req : http.Request),
      url.noDelim c.BaseURL.Scheme → url.noDelim c.BaseURL.Opaque →
      c.NewRequest method urlStr body = .ok req →
      req.URL.Query = (c.requestURL rel).Query) := by
  have hres : ∀ key ∈ [str "access_token", str "client_id", str "client_secret"],
      url.Values.lookup (c.BaseURL.ResolveReference rel).Query key = [] := by
    intro key hk
    unfold url.URL.Query
    rw [url.URL.ResolveReference_RawQuery]
    split_ifs with hc
    · exact hbase ⟨hc.2.2.2.2.1, hc.2.2.2.2.2.2, hc.2.2.2.2.2.1⟩ key hk
    · exact hnone key hk
  have hget : ∀ key ∈ [str "access_token", str "client_id", str "client_secret"],
      url.Values.Get (c.BaseURL.ResolveReference rel).Query key = [] := by
    intro key hk
    unfold url.Values.Get
    rw [hres key hk]
  have hone : ∀ (key cred : GoString),
      (key, cred) ∈ [(str "access_token", c.AccessToken), (str "client_id", c.ClientID),
                      (str "client_secret", c.ClientSecret)] →
      key ∈ [str "access_token", str "client_id", str "client_secret"] →
      url.Values.lookup (c.requestURL rel).Query key = if cred ≠ [] then [cred] else [] := by
    intro key cred hkc hk
    rw [requestURL_lookup_credential c rel key cred hkc, hget key hk, hres key hk]
    by_cases hc : cred = []
    · rw [if_neg (fun h => h.1 hc), if_neg (fun h => h hc)]
    · rw [if_pos ⟨hc, rfl⟩, if_pos hc]
  exact ⟨hone _ _ (by simp) (by simp), hone _ _ (by simp) (by simp),
    hone _ _ (by simp) (by simp),
    fun method body req hs ho hreq =>
      (NewRequest_request_query c method urlStr body rel req ⟨hs, ho⟩ hrel hreq).2⟩

/-- C2, counterexample to the claim as stated: the empty path has no query, so
its query holds none of the keys, and the client has the access token `tok`; but
the resolved URL takes over the query of the base URL, and the built query holds
`access_token=base`, not `access_token=tok`. -/
theorem NewRequest_inherits_base_query :
    url.Parse (str "http://api.tumblr.com/v2/?access_token=base") =
      .ok queryBaseClient.BaseURL ∧
    queryBaseClient.AccessToken = str "tok" ∧
    url.Parse (str "") = .ok {} ∧
    url.URL.Query {} = [] ∧
    url.Values.lookup (queryBaseClient.requestURL {}).Query (str "access_token") =
      [str "base"] ∧
    url.Values.lookup (queryBaseClient.requestURL {}).Query (str "access_token") ≠
      [queryBaseClient.AccessToken] ∧
    (queryBaseClient.NewRequest (str "GET") (str "") []).map (fun req => req.URL.String) =
      .ok (str "http://api.tumblr.com/v2/?access_token=base") := by
  refine ⟨?_, ?_, ?_, ?_, ?_, ?_, ?_⟩ <;> decide!

/-- C2, on `blog/x/info?limit=2` with all three credentials configured: all three
are in the built query at once. -/
theorem NewRequest_adds_credentials_witness :
    url.Values.lookup
        (fullClient.requestURL { Path := str "blog/x/info", RawQuery := str "limit=2" }).Query
        (str "access_token") = [str "tok"] ∧
    url.Values.lookup
        (fullClient.requestURL { Path := str "blog/x/info", RawQuery := str "limit=2" }).Query
        (str "client_id") = [str "abc"] ∧
    url.Values.lookup
        (fullClient.requestURL { Path := str "blog/x/info", RawQuery := str "limit=2" }).Query
        (str "client_secret") = [str "s3cret"] :=
  have h := NewRequest_adds_credentials fullClient (str "blog/x/info?limit=2")
    { Path := str "blog/x/info", RawQuery := str "limit=2" } (by decide!) (by decide!)
    (by decide!)
  ⟨h.1, h.2.1, h.2.2.1⟩

/-- C9. For every client and every relative path that carries a query string of
its own, with the parameters of a query read as `url.ParseQuery` reads them (the
`&`-separated pieces without `;` whose key and value are validly percent-encoded):
every key other than `access_token`, `client_id` and `client_secret` has in the
built query the values it has in the input query, in the same order (and so no
values when the input has none).  The request that `NewRequest` returns carries
the query of the built URL (last part; for a base URL whose scheme and opaque
part hold no `?` or `#`, as in every parsed URL). -/
theorem NewRequest_preserves_query (c : Client Err Ptr) (urlStr : GoString)
    (rel : url.URL) (hrel : url.Parse urlStr = .ok rel)
    (hq : rel.RawQuery ≠ [] ∨ rel.ForceQuery = true) (k : GoString)
    (h1 : k ≠ str "access_token") (h2 : k ≠ str "client_id") (h3 : k ≠ str "client_secret") :
    url.Values.lookup (c.requestURL rel).Query k = url.Values.lookup rel.Query k ∧
    (∀ (method body : GoString) (req : http.Request),
      url.noDelim c.BaseURL.Scheme → url.noDelim c.BaseURL.Opaque →
      c.NewRequest method urlStr body = .ok req →
      req.URL.Query = (c.requestURL rel).Query) := by
  refine ⟨?_, fun method body req hs ho hreq =>
      (NewRequest_request_query c method urlStr body rel req ⟨hs, ho⟩ hrel hreq).2⟩
  rw [requestURL_lookup_other c rel k h1 h2 h3]
  unfold url.URL.Query
  rw [url.URL.ResolveReference_RawQuery_own _ _ (by tauto)]

/-- C9, counterexample to the claim as stated: the query of
`blog/x/posts?tag=%zz&limit=2` has the piece `tag=%zz`, whose value is not validly
percent-encoded; `url.Parse` accepts the path, `Query` drops the piece, and the
query of the request has no `tag` at all.  A piece with a `;`, as in `tag=a;b`,
is dropped likewise. -/
theorem NewRequest_drops_malformed_parameter :
    url.Parse (str "blog/x/posts?tag=%zz&limit=2") =
      .ok { Path := str "blog/x/posts", RawQuery := str "tag=%zz&limit=2" } ∧
    strings.pieces (ch '&') (str "tag=%zz&limit=2") = [str "tag=%zz", str "limit=2"] ∧
    (tokenClient.NewRequest (str "GET") (str "blog/x/posts?tag=%zz&limit=2") []).map
        (fun req => (req.URL.RawQuery, req.URL.String)) =
      .ok (str "access_token=tok&limit=2",
           str "http://api.tumblr.com/v2/blog/x/posts?access_token=tok&limit=2") ∧
    strings.pieces (ch '&') (str "access_token=tok&limit=2") =
      [str "access_token=tok", str "limit=2"] ∧
    (tokenClient.NewRequest (str "GET") (str "blog/x/posts?tag=a;b") []).map
        (fun req => req.URL.String) =
      .ok (str "http://api.tumblr.com/v2/blog/x/posts?access_token=tok") := by
  refine ⟨?_, ?_, ?_, ?_, ?_⟩ <;> decide!

/-- C9, on `blog/x/posts?tag=b&limit=2&tag=a` with all credentials configured: the
two values of `tag` stay, in their order, and `limit` stays. -/
theorem NewRequest_preserves_query_witness :
    url.Values.lookup
        (fullClient.requestURL
          { Path := str "blog/x/posts", RawQuery := str "tag=b&limit=2&tag=a" }).Query
        (str "tag") = [str "b", str "a"] ∧
    (fullClient.NewRequest (str "GET") (str "blog/x/posts?tag=b&limit=2&tag=a") []).map
        (fun req => req.URL.RawQuery) =
      .ok (str "access_token=tok&client_id=abc&client_secret=s3cret&limit=2&tag=b&tag=a") :=
  ⟨(NewRequest_preserves_query fullClient (str "blog/x/posts?tag=b&limit=2&tag=a")
      { Path := str "blog/x/posts", RawQuery := str "tag=b&limit=2&tag=a" }
      (by decide!) (Or.inl (by decide!)) (str "tag") (by decide!) (by decide!)
      (by decide!)).1.trans (by decide!),
   by decide!⟩

/-- The host of a request is the host of the base URL itself, when that host does
not end in `:`. -/
theorem removeEmptyPort_of_no_colon (host : GoString) (h : host.getLast? ≠ some (ch ':')) :
    http.removeEmptyPort host = host := by
  have hs : str ":" = [ch ':'] := by decide!
  have : strings.HasSuffix host (str ":") = false := by
    rw [hs, Bool.eq_false_iff]
    intro hsuf
    exact h ((strings.HasSuffix_singleton host (ch ':')).mp hsuf)
  unfold http.removeEmptyPort
  simp [this]

/-- The host of a request is the host of the base URL without its last byte, when
that byte is the `:` of an empty port. -/
theorem removeEmptyPort_of_colon (h : GoString) : http.removeEmptyPort (h ++ [ch ':']) = h := by
  have hs : str ":" = [ch ':'] := by decide!
  have hne : ch ':' ≠ ch ']' := by decide!
  have hsuf : strings.HasSuffix (h ++ [ch ':']) (str ":") = true := by
    rw [hs, strings.HasSuffix_singleton]
    simp
  have hcolon : strings.LastIndexByte (h ++ [ch ':']) (ch ':') = some h.length :=
    strings.LastIndexByte_append h [] (ch ':') (by simp)
  have hbr : ∀ j, strings.LastIndexByte (h ++ [ch ':']) (ch ']') = some j → j < h.length := by
    intro j hj
    have hsplit := strings.LastIndexByte_split _ _ _ hj
    have hlt := strings.LastIndexByte_lt _ _ _ hj
    simp only [List.length_append, List.length_singleton] at hlt
    by_contra hge
    have hj2 : j = h.length := by omega
    subst hj2
    have := congrArg (fun l => l.get? h.length) hsplit
    simp [List.get?_eq_getElem?, List.getElem?_append_right] at this
    exact hne this
  unfold http.removeEmptyPort
  rw [hcolon, hsuf]
  cases hj : strings.LastIndexByte (h ++ [ch ':']) (ch ']') with
  | none => simp
  | some j =>
    have := hbr j hj
    simp [this]

/-- A text without `%` is its own decoded form. -/
theorem unescape_of_no_percent (s : GoString) (h : ch '%' ∉ s) :
    url.unescape s .encodePath = .ok s := by
  induction s with
  | nil => rfl
  | cons c rest ih =>
    have hc : c ≠ ch '%' := fun e => h (by simp [e])
    have hrest : ch '%' ∉ rest := fun m => h (by simp [m])
    rw [url.unescape_path_cons _ _ hc, ih hrest]

/-- C3. For every client with base URL `B` and every relative path whose parsed
form `rel` is a relative-path reference (no scheme, no authority, a non-empty
path) with an encoded path `P` that has no leading `/`.
The URL that `NewRequest` builds has the scheme and the authority of `B`, and its
path is the decoded form of `resolvePath` of the encoded path of `B` and `P`.
The request that `NewRequest` returns has that scheme, that host without the `:`
of an empty port (so the host of `B` itself when it does not end in `:`, and the
host of `B` without its last byte when it does), and that path (which is the
result of `resolvePath` itself when that holds no `%`), for every `B` with a
well-formed lower-case scheme.
When the encoded path of `B` starts with `/` (or is empty, `B` having an
authority) and the merged path of RFC 3986 §5.2.3 has no empty segment before its
last one, `resolvePath` is that merged path with its dot segments removed as
§5.2.4 prescribes.  When the merged path (the path of `B` up to and including its
last `/`, followed by `P`) has no `.` or `..` element at all, `resolvePath` is the
merged path itself, with a `/` in front if it has none.
With the base of `NewClient`, `blog/x/info` gives
`http://api.tumblr.com/v2/blog/x/info`, and `blog/example.tumblr.com/info` with
`ClientID` `abc` gives
`http://api.tumblr.com/v2/blog/example.tumblr.com/info?client_id=abc`, method
`GET`. -/
theorem NewRequest_resolves_path (c : Client Err Ptr) (urlStr : GoString)
    (rel : url.URL) (hrel : url.Parse urlStr = .ok rel)
    (hs : rel.Scheme = []) (ho : rel.Opaque = []) (hh : rel.Host = [])
    (hu : rel.User = none) (hp : rel.Path ≠ [])
    (hslash : rel.EscapedPath.head? ≠ some (ch '/')) :
    (c.requestURL rel).Scheme = c.BaseURL.Scheme ∧
    (c.requestURL rel).Host = c.BaseURL.Host ∧
    (c.requestURL rel).User = c.BaseURL.User ∧
    url.unescape (url.resolvePath c.BaseURL.EscapedPath rel.EscapedPath) .encodePath =
      .ok (c.requestURL rel).Path ∧
    (∀ (method body : GoString) (req : http.Request),
      url.lowerScheme c.BaseURL.Scheme = true →
      c.NewRequest method urlStr body = .ok req →
      req.URL.Scheme = c.BaseURL.Scheme ∧
      req.URL.Host = http.removeEmptyPort c.BaseURL.Host ∧
      (c.BaseURL.Host.getLast? ≠ some (ch ':') → req.URL.Host = c.BaseURL.Host) ∧
      (∀ h : GoString, c.BaseURL.Host = h ++ [ch ':'] → req.URL.Host = h) ∧
      url.unescape (url.resolvePath c.BaseURL.EscapedPath rel.EscapedPath) .encodePath =
        .ok req.URL.Path ∧
      (ch '%' ∉ url.resolvePath c.BaseURL.EscapedPath rel.EscapedPath →
        req.URL.Path = url.resolvePath c.BaseURL.EscapedPath rel.EscapedPath)) ∧
    (∀ auth : Bool, (auth = true ↔ c.BaseURL.Host ≠ [] ∨ c.BaseURL.User ≠ none) →
      (c.BaseURL.EscapedPath.head? = some (ch '/') ∨
        (c.BaseURL.EscapedPath = [] ∧ auth = true)) →
      (∀ e ∈ (strings.pieces (ch '/')
          ((rfc3986.merge auth c.BaseURL.EscapedPath rel.EscapedPath).drop 1)).dropLast,
        e ≠ []) →
      url.resolvePath c.BaseURL.EscapedPath rel.EscapedPath =
        rfc3986.removeDotSegments (rfc3986.merge auth c.BaseURL.EscapedPath rel.EscapedPath)) ∧
    ((∀ e ∈ strings.pieces (ch '/') (url.dirOf c.BaseURL.EscapedPath ++ rel.EscapedPath),
        e ≠ str "." ∧ e ≠ str "..") →
      url.resolvePath c.BaseURL.EscapedPath rel.EscapedPath =
        if (url.dirOf c.BaseURL.EscapedPath ++ rel.EscapedPath).head? = some (ch '/') then
          url.dirOf c.BaseURL.EscapedPath ++ rel.EscapedPath
        else ch '/' :: (url.dirOf c.BaseURL.EscapedPath ++ rel.EscapedPath)) ∧
    (exampleClient.NewRequest (str "GET") (str "blog/x/info") []).map
        (fun req => req.URL.String) = .ok (str "http://api.tumblr.com/v2/blog/x/info") ∧
    (idClient.NewRequest (str "GET") (str "blog/example.tumblr.com/info") []).map
        (fun req => (req.Method, req.URL.String)) =
      .ok (str "GET",
           str "http://api.tumblr.com/v2/blog/example.tumblr.com/info?client_id=abc") := by
  have hres := url.URL.ResolveReference_relative c.BaseURL rel hs ho hh hu hp
  have hne := url.URL.EscapedPath_ne_nil rel hp
  refine ⟨hres.1, hres.2.1, hres.2.2.1, hres.2.2.2, ?_, ?_, ?_, by decide!, by decide!⟩
  · intro method body req hsch hreq
    obtain ⟨b1, b2, b3⟩ :=
      NewRequest_request_head c method urlStr body rel req hsch hrel hs ho hh hu hp hreq
    have b4 : url.unescape (url.resolvePath c.BaseURL.EscapedPath rel.EscapedPath)
        .encodePath = .ok req.URL.Path := by
      rw [b3]
      exact hres.2.2.2
    refine ⟨b1, b2, fun hc => ?_, fun h hc => ?_, b4, fun hc => ?_⟩
    · rw [b2, removeEmptyPort_of_no_colon _ hc]
    · rw [b2, hc, removeEmptyPort_of_colon]
    · rw [unescape_of_no_percent _ hc] at b4
      injection b4 with b4
      exact b4.symm
  · intro auth _ hbase hseg
    exact url.resolvePath_eq_removeDotSegments auth _ _ hne hslash
      (hbase.imp id (fun h => h)) hseg
  · intro hplain
    exact url.resolvePath_plain _ _ hne hslash hplain

/-- C3, counterexamples to the claim as stated, all paths without a leading `/`
and against the base of `NewClient`, whose path is `/v2/`: for `../x` the path of
the built URL is `/x`, not `/v2/` followed by `../x`; for `http://example.com/x`
the built URL has the host `example.com`, not the host of the base; for `%2Fa b`,
whose encoded path is `/a%20b`, the path is `/a b`, not under `/v2/`.  Against the
base that `url.Parse` returns for `http://api.tumblr.com:/v2/`, whose host is
`api.tumblr.com:`, the request for `blog/x/info` has the host `api.tumblr.com`. -/
theorem NewRequest_path_not_concatenation :
    (exampleClient.NewRequest (str "GET") (str "../x") []).map
        (fun req => (req.URL.Host, req.URL.Path, req.URL.String)) =
      .ok (str "api.tumblr.com", str "/x", str "http://api.tumblr.com/x") ∧
    url.dirOf exampleClient.BaseURL.Path ++ str "../x" = str "/v2/../x" ∧
    str "/x" ≠ url.dirOf exampleClient.BaseURL.Path ++ str "../x" ∧
    (exampleClient.NewRequest (str "GET") (str "http://example.com/x") []).map
        (fun req => (req.URL.Host, req.URL.Path, req.URL.String)) =
      .ok (str "example.com", str "/x", str "http://example.com/x") ∧
    exampleClient.BaseURL.Host = str "api.tumblr.com" ∧
    str "example.com" ≠ exampleClient.BaseURL.Host ∧
    (exampleClient.NewRequest (str "GET") (str "%2Fa b") []).map
        (fun req => (req.URL.Path, req.URL.String)) =
      .ok (str "/a b", str "http://api.tumblr.com/a%20b") ∧
    url.Parse (str "http://api.tumblr.com:/v2/") = .ok emptyPortClient.BaseURL ∧
    (emptyPortClient.NewRequest (str "GET") (str "blog/x/info") []).map
        (fun req => (req.URL.Host, req.URL.String)) =
      .ok (str "api.tumblr.com", str "http://api.tumblr.com/v2/blog/x/info") ∧
    str "api.tumblr.com" ≠ emptyPortClient.BaseURL.Host := by
  refine ⟨?_, ?_, ?_, ?_, ?_, ?_, ?_, ?_, ?_, ?_⟩ <;> decide!

/-- C3, on `blog/x/../info` against the base of `NewClient`: the request has the
host of the base and the path `/v2/blog/info`, which is the merged path
`/v2/blog/x/../info` without its dot segments. -/
theorem NewRequest_resolves_path_witness :
    (∃ req, exampleClient.NewRequest (str "GET") (str "blog/x/../info") [] = .ok req ∧
      req.URL.Scheme = str "http" ∧ req.URL.Host = str "api.tumblr.com" ∧
      req.URL.Path = str "/v2/blog/info") ∧
    rfc3986.merge true (str "/v2/") (str "blog/x/../info") = str "/v2/blog/x/../info" ∧
    url.resolvePath (str "/v2/") (str "blog/x/../info") =
      rfc3986.removeDotSegments (str "/v2/blog/x/../info") := by
  have h := NewRequest_resolves_path exampleClient (str "blog/x/../info")
    { Path := str "blog/x/../info" } (by decide!) rfl rfl rfl rfl (by decide!) (by decide!)
  have hok : (exampleClient.NewRequest (str "GET") (str "blog/x/../info") []).isOk = true := by
    decide!
  have hm : rfc3986.merge true (str "/v2/") (str "blog/x/../info") = str "/v2/blog/x/../info" := by
    decide!
  refine ⟨?_, hm, ?_⟩
  · match hr : exampleClient.NewRequest (str "GET") (str "blog/x/../info") [] with
    | .ok req =>
      obtain ⟨r1, _, r3, _, _, r6⟩ := h.2.2.2.2.1 (str "GET") [] req (by decide!) hr
      exact ⟨req, rfl, r1.trans (by decide!), (r3 (by decide!)).trans (by decide!),
        (r6 (by decide!)).trans (by decide!)⟩
    | .error e => rw [hr] at hok; cases hok
  · have h6 := h.2.2.2.2.2.1 true (by decide!) (Or.inl (by decide!)) (by decide!)
    have e1 : exampleClient.BaseURL.EscapedPath = str "/v2/" := by decide!
    have e2 : url.URL.EscapedPath { Path := str "blog/x/../info" } = str "blog/x/../info" := by
      decide!
    rw [e1, e2, hm] at h6
    exact h6

end NewRequest

/-! ## Request headers -/

/-- The result of `http.NewRequest` has no header yet. -/
theorem http_NewRequest_Header (method urlStr body : GoString) (req : http.Request)
    (h : http.NewRequest method urlStr body = .ok req) : req.Header = [] := by
  unfold http.NewRequest at h
  cases hp : url.Parse urlStr with
  | error e =>
    simp only [hp] at h
    split_ifs at h
  | ok u =>
    simp only [hp] at h
    split_ifs at h <;> injection h with h <;> rw [← h]

/-- C4. For every method, path and body for which `NewRequest` succeeds, the
header of the built request holds `Content-Type:
application/x-www-form-urlencoded` when and only when the method is `POST`, always
`User-Agent` with the client's `UserAgent` field as its one value, and nothing
else; a client returned by `NewClient` has the `UserAgent`
`github.com/lestopher/tumblr v0.0.1`. -/
theorem NewRequest_headers {Err Ptr : Type} (c : Client Err Ptr)
    (method urlStr body : GoString) (req : http.Request)
    (h : c.NewRequest method urlStr body = .ok req) :
    (method = str "POST" →
      req.Header = [(str "Content-Type", [str "application/x-www-form-urlencoded"]),
                    (str "User-Agent", [c.UserAgent])]) ∧
    (method ≠ str "POST" → req.Header = [(str "User-Agent", [c.UserAgent])]) ∧
    (http.Header.Values req.Header (str "Content-Type") =
      if method = str "POST" then [str "application/x-www-form-urlencoded"] else []) ∧
    http.Header.Values req.Header (str "User-Agent") = [c.UserAgent] ∧
    (∀ (d : Transport Err) (t : Option (Transport Err)),
      (NewClient d t : Client Err Ptr).UserAgent = str "github.com/lestopher/tumblr v0.0.1") := by
  have hct : http.CanonicalMIMEHeaderKey (str "Content-Type") = str "Content-Type" := by decide!
  have hua : http.CanonicalMIMEHeaderKey (str "User-Agent") = str "User-Agent" := by decide!
  have hne : str "Content-Type" ≠ str "User-Agent" := by decide!
  have hagent : ∀ (d : Transport Err) (t : Option (Transport Err)),
      (NewClient d t : Client Err Ptr).UserAgent = str "github.com/lestopher/tumblr v0.0.1" := by
    intro d t
    show UserAgent = _
    decide!
  unfold Client.NewRequest at h
  cases hp : url.Parse urlStr with
  | error e => simp [hp] at h
  | ok rel =>
    simp only [hp] at h
    cases hr : http.NewRequest method (c.requestURL rel).String body with
    | error e => simp [hr] at h
    | ok req0 =>
      simp only [hr] at h
      have h0 := http_NewRequest_Header _ _ _ _ hr
      by_cases hm : method = str "POST"
      · simp only [hm, if_true] at h
        cases h
        subst hm
        simp [h0, http.Header.Add, http.Header.Values, url.Values.Add, url.Values.lookup,
          url.Values.assign, hct, hua, hne, hne.symm, hagent]
      · simp only [hm, if_false] at h
        cases h
        simp [h0, hm, http.Header.Add, http.Header.Values, url.Values.Add, url.Values.lookup,
          url.Values.assign, hct, hua, hne, hne.symm, hagent]

/-- C4, on a `POST` and on a `GET` request of the example client. -/
theorem NewRequest_headers_witness :
    (∃ req, exampleClient.NewRequest (str "POST") (str "blog/example.tumblr.com/post")
        (str "type=text&title=Hello") = .ok req ∧
      req.Header = [(str "Content-Type", [str "application/x-www-form-urlencoded"]),
                    (str "User-Agent", [str "github.com/lestopher/tumblr v0.0.1"])]) ∧
    (∃ req, exampleClient.NewRequest (str "GET") (str "blog/example.tumblr.com/info") [] =
        .ok req ∧
      req.Header = [(str "User-Agent", [str "github.com/lestopher/tumblr v0.0.1"])]) := by
  have hp : (exampleClient.NewRequest (str "POST") (str "blog/example.tumblr.com/post")
      (str "type=text&title=Hello")).isOk = true := by decide!
  have hg : (exampleClient.NewRequest (str "GET") (str "blog/example.tumblr.com/info")
      []).isOk = true := by decide!
  constructor
  · match hr : exampleClient.NewRequest (str "POST") (str "blog/example.tumblr.com/post")
        (str "type=text&title=Hello") with
    | .ok req =>
      exact ⟨req, rfl, (NewRequest_headers exampleClient _ _ _ req hr).1 rfl⟩
    | .error e => rw [hr] at hp; cases hp
  · match hr : exampleClient.NewRequest (str "GET") (str "blog/example.tumblr.com/info") [] with
    | .ok req =>
      exact ⟨req, rfl, (NewRequest_headers exampleClient _ _ _ req hr).2.1 (by decide!)⟩
    | .error e => rw [hr] at hg; cases hg

/-! ## Dispatch: `Client.Do` -/

section Do

variable {Err Ptr Value : Type} [DecidableEq Ptr]

/-- C5. For every pair of round trips that succeed with responses of the same body
(whatever their status codes) and every non-nil target, `Do` returns the same
error, stores the same decoded `Meta` in the envelope and leaves the same decoded
payload behind the target; in particular the error is `nil` whenever the decoder
accepts the body, for every status code. -/
theorem Do_ignores_status_code (decode : Decoder Err Ptr Value) (c1 c2 : Client Err Ptr)
    (heap : Ptr → Value) (req1 req2 : http.Request) (p : Ptr) (resp1 resp2 : http.Response)
    (h1 : c1.client req1 = .ok resp1) (h2 : c2.client req2 = .ok resp2)
    (hbody : resp1.Body = resp2.Body) :
    (c1.Do decode heap req1 (some p)).err = (c2.Do decode heap req2 (some p)).err ∧
    (c1.Do decode heap req1 (some p)).client.Response.map (·.Meta) =
      (c2.Do decode heap req2 (some p)).client.Response.map (·.Meta) ∧
    (c1.Do decode heap req1 (some p)).client.Response.map (·.Response) =
      (c2.Do decode heap req2 (some p)).client.Response.map (·.Response) ∧
    (c1.Do decode heap req1 (some p)).heap = (c2.Do decode heap req2 (some p)).heap ∧
    (c1.Do decode heap req1 (some p)).err = (decode resp1.Body (heap p)).err ∧
    ((decode resp1.Body (heap p)).err = none →
      (c1.Do decode heap req1 (some p)).err = none ∧
      (c1.Do decode heap req1 (some p)).resp = some resp1) := by
  simp [Client.Do, h1, h2, hbody]

/-- C5, on the example transport: the 200 answer to `GET` and the 404 answer to
`POST` carry the same body and decode alike. -/
theorem Do_ignores_status_code_witness :
    exampleClient.client (exampleRequest (str "GET")) =
        .ok { StatusCode := 200, Header := [], Body := exampleBody } ∧
    exampleClient.client (exampleRequest (str "POST")) =
        .ok { StatusCode := 404, Header := [], Body := exampleBody } ∧
    (exampleClient.Do exampleDecoder (fun _ => 0) (exampleRequest (str "POST")) (some 0)).err
      = none :=
  ⟨by decide!, by decide!,
   ((Do_ignores_status_code exampleDecoder exampleClient exampleClient (fun _ => 0)
      (exampleRequest (str "POST")) (exampleRequest (str "GET")) 0
      { StatusCode := 404, Header := [], Body := exampleBody }
      { StatusCode := 200, Header := [], Body := exampleBody }
      (by decide!) (by decide!) rfl).2.2.2.2.2 (by decide!)).1⟩

/-- C6. For every round trip that succeeds with response `resp` and every non-nil
target, when the decoder reports an error on the body (malformed JSON, or JSON
that does not fit the target), `Do` returns that error together with `resp`. -/
theorem Do_decode_error (decode : Decoder Err Ptr Value) (c : Client Err Ptr)
    (heap : Ptr → Value) (req : http.Request) (p : Ptr) (resp : http.Response) (e : Err)
    (hresp : c.client req = .ok resp) (hdec : (decode resp.Body (heap p)).err = some e) :
    (c.Do decode heap req (some p)).resp = some resp ∧
    (c.Do decode heap req (some p)).err = some e := by
  simp [Client.Do, hresp, hdec]

/-- C6, on the example transport: the answer to `PUT` is not JSON. -/
theorem Do_decode_error_witness :
    (exampleClient.Do exampleDecoder (fun _ => 0) (exampleRequest (str "PUT")) (some 0)).resp =
        some { StatusCode := 200, Header := [], Body := str "<html>" } ∧
    (exampleClient.Do exampleDecoder (fun _ => 0) (exampleRequest (str "PUT")) (some 0)).err =
        some 1 :=
  Do_decode_error exampleDecoder exampleClient (fun _ => 0) (exampleRequest (str "PUT")) 0
    { StatusCode := 200, Header := [], Body := str "<html>" } 1 (by decide!) (by decide!)

/-- C7. For every round trip that succeeds with response `resp`, `Do` with a nil
target returns exactly `(resp, nil)` for every decoder and every body: the decoder
is not consulted, and the response, the client and the memory behind the targets
are unchanged. -/
theorem Do_nil_target (decode : Decoder Err Ptr Value) (c : Client Err Ptr)
    (heap : Ptr → Value) (req : http.Request) (resp : http.Response)
    (hresp : c.client req = .ok resp) :
    c.Do decode heap req none =
      { resp := some resp, err := none, written := some resp, client := c, heap := heap,
        bodyClosed := true } := by
  simp [Client.Do, hresp]

/-- C7, on the example transport, with a body that the decoder rejects. -/
theorem Do_nil_target_witness :
    (exampleClient.Do exampleDecoder (fun _ => 0) (exampleRequest (str "PUT")) none).err = none ∧
    (exampleClient.Do exampleDecoder (fun _ => 0) (exampleRequest (str "PUT")) none).resp =
      some { StatusCode := 200, Header := [], Body := str "<html>" } := by
  rw [Do_nil_target exampleDecoder exampleClient (fun _ => 0) (exampleRequest (str "PUT"))
    { StatusCode := 200, Header := [], Body := str "<html>" } (by decide!)]
  exact ⟨rfl, rfl⟩

/-- C8. For every request on which the transport reports an error `e` and every
target, nil or not, `Do` returns a nil response and exactly `e`; the client, with
its last-response slot, and the memory behind the targets are as before. -/
theorem Do_transport_error (decode : Decoder Err Ptr Value) (c : Client Err Ptr)
    (heap : Ptr → Value) (req : http.Request) (v : Option Ptr) (e : Err)
    (herr : c.client req = .error e) :
    c.Do decode heap req v =
      { resp := none, err := some e, written := none, client := c, heap := heap,
        bodyClosed := false } := by
  simp [Client.Do, herr]

/-- C8, on the example transport, which fails on `DELETE`. -/
theorem Do_transport_error_witness :
    (exampleClient.Do exampleDecoder (fun _ => 0) (exampleRequest (str "DELETE")) (some 0)).resp
        = none ∧
    (exampleClient.Do exampleDecoder (fun _ => 0) (exampleRequest (str "DELETE")) (some 0)).err
        = some 503 := by
  rw [Do_transport_error exampleDecoder exampleClient (fun _ => 0)
    (exampleRequest (str "DELETE")) (some 0) 503 (by decide!)]
  exact ⟨rfl, rfl⟩

/-- C10. After a call of `Do` whose round trip succeeds with response `resp`: with
a nil target the last-response slot keeps its value; with a target `p` the slot
holds a new envelope, the one that `Do` created with `HTTPResponse` `resp` and the
payload member `p` and handed to the decoder, as the decoder left it, whether or
not the decoder reported an error.  So `HTTPResponse` is `resp` and the payload
member is `p` in the slot exactly when the decoder left these two members as they
were.  No other field of the client changes. -/
theorem Do_last_response (decode : Decoder Err Ptr Value) (c : Client Err Ptr)
    (heap : Ptr → Value) (req : http.Request) (resp : http.Response)
    (hresp : c.client req = .ok resp) :
    (c.Do decode heap req none).client.Response = c.Response ∧
    (∀ p : Ptr, (c.Do decode heap req (some p)).client.Response =
      some { HTTPResponse := (decode resp.Body (heap p)).HTTPResponse resp,
             Meta := (decode resp.Body (heap p)).Meta,
             Response := (decode resp.Body (heap p)).Response p }) ∧
    (∀ p : Ptr,
      ((decode resp.Body (heap p)).HTTPResponse resp = some resp ∧
        (decode resp.Body (heap p)).Response p = some p) ↔
      (c.Do decode heap req (some p)).client.Response =
        some { HTTPResponse := some resp, Meta := (decode resp.Body (heap p)).Meta,
               Response := some p }) ∧
    (∀ v : Option Ptr, (c.Do decode heap req v).client = { c with
      Response := (c.Do decode heap req v).client.Response }) := by
  refine ⟨by simp [Client.Do, hresp], fun p => by simp [Client.Do, hresp], fun p => ?_,
    fun v => ?_⟩
  · simp [Client.Do, hresp]
  · cases v <;> simp [Client.Do, hresp]

/-- C10, counterexample to the claim as stated, on the example transport with the
target `5`.  The answer to `PATCH` has `null` for `response`: the decoder reports
no error, and the payload member of the envelope in the slot is `nil`, not the
target.  The answer to `OPTIONS` has `null` for `HTTPResponse`: the member
`HTTPResponse` of the envelope in the slot is `nil`, not the response of the round
trip. -/
theorem Do_decoder_unbinds_envelope :
    exampleClient.client (exampleRequest (str "PATCH")) =
        .ok { StatusCode := 200, Header := [], Body := nullPayloadBody } ∧
    (exampleClient.Do exampleDecoder (fun _ => 0) (exampleRequest (str "PATCH")) (some 5)).err
        = none ∧
    (exampleClient.Do exampleDecoder (fun _ => 0) (exampleRequest (str "PATCH"))
        (some 5)).client.Response =
      some { HTTPResponse := some { StatusCode := 200, Header := [], Body := nullPayloadBody },
             Meta := some ⟨200, str "OK"⟩, Response := none } ∧
    (exampleClient.Do exampleDecoder (fun _ => 0) (exampleRequest (str "PATCH"))
        (some 5)).client.Response.map (·.Response) ≠ some (some 5) ∧
    (exampleClient.Do exampleDecoder (fun _ => 0) (exampleRequest (str "OPTIONS")) (some 5)).err
        = none ∧
    (exampleClient.Do exampleDecoder (fun _ => 0) (exampleRequest (str "OPTIONS"))
        (some 5)).client.Response =
      some { HTTPResponse := none, Meta := none, Response := some 5 } ∧
    (exampleClient.Do exampleDecoder (fun _ => 0) (exampleRequest (str "OPTIONS"))
        (some 5)).client.Response.map (·.HTTPResponse) ≠
      some (some { StatusCode := 200, Header := [], Body := nullHTTPResponseBody }) := by
  refine ⟨?_, ?_, ?_, ?_, ?_, ?_, ?_⟩ <;> decide!

/-- C10, on the example transport: the slot is replaced on a decode error too, and
on the answer to `GET` the envelope in it holds the response and the target. -/
theorem Do_last_response_witness :
    (exampleClient.Do exampleDecoder (fun _ => 0) (exampleRequest (str "PUT")) (some 5)).err
        = some 1 ∧
    (exampleClient.Do exampleDecoder (fun _ => 0) (exampleRequest (str "PUT"))
        (some 5)).client.Response =
      some { HTTPResponse := some { StatusCode := 200, Header := [], Body := str "<html>" },
             Meta := none, Response := some 5 } ∧
    (exampleClient.Do exampleDecoder (fun _ => 0) (exampleRequest (str "GET"))
        (some 5)).client.Response =
      some { HTTPResponse := some { StatusCode := 200, Header := [], Body := exampleBody },
             Meta := some ⟨200, str "OK"⟩, Response := some 5 } :=
  ⟨by decide!,
   ((Do_last_response exampleDecoder exampleClient (fun _ => 0) (exampleRequest (str "PUT"))
      { StatusCode := 200, Header := [], Body := str "<html>" } (by decide!)).2.1 5).trans
      (by decide!),
   ((Do_last_response exampleDecoder exampleClient (fun _ => 0) (exampleRequest (str "GET"))
      { StatusCode := 200, Header := [], Body := exampleBody } (by decide!)).2.2.1 5).mp
      ⟨by decide!, by decide!⟩⟩

end Do

end tumblr
